import Mathlib

/-!
# Disjunct construction, fast matcher and string set of the link-grammar parser (link-grammar 4.3.5)

A shallow embedding of `build-disjuncts.c`, `fast-match.c`, `string-set.c` and
of the expression and list helpers of `word-utils.c`, followed by theorems
about that embedding.

Modelling conventions.

* A singly linked C list (`next` pointers) is a Lean `List`; the head of the
  C list is the head of the Lean list.  The lists of match nodes are modelled
  a second time as cells of a memory, linked through their `next` fields, to
  state which cells `form_match_list` writes.
* The C `int` costs of clauses and disjuncts are mathematical integers: the
  embedding describes runs in which no signed overflow occurs (overflow of a
  signed `int` has no defined behaviour in C).  The cost of an expression
  node is a natural number, as in the data model of the spec.
* Interned strings (`char *` into the string set) are Lean `String` values.
* The expression pointers stored in child lists and in X_nodes are non-null.
* The `assert` of the parser aborts the run; a function that can reach one
  returns `Except String _`, the error carrying the assertion message.
* Constants that are declared in headers outside `link-grammar/*.c`
  (`NORMAL_LABEL`, `THIN_priority`, `UNLIMITED_LEN`) are taken as parameters,
  bundled in `Consts`.
-/

namespace LinkGrammar

/-! ## Data model -/

mutual
/-- Modelled from the spec: the declaration of `Exp_struct` is in a header that
is not among the source files; the data model of the spec gives a node a type
(AND / OR / CONNECTOR), a cost that is a non-negative integer, and on
connector nodes a string, a direction and a multi flag.  The node is tagged by
its `type` field: `CONNECTOR_type` nodes use the `u.string` arm of the union
together with `dir` and `multi`, every other node uses the `u.l` arm (a list
of children).  `no_type` stands for a node whose tag is none of `AND_type`,
`OR_type`, `CONNECTOR_type`. -/
inductive Exp : Type where
  | CONNECTOR (cost : Nat) (dir : Char) (multi : Bool) (string : String) : Exp
  | AND (cost : Nat) (l : E_list) : Exp
  | OR (cost : Nat) (l : E_list) : Exp
  | no_type (cost : Nat) (l : E_list) : Exp
/-- The child list `E_list_struct`: a cell holds an expression `e` and `next`. -/
inductive E_list : Type where
  | nil : E_list
  | cons (e : Exp) (next : E_list) : E_list
end

/-- Temporary connector `Tconnector_struct` (without its `next` field). -/
structure Tconnector where
  multi : Bool
  dir : Char
  string : String
deriving DecidableEq, Repr

/-- The struct `clause_struct` (without its `next` field). -/
structure Clause where
  cost : Int
  maxcost : Int
  c : List Tconnector
deriving DecidableEq, Repr

/-- The fields of `Connector_struct` written by the disjunct builder. -/
structure Connector where
  label : Int
  word : Int
  length_limit : Int
  priority : Int
  multi : Bool
  string : String
deriving DecidableEq, Repr

/-- The struct `Disjunct_struct` (without its `next` field). -/
structure Disjunct where
  left : List Connector
  right : List Connector
  string : String
  cost : Int
deriving DecidableEq, Repr

/-- The struct `X_node_struct`: one alternative expression of a word, tagged
with the print name of its dictionary entry. -/
structure X_node where
  string : String
  exp : Exp

/-- The fields of `Word_struct` used by the disjunct builder. -/
structure Word where
  string : String
  x : List X_node
  d : List Disjunct

/-- The sentence: `word[0 .. length-1]`; `sent->length` is the length of the
list. -/
structure Sentence where
  word : List Word

/-- Constants of the parser headers, which the source files only name. -/
structure Consts where
  NORMAL_LABEL : Int
  THIN_priority : Int
  UNLIMITED_LEN : Int

/-! ## build-disjuncts.c -/

/-- The loop of `Treverse`: `head` is the list reversed so far. -/
def Treverse_loop : List Tconnector → List Tconnector → List Tconnector
  | [], head => head
  | e :: x, head => Treverse_loop x (e :: head)

/-- Reverse the order of the list `e`. -/
def Treverse (e : List Tconnector) : List Tconnector := Treverse_loop e []

/-- The loop of `reverse` on `Connector` lists. -/
def reverse_loop : List Connector → List Connector → List Connector
  | [], head => head
  | e :: x, head => reverse_loop x (e :: head)

/-- Reverse the order of the list `e`. -/
def reverse (e : List Connector) : List Connector := reverse_loop e []

/-- One of the two copy loops of `catenate`: every cell of the list is copied
and pushed on `head`. -/
def catenate_push : List Tconnector → List Tconnector → List Tconnector
  | [], head => head
  | e :: rest, head => catenate_push rest (e :: head)

/-- Builds a new list that is the catenation of `e1` with `e2`. -/
def catenate (e1 e2 : List Tconnector) : List Tconnector :=
  Treverse (catenate_push e2 (catenate_push e1 []))

/-- Build the connector for a terminal node. -/
def build_terminal (dir : Char) (multi : Bool) (string : String) : List Tconnector :=
  [{ multi := multi, dir := dir, string := string }]

/-- Inner loop of the AND case: `c4` runs over `c2`, each product clause is
pushed on `c_head`. -/
def and_inner (c3 : Clause) : List Clause → List Clause → List Clause
  | [], c_head => c_head
  | c4 :: rest, c_head =>
    and_inner c3 rest
      ({ cost := c3.cost + c4.cost, maxcost := max c3.maxcost c4.maxcost,
         c := catenate c3.c c4.c } :: c_head)

/-- Outer loop of the AND case: `c3` runs over `c1`. -/
def and_outer (c2 : List Clause) : List Clause → List Clause → List Clause
  | [], c_head => c_head
  | c3 :: rest, c_head => and_outer c2 rest (and_inner c3 c2 c_head)

/-- The `while` loop of the OR case: the cells of `c1` are pushed on `c`. -/
def or_push : List Clause → List Clause → List Clause
  | [], c => c
  | c1 :: c3, c => or_push c3 (c1 :: c)

/-- The final loop of `build_clause`: the cost of the node is added to the
`cost` and to the `maxcost` of every clause. -/
def add_node_cost (cost : Nat) : List Clause → List Clause
  | [] => []
  | c1 :: rest =>
    { c1 with cost := c1.cost + cost, maxcost := c1.maxcost + cost } :: add_node_cost cost rest

mutual
/-- Build the clause list for the expression `e` (a non-null pointer). -/
def build_clause : Exp → Int → Except String (List Clause)
  | Exp.AND cost l, cost_cutoff => do
    let c ← build_clause_and l cost_cutoff [{ cost := 0, maxcost := 0, c := [] }]
    pure (add_node_cost cost c)
  | Exp.OR cost l, cost_cutoff => do
    let c ← build_clause_or l cost_cutoff []
    pure (add_node_cost cost c)
  | Exp.CONNECTOR cost dir multi string, _ =>
    pure (add_node_cost cost [{ cost := 0, maxcost := 0, c := build_terminal dir multi string }])
  | Exp.no_type _ _, _ => throw "an expression node with no type"
/-- The `for` loop over the children of an AND node; `c1` is the product built
so far. -/
def build_clause_and : E_list → Int → List Clause → Except String (List Clause)
  | E_list.nil, _, c1 => pure c1
  | E_list.cons e next, cost_cutoff, c1 => do
    let c2 ← build_clause e cost_cutoff
    build_clause_and next cost_cutoff (and_outer c2 c1 [])
/-- The `for` loop over the children of an OR node; `c` is the list built so
far. -/
def build_clause_or : E_list → Int → List Clause → Except String (List Clause)
  | E_list.nil, _, c => pure c
  | E_list.cons e next, cost_cutoff, c => do
    let c1 ← build_clause e cost_cutoff
    build_clause_or next cost_cutoff (or_push c1 c)
end

/-- A fresh `Connector` cell from `xalloc`; every field of it is written
before the cell is used. -/
def xalloc_Connector : Connector :=
  { label := 0, word := 0, length_limit := 0, priority := 0, multi := false, string := "" }

/-- The function `init_connector` of word-utils.c. -/
def init_connector (K : Consts) (c : Connector) : Connector :=
  { c with length_limit := K.UNLIMITED_LEN }

/-- Build a new list of connectors from the Tconnectors of `e`, keeping only
those whose direction is `c`. -/
def extract_connectors (K : Consts) : List Tconnector → Char → List Connector
  | [], _ => []
  | e :: next, c =>
    if e.dir = c then
      let e1 := init_connector K xalloc_Connector
      { e1 with multi := e.multi, string := e.string, label := K.NORMAL_LABEL,
                priority := K.THIN_priority, word := 0 } :: extract_connectors K next c
    else extract_connectors K next c

/-- The loop of `build_disjunct`; `dis` is the list built so far. -/
def build_disjunct_loop (K : Consts) (string : String) (cost_cutoff : Int) :
    List Clause → List Disjunct → List Disjunct
  | [], dis => dis
  | cl :: next, dis =>
    if cl.maxcost ≤ cost_cutoff then
      build_disjunct_loop K string cost_cutoff next
        ({ left := reverse (extract_connectors K cl.c '-'),
           right := reverse (extract_connectors K cl.c '+'),
           string := string, cost := cl.cost } :: dis)
    else build_disjunct_loop K string cost_cutoff next dis

/-- Build a disjunct list out of the clause list `cl`; `string` is the print
name of the word that generated the disjuncts. -/
def build_disjunct (K : Consts) (cl : List Clause) (string : String) (cost_cutoff : Int) :
    List Disjunct :=
  build_disjunct_loop K string cost_cutoff cl []

/-- Clause building followed by disjunct building for one alternative. -/
def build_disjuncts_for_X_node (K : Consts) (x : X_node) (cost_cutoff : Int) :
    Except String (List Disjunct) := do
  let c ← build_clause x.exp cost_cutoff
  pure (build_disjunct K c x.string cost_cutoff)

/-- The function `catenate_disjuncts` of word-utils.c: `d1` followed by `d2`;
the last cell of `d1` is linked to `d2`. -/
def catenate_disjuncts (d1 d2 : List Disjunct) : List Disjunct :=
  match d1, d2 with
  | [], _ => d2
  | _, [] => d1
  | _, _ => d1 ++ d2

/-- The inner loop of `build_sentence_disjuncts` over the alternatives of one
word; `d` is the list built so far. -/
def build_word_disjuncts (K : Consts) (cost_cutoff : Int) :
    List X_node → List Disjunct → Except String (List Disjunct)
  | [], d => pure d
  | x :: next, d => do
    let dx ← build_disjuncts_for_X_node K x cost_cutoff
    build_word_disjuncts K cost_cutoff next (catenate_disjuncts dx d)

/-- The outer loop of `build_sentence_disjuncts` over the words. -/
def build_sentence_words (K : Consts) (cost_cutoff : Int) :
    List Word → Except String (List Word)
  | [] => pure []
  | w :: rest => do
    let d ← build_word_disjuncts K cost_cutoff w.x []
    let rest1 ← build_sentence_words K cost_cutoff rest
    pure ({ w with d := d } :: rest1)

/-- Turn the expressions of the sentence into disjuncts. -/
def build_sentence_disjuncts (K : Consts) (sent : Sentence) (cost_cutoff : Int) :
    Except String Sentence := do
  let ws ← build_sentence_words K cost_cutoff sent.word
  pure { sent with word := ws }

/-! ## Well-typed expressions -/

mutual
/-- Every node of the tree is an AND, an OR or a CONNECTOR node. -/
def well_typed : Exp → Bool
  | Exp.CONNECTOR _ _ _ _ => true
  | Exp.AND _ l => well_typed_list l
  | Exp.OR _ l => well_typed_list l
  | Exp.no_type _ _ => false
/-- Every expression of the child list is well typed. -/
def well_typed_list : E_list → Bool
  | E_list.nil => true
  | E_list.cons e next => well_typed e && well_typed_list next
end

/-- The child list with the given expressions, in order. -/
def E_list.ofList : List Exp → E_list
  | [] => E_list.nil
  | e :: rest => E_list.cons e (E_list.ofList rest)

/-! ## The clause list as a sum of products -/

/-- The clause the AND case builds from `c3` and `c4`. -/
def and_clause (c3 c4 : Clause) : Clause :=
  { cost := c3.cost + c4.cost, maxcost := max c3.maxcost c4.maxcost, c := c3.c ++ c4.c }

/-- The clause with the cost of a node added to both of its costs. -/
def add_cost (cost : Nat) (c1 : Clause) : Clause :=
  { c1 with cost := c1.cost + cost, maxcost := c1.maxcost + cost }

mutual
/-- The clauses of an expression, listed child by child: the sum of products
with the costs of the code (sum of costs; maximum of the children at an AND
node; the cost of the node added to both). -/
def expansion : Exp → List Clause
  | Exp.CONNECTOR cost dir multi string =>
    [add_cost cost { cost := 0, maxcost := 0, c := build_terminal dir multi string }]
  | Exp.AND cost l => (expansion_and l).map (add_cost cost)
  | Exp.OR cost l => (expansion_or l).map (add_cost cost)
  | Exp.no_type _ _ => []
/-- The products of one clause per child of an AND node. -/
def expansion_and : E_list → List Clause
  | E_list.nil => [{ cost := 0, maxcost := 0, c := [] }]
  | E_list.cons e next =>
    (expansion e).flatMap (fun a => (expansion_and next).map (and_clause a))
/-- The clauses of the children of an OR node. -/
def expansion_or : E_list → List Clause
  | E_list.nil => []
  | E_list.cons e next => expansion e ++ expansion_or next
end

/-! ## The claims about clauses, in the words of the spec -/

mutual
/-- The sum-of-products expansion of an expression, as the spec words it: a
leaf gives the one sequence `[leaf]`; an OR gives the union of the expansions
of its children; an AND gives every concatenation, in child order, of one
sequence chosen from each child. -/
def sum_of_products : Exp → List (List Tconnector)
  | Exp.CONNECTOR _ dir multi string => [[{ multi := multi, dir := dir, string := string }]]
  | Exp.AND _ l => sum_of_products_and l
  | Exp.OR _ l => sum_of_products_or l
  | Exp.no_type _ _ => []
/-- Every concatenation of one sequence from each child, in child order. -/
def sum_of_products_and : E_list → List (List Tconnector)
  | E_list.nil => [[]]
  | E_list.cons e next =>
    (sum_of_products e).flatMap (fun a => (sum_of_products_and next).map (fun b => a ++ b))
/-- The union of the expansions of the children. -/
def sum_of_products_or : E_list → List (List Tconnector)
  | E_list.nil => []
  | E_list.cons e next => sum_of_products e ++ sum_of_products_or next
end

mutual
/-- The connector leaves of an expression in source order, left to right. -/
def leaves : Exp → List Tconnector
  | Exp.CONNECTOR _ dir multi string => [{ multi := multi, dir := dir, string := string }]
  | Exp.AND _ l => leaves_list l
  | Exp.OR _ l => leaves_list l
  | Exp.no_type _ l => leaves_list l
/-- The connector leaves of a child list in source order. -/
def leaves_list : E_list → List Tconnector
  | E_list.nil => []
  | E_list.cons e next => leaves e ++ leaves_list next
end

mutual
/-- The choices of an expression (all children at an AND node, one child at an
OR node), each with the connector leaves it chooses and the costs of the nodes
it passes through, every node once: the node itself, then the nodes of the
children taken. -/
def choice_nodes : Exp → List (List Tconnector × List Nat)
  | Exp.CONNECTOR cost dir multi string =>
    [([{ multi := multi, dir := dir, string := string }], [cost])]
  | Exp.AND cost l => (choice_nodes_and l).map (fun p => (p.1, cost :: p.2))
  | Exp.OR cost l => (choice_nodes_or l).map (fun p => (p.1, cost :: p.2))
  | Exp.no_type _ _ => []
/-- One choice in every child of an AND node. -/
def choice_nodes_and : E_list → List (List Tconnector × List Nat)
  | E_list.nil => [([], [])]
  | E_list.cons e next =>
    (choice_nodes e).flatMap
      (fun a => (choice_nodes_and next).map (fun b => (a.1 ++ b.1, a.2 ++ b.2)))
/-- One choice in one child of an OR node. -/
def choice_nodes_or : E_list → List (List Tconnector × List Nat)
  | E_list.nil => []
  | E_list.cons e next => choice_nodes e ++ choice_nodes_or next
end

/-- The sum of the node costs of a choice, as a C `int`. -/
def cost_sum (costs : List Nat) : Int := ((costs.sum : Nat) : Int)

/-- The maximum of a list of integers, 0 for the empty list. -/
def max_or_zero : List Int → Int
  | [] => 0
  | m :: ms => ms.foldl max m

mutual
/-- The maxcost of every choice by the rule of the claim: at a Connector leaf
the cost of the leaf; at an OR node the maxcost of the chosen child plus the
cost of the node; at an AND node the maximum of the maxcosts chosen in the
children (0 for no children) plus the cost of the node. -/
def maxcost_rule : Exp → List (List Tconnector × Int)
  | Exp.CONNECTOR cost dir multi string =>
    [([{ multi := multi, dir := dir, string := string }], (cost : Int))]
  | Exp.AND cost l => (maxcost_rule_and l).map (fun p => (p.1, max_or_zero p.2 + cost))
  | Exp.OR cost l => (maxcost_rule_or l).map (fun p => (p.1, p.2 + cost))
  | Exp.no_type _ _ => []
/-- One choice in every child of an AND node, with the list of the maxcosts
chosen in the children. -/
def maxcost_rule_and : E_list → List (List Tconnector × List Int)
  | E_list.nil => [([], [])]
  | E_list.cons e next =>
    (maxcost_rule e).flatMap
      (fun a => (maxcost_rule_and next).map (fun b => (a.1 ++ b.1, a.2 :: b.2)))
/-- One choice in one child of an OR node. -/
def maxcost_rule_or : E_list → List (List Tconnector × Int)
  | E_list.nil => []
  | E_list.cons e next => maxcost_rule e ++ maxcost_rule_or next
end

mutual
/-- No AND node of the expression has more than one child. -/
def and_at_most_one : Exp → Bool
  | Exp.CONNECTOR _ _ _ _ => true
  | Exp.AND _ E_list.nil => true
  | Exp.AND _ (E_list.cons e E_list.nil) => and_at_most_one e
  | Exp.AND _ (E_list.cons _ (E_list.cons _ _)) => false
  | Exp.OR _ l => and_at_most_one_list l
  | Exp.no_type _ l => and_at_most_one_list l
/-- No AND node below the child list has more than one child. -/
def and_at_most_one_list : E_list → Bool
  | E_list.nil => true
  | E_list.cons e next => and_at_most_one e && and_at_most_one_list next
end

/-! ## The disjunct of a clause -/

/-- The `Connector` that `extract_connectors` makes from a `Tconnector`. -/
def connector_of (K : Consts) (t : Tconnector) : Connector :=
  { label := K.NORMAL_LABEL, word := 0, length_limit := K.UNLIMITED_LEN,
    priority := K.THIN_priority, multi := t.multi, string := t.string }

/-- The disjunct that the loop of `build_disjunct` makes from one clause. -/
def disjunct_of (K : Consts) (string : String) (cl : Clause) : Disjunct :=
  { left := reverse (extract_connectors K cl.c '-'),
    right := reverse (extract_connectors K cl.c '+'),
    string := string, cost := cl.cost }

/-- The clauses that pass the cutoff test of `build_disjunct`. -/
def kept (cost_cutoff : Int) (cl : List Clause) : List Clause :=
  cl.filter (fun c => decide (c.maxcost ≤ cost_cutoff))

/-! ## Fixtures -/

/-- The expression `(A+ or B-)`, all costs 0. -/
def exp_S1 : Exp :=
  Exp.OR 0 (E_list.ofList [Exp.CONNECTOR 0 '+' false "A", Exp.CONNECTOR 0 '-' false "B"])

/-- The expression `(A- & B+)`. -/
def exp_S2 : Exp :=
  Exp.AND 0 (E_list.ofList [Exp.CONNECTOR 0 '-' false "A", Exp.CONNECTOR 0 '+' false "B"])

/-- The expression `((A+ or B+) & (C- or D-))`. -/
def exp_S3 : Exp :=
  Exp.AND 0 (E_list.ofList
    [Exp.OR 0 (E_list.ofList [Exp.CONNECTOR 0 '+' false "A", Exp.CONNECTOR 0 '+' false "B"]),
     Exp.OR 0 (E_list.ofList [Exp.CONNECTOR 0 '-' false "C", Exp.CONNECTOR 0 '-' false "D"])])

/-- The expression `(A+ or [B+])` in which `B+` carries cost 3. -/
def exp_S4 : Exp :=
  Exp.OR 0 (E_list.ofList [Exp.CONNECTOR 0 '+' false "A", Exp.CONNECTOR 3 '+' false "B"])

/-- The expression `([A+] & [[B+]])`: an AND node of cost 0 over a leaf of cost 1
and a leaf of cost 2. -/
def exp_and_costs : Exp :=
  Exp.AND 0 (E_list.ofList [Exp.CONNECTOR 1 '+' false "A", Exp.CONNECTOR 2 '+' false "B"])

/-- The expression `[(A+ or [B-])]`: an OR node of cost 1 over a leaf of cost 0
and a leaf of cost 1. -/
def exp_or_costs : Exp :=
  Exp.OR 1 (E_list.ofList [Exp.CONNECTOR 0 '+' false "A", Exp.CONNECTOR 1 '-' false "B"])

/-- Values for the header constants, used in the concrete instances. -/
def consts0 : Consts := { NORMAL_LABEL := -1, THIN_priority := 0, UNLIMITED_LEN := 255 }

/-- A sentence of two words: the first with the alternatives `(A+ or B-)` and
`(A+ or [B+])`, the second with the alternative `(A- & B+)`. -/
def sent0 : Sentence :=
  { word := [{ string := "v", x := [{ string := "v.1", exp := exp_S1 },
                                    { string := "v.2", exp := exp_S4 }], d := [] },
             { string := "w", x := [{ string := "w.1", exp := exp_S2 }], d := [] }] }

/-! ## build_clause at a pointer -/

/-- The function `build_clause` at a pointer that may be NULL: the `assert` of
its first line, then the body on the expression pointed to. -/
def build_clause_ptr (e : Option Exp) (cost_cutoff : Int) : Except String (List Clause) :=
  match e with
  | none => throw "build_clause called with null parameter"
  | some e1 => build_clause e1 cost_cutoff

/-! ## The connector hash functions (fast-match.c, word-utils.c) -/

/-- Parts of the hash functions that are declared outside the source files at
hand: the table `randtable` with its size `RTSIZE`, and `is_utf8_upper`, which
gives the number of bytes of the upper-case character at the start of a
string, or 0; at the terminating NUL it gives 0. -/
structure HashConsts where
  RTSIZE : Int
  randtable : Int → Int
  is_utf8_upper : List Char → Nat
  is_utf8_upper_nil : is_utf8_upper [] = 0

/-- The result of an `int` operation, wrapped to 32 bits two's complement. -/
def int32 (x : Int) : Int := (x + 2147483648) % 4294967296 - 2147483648

/-- The function `isupper` of the C library in the C locale. -/
def isupper (c : Char) : Bool := c.isUpper

/-- The byte `*s` of a C string: its first byte, or NUL at the end. -/
def deref (s : List Char) : Char :=
  match s with
  | [] => Char.ofNat 0
  | c :: _ => c

/-- One step of the hash: `i + (i<<1) + randtable[(x + i) & (RTSIZE-1)]`. -/
def hash_step (H : HashConsts) (i x : Int) : Int :=
  int32 (int32 (i + int32 (i * 2)) + H.randtable (Int.land (int32 (x + i)) (H.RTSIZE - 1)))

/-- The `while` loop of `fast_match_hash` over the leading upper-case bytes. -/
def fast_match_hash_loop (H : HashConsts) : List Char → Int → Int
  | [], i => i
  | c :: s, i =>
    if isupper c then fast_match_hash_loop H s (hash_step H i (c.toNat : Int)) else i

/-- The hash of fast-match.c: it looks at the label and at the leading upper
case letters of the connector string. -/
def fast_match_hash (H : HashConsts) (c : Connector) : Int :=
  fast_match_hash_loop H c.string.data (H.randtable (Int.land c.label (H.RTSIZE - 1)))

/-- The `while` loop of `connector_hash`; every iteration moves `s` forward by
`nb >= 1` bytes, so `fuel` greater than the length of the string is never
used up. -/
def connector_hash_loop (H : HashConsts) : Nat → List Char → Int → Int
  | 0, _, i => i
  | fuel + 1, s, i =>
    if H.is_utf8_upper s = 0 then i
    else connector_hash_loop H fuel (s.drop (H.is_utf8_upper s))
      (hash_step H i ((deref s).toNat : Int))

/-- The hash of word-utils.c with seed `i`. -/
def connector_hash (H : HashConsts) (c : Connector) (i : Int) : Int :=
  connector_hash_loop H (c.string.data.length + 1) c.string.data (hash_step H i c.label)

/-- The leading run of upper-case characters of a string as `connector_hash`
reads it: the byte groups that `is_utf8_upper` finds, in order. -/
def utf8_upper_run (H : HashConsts) : Nat → List Char → List (List Char)
  | 0, _ => []
  | fuel + 1, s =>
    if H.is_utf8_upper s = 0 then []
    else s.take (H.is_utf8_upper s) :: utf8_upper_run H fuel (s.drop (H.is_utf8_upper s))

/-- The second loop of `easy_match`, over the subscripts. -/
def easy_match_tail : List Char → List Char → Bool
  | [], _ => true
  | _ :: _, [] => true
  | a :: s, b :: t =>
    if a = Char.ofNat 0 ∨ b = Char.ofNat 0 then true
    else if a = '*' ∨ b = '*' ∨ (a = b ∧ a ≠ '^') then easy_match_tail s t
    else false

/-- The function `easy_match` of word-utils.c: the upper-case parts must be
equal, then the subscripts must agree up to `*`. -/
def easy_match : List Char → List Char → Bool
  | [], [] => true
  | [], b :: t => if isupper b then false else easy_match_tail [] (b :: t)
  | a :: s, [] => if isupper a then false else easy_match_tail (a :: s) []
  | a :: s, b :: t =>
    if isupper a || isupper b then
      (if a ≠ b then false else easy_match s t)
    else easy_match_tail (a :: s) (b :: t)

/-- Values for the hash constants, used in the concrete instances: a table of
256 entries with `randtable[x] = 7 * x + 3`, and `is_utf8_upper` on ASCII. -/
def hash0 : HashConsts :=
  { RTSIZE := 256
    randtable := fun x => 7 * x + 3
    is_utf8_upper := fun s => if isupper (deref s) then 1 else 0
    is_utf8_upper_nil := by decide }

/-- A connector with label 0 and the given string and word. -/
def conn0 (string : String) (word : Int) : Connector :=
  { label := 0, word := word, length_limit := 255, priority := 0, multi := false,
    string := string }

/-! ## The fast matcher (fast-match.c)

A step whose behaviour C does not define (reading `->word` through a NULL
connector list, indexing a table outside its bounds) makes the function
return `none`. -/

/-- A pointer to a disjunct node of the list of a word: the address of the
node, given by its position in the list, and the node pointed to. -/
structure DisjunctPtr where
  addr : Nat
  node : Disjunct
deriving DecidableEq, Repr

/-- The struct `Match_node_struct` (without its `next` field). -/
structure Match_node where
  d : DisjunctPtr
deriving DecidableEq, Repr

/-- The static variables of fast-match.c; the arrays hold the entries of the
words `0 .. length-1` of the sentence the matcher was initialised for. -/
structure Matcher where
  match_cost : Int
  l_table_size : List Int
  r_table_size : List Int
  l_table : List (List (List Match_node))
  r_table : List (List (List Match_node))
  mn_free_list : List Match_node

/-- The pointers to the nodes of a disjunct list whose first node has address
`a`. -/
def disjunct_ptrs : Nat → List Disjunct → List DisjunctPtr
  | _, [] => []
  | a, d :: next => { addr := a, node := d } :: disjunct_ptrs (a + 1) next

/-- The field `word` of the first connector of a list (`d->left->word`,
`d->right->word`); not defined when the list is NULL. -/
def first_word : List Connector → Option Int
  | [] => none
  | c :: _ => some c.word

/-- The loop of `left_disjunct_list_length`. -/
def left_disjunct_list_length_loop : List Disjunct → Int → Int
  | [], i => i
  | d :: next, i =>
    if d.left ≠ [] then left_disjunct_list_length_loop next (i + 1)
    else left_disjunct_list_length_loop next i

/-- The number of disjuncts in the list that have a non-null left connector
list. -/
def left_disjunct_list_length (d : List Disjunct) : Int :=
  left_disjunct_list_length_loop d 0

/-- The loop of `right_disjunct_list_length`. -/
def right_disjunct_list_length_loop : List Disjunct → Int → Int
  | [], i => i
  | d :: next, i =>
    if d.right ≠ [] then right_disjunct_list_length_loop next (i + 1)
    else right_disjunct_list_length_loop next i

/-- The number of disjuncts in the list that have a non-null right connector
list. -/
def right_disjunct_list_length (d : List Disjunct) : Int :=
  right_disjunct_list_length_loop d 0

/-- The doubling loop of `next_power_of_two_up`: `j` is doubled while it is
below `i`; `fuel` bounds the number of doublings. -/
def next_power_of_two_up_loop : Nat → Int → Int → Int
  | 0, j, _ => j
  | fuel + 1, j, i => if j < i then next_power_of_two_up_loop fuel (j * 2) i else j

/-- Modelled from the spec: `next_power_of_two_up` is called by
`init_fast_matcher` and defined in a file that is not among the sources; the
spec has the table size "round up to the next power of two": the smallest
power of two that is at least `i`, and at least 1. -/
def next_power_of_two_up (i : Int) : Int :=
  next_power_of_two_up_loop i.toNat 1 i

/-- A fresh `Match_node` cell from `xalloc`; its field `d` is written before
the cell is used. -/
def xalloc_Match_node : Match_node :=
  { d := { addr := 0, node := { left := [], right := [], string := "", cost := 0 } } }

/-- Take a cell from the free list `mn_free_list`, or allocate one; returns
the cell and the new free list. -/
def get_match_node (mn_free_list : List Match_node) : Match_node × List Match_node :=
  match mn_free_list with
  | m :: next => (m, next)
  | [] => (xalloc_Match_node, [])

/-- Put the nodes of the list `m` back onto the free list. -/
def put_match_list : List Match_node → List Match_node → List Match_node
  | [], mn_free_list => mn_free_list
  | m :: xm, mn_free_list => put_match_list xm (m :: mn_free_list)

/-- Adds the match node `m` to the list `l`, sorted from smallest to largest
`d->right->word`. -/
def add_to_right_table_list (m : Match_node) : List Match_node → Option (List Match_node)
  | [] => some [m]
  | l :: next =>
    match first_word m.d.node.right, first_word l.d.node.right with
    | some a, some b =>
      if a ≤ b then some (m :: l :: next)
      else
        match add_to_right_table_list m next with
        | some r => some (l :: r)
        | none => none
    | _, _ => none

/-- Adds the match node `m` to the list `l`, sorted from largest to smallest
`d->left->word`. -/
def add_to_left_table_list (m : Match_node) : List Match_node → Option (List Match_node)
  | [] => some [m]
  | l :: next =>
    match first_word m.d.node.left, first_word l.d.node.left with
    | some a, some b =>
      if a ≥ b then some (m :: l :: next)
      else
        match add_to_left_table_list m next with
        | some r => some (l :: r)
        | none => none
    | _, _ => none

/-- The bucket `t[h]` of a table; not defined outside the table. -/
def table_get (t : List (List Match_node)) (h : Int) : Option (List Match_node) :=
  if 0 ≤ h then t[h.toNat]? else none

/-- The disjunct `d`, whose left or right pointer points to `c`, is put into
the table `t` of the given size: `dir = 1` for a right table, otherwise a left
table. -/
def put_into_match_table (H : HashConsts) (size : Int) (t : List (List Match_node))
    (d : DisjunctPtr) (c : Connector) (dir : Int) : Option (List (List Match_node)) :=
  match table_get t (Int.land (fast_match_hash H c) (size - 1)) with
  | none => none
  | some b =>
    match (if dir = 1 then add_to_right_table_list { d := d } b
           else add_to_left_table_list { d := d } b) with
    | none => none
    | some b1 => some (t.set (Int.land (fast_match_hash H c) (size - 1)).toNat b1)

/-- The loop of `init_fast_matcher` that fills the left table of a word. -/
def fill_left_table (H : HashConsts) (size : Int) :
    List DisjunctPtr → List (List Match_node) → Option (List (List Match_node))
  | [], t => some t
  | d :: next, t =>
    match d.node.left with
    | [] => fill_left_table H size next t
    | c :: _ =>
      match put_into_match_table H size t d c (-1) with
      | none => none
      | some t1 => fill_left_table H size next t1

/-- The loop of `init_fast_matcher` that fills the right table of a word. -/
def fill_right_table (H : HashConsts) (size : Int) :
    List DisjunctPtr → List (List Match_node) → Option (List (List Match_node))
  | [], t => some t
  | d :: next, t =>
    match d.node.right with
    | [] => fill_right_table H size next t
    | c :: _ =>
      match put_into_match_table H size t d c 1 with
      | none => none
      | some t1 => fill_right_table H size next t1

/-- The sizes and tables that `init_fast_matcher` builds for one word. -/
structure WordTables where
  l_size : Int
  l_table : List (List Match_node)
  r_size : Int
  r_table : List (List Match_node)

/-- The body of the loop of `init_fast_matcher` for the word with disjunct
list `d`. -/
def init_word_tables (H : HashConsts) (d : List Disjunct) : Option WordTables :=
  match fill_left_table H (next_power_of_two_up (left_disjunct_list_length d))
      (disjunct_ptrs 0 d)
      (List.replicate (next_power_of_two_up (left_disjunct_list_length d)).toNat []) with
  | none => none
  | some lt =>
    match fill_right_table H (next_power_of_two_up (right_disjunct_list_length d))
        (disjunct_ptrs 0 d)
        (List.replicate (next_power_of_two_up (right_disjunct_list_length d)).toNat []) with
    | none => none
    | some rt =>
      some { l_size := next_power_of_two_up (left_disjunct_list_length d), l_table := lt,
             r_size := next_power_of_two_up (right_disjunct_list_length d), r_table := rt }

/-- The loop of `init_fast_matcher` over the words. -/
def init_words_tables (H : HashConsts) : List Word → Option (List WordTables)
  | [] => some []
  | w :: rest =>
    match init_word_tables H w.d with
    | none => none
    | some wt =>
      match init_words_tables H rest with
      | none => none
      | some r => some (wt :: r)

/-- The function `init_fast_matcher`: the tables of every word of the
sentence are built and `match_cost` is reset; the free list is not touched. -/
def init_fast_matcher (H : HashConsts) (sent : Sentence) (st : Matcher) : Option Matcher :=
  match init_words_tables H sent.word with
  | none => none
  | some r =>
    some { match_cost := 0
           l_table_size := r.map (fun wt => wt.l_size)
           r_table_size := r.map (fun wt => wt.r_size)
           l_table := r.map (fun wt => wt.l_table)
           r_table := r.map (fun wt => wt.r_table)
           mn_free_list := st.mn_free_list }

/-- The bucket `table[w][fast_match_hash(c) & (size[w]-1)]`, or the empty
list when the connector pointer `c` is NULL. -/
def bucket_for (H : HashConsts) (sizes : List Int) (tables : List (List (List Match_node)))
    (w : Nat) (c : Option Connector) : Option (List Match_node) :=
  match c with
  | none => some []
  | some c1 =>
    match sizes[w]?, tables[w]? with
    | some size, some t => table_get t (Int.land (fast_match_hash H c1) (size - 1))
    | _, _ => none

/-- The first copy loop of `form_match_list`: the entries of the left bucket
are copied onto `front` until one has `d->left->word < lw`; returns `front`
and the free list. -/
def copy_left (lw : Int) :
    List Match_node → List Match_node → List Match_node →
      Option (List Match_node × List Match_node)
  | [], front, free => some (front, free)
  | mx :: next, front, free =>
    match first_word mx.d.node.left with
    | none => none
    | some wd =>
      if wd < lw then some (front, free)
      else copy_left lw next ({ (get_match_node free).1 with d := mx.d } :: front)
        (get_match_node free).2

/-- The second copy loop of `form_match_list`: the entries of the right bucket
are copied onto `front` until one has `d->right->word > rw`. -/
def copy_right (rw : Int) :
    List Match_node → List Match_node → List Match_node →
      Option (List Match_node × List Match_node)
  | [], front, free => some (front, free)
  | mx :: next, front, free =>
    match first_word mx.d.node.right with
    | none => none
    | some wd =>
      if wd > rw then some (front, free)
      else copy_right rw next ({ (get_match_node free).1 with d := mx.d } :: front)
        (get_match_node free).2

/-- The inner loop of the duplicate elimination: `ml` is scanned for a node
with the disjunct of `mx`; returns whether one was found, and `match_cost`. -/
def scan_ml (mx : Match_node) : List Match_node → Int → Bool × Int
  | [], match_cost => (false, match_cost)
  | my :: next, match_cost =>
    if mx.d.addr = my.d.addr then (true, match_cost + 1)
    else scan_ml mx next (match_cost + 1)

/-- The outer loop of the duplicate elimination over `mr`: a node whose
disjunct is in `ml` goes onto `free_later`, the others onto `front`; returns
`front`, `free_later` and `match_cost`. -/
def eliminate_duplicates (ml : List Match_node) :
    List Match_node → List Match_node → List Match_node → Int →
      List Match_node × List Match_node × Int
  | [], front, free_later, match_cost => (front, free_later, match_cost)
  | mx :: mz, front, free_later, match_cost =>
    if (scan_ml mx ml (match_cost + 1)).1 then
      eliminate_duplicates ml mz front (mx :: free_later) (scan_ml mx ml (match_cost + 1)).2
    else
      eliminate_duplicates ml mz (mx :: front) free_later (scan_ml mx ml (match_cost + 1)).2

/-- The end of `form_match_list`: the two lists are catenated. -/
def catenate_match_lists (mr ml : List Match_node) : List Match_node :=
  match mr with
  | [] => ml
  | _ :: _ => mr ++ ml

/-- The function `form_match_list`: the list of the disjuncts of word `w`
that might match `lc` or `rc`; returns the list and the new static state. -/
def form_match_list (H : HashConsts) (st : Matcher) (w : Nat) (lc : Option Connector)
    (lw : Int) (rc : Option Connector) (rw : Int) : Option (List Match_node × Matcher) :=
  match bucket_for H st.l_table_size st.l_table w lc,
        bucket_for H st.r_table_size st.r_table w rc with
  | some ml0, some mr0 =>
    match copy_left lw ml0 [] st.mn_free_list with
    | none => none
    | some (ml, free1) =>
      match copy_right rw mr0 [] free1 with
      | none => none
      | some (mr, free2) =>
        some (catenate_match_lists (eliminate_duplicates ml mr [] [] st.match_cost).1 ml,
              { st with
                match_cost := (eliminate_duplicates ml mr [] [] st.match_cost).2.2
                mn_free_list :=
                  put_match_list (eliminate_duplicates ml mr [] [] st.match_cost).2.1 free2 })
  | _, _ => none

/-- The bucket index of a disjunct in the left table of the given size; none
for a disjunct without left connectors. -/
def left_bucket_index (H : HashConsts) (size : Int) (p : DisjunctPtr) : Option Int :=
  match p.node.left with
  | [] => none
  | c :: _ => some (Int.land (fast_match_hash H c) (size - 1))

/-- The bucket index of a disjunct in the right table of the given size; none
for a disjunct without right connectors. -/
def right_bucket_index (H : HashConsts) (size : Int) (p : DisjunctPtr) : Option Int :=
  match p.node.right with
  | [] => none
  | c :: _ => some (Int.land (fast_match_hash H c) (size - 1))

/-- A bucket of a right table is sorted: every entry has a right connector and
`d->right->word` is non-decreasing along the list. -/
def right_sorted (l : List Match_node) : Prop :=
  ∃ ks : List Int, l.map (fun m => first_word m.d.node.right) = ks.map some ∧
    ks.Pairwise (fun a b => a ≤ b)

/-- A bucket of a left table is sorted: every entry has a left connector and
`d->left->word` is non-increasing along the list. -/
def left_sorted (l : List Match_node) : Prop :=
  ∃ ks : List Int, l.map (fun m => first_word m.d.node.left) = ks.map some ∧
    ks.Pairwise (fun a b => a ≥ b)

/-- The test of the first copy loop: the entry has `d->left->word >= lw`. -/
def left_word_ge (lw : Int) (m : Match_node) : Bool :=
  match first_word m.d.node.left with
  | some wd => decide (lw ≤ wd)
  | none => false

/-- The test of the second copy loop: the entry has `d->right->word <= rw`. -/
def right_word_le (rw : Int) (m : Match_node) : Bool :=
  match first_word m.d.node.right with
  | some wd => decide (wd ≤ rw)
  | none => false

/-- A disjunct with the given left and right connectors. -/
def disj0 (left right : List Connector) : Disjunct :=
  { left := left, right := right, string := "w", cost := 0 }

/-- A sentence of one word with three disjuncts: `A- B+`, `B+` and `A-`, the
words of the connectors being set. -/
def sent1 : Sentence :=
  { word := [{ string := "w", x := [],
               d := [disj0 [conn0 "A" 3] [conn0 "B" 6], disj0 [] [conn0 "B" 4],
                     disj0 [conn0 "A" 5] []] }] }

/-- The static state before the first initialisation. -/
def matcher_init : Matcher :=
  { match_cost := 0, l_table_size := [], r_table_size := [], l_table := [], r_table := [],
    mn_free_list := [] }

/-- What `init_fast_matcher` establishes for the tables `wt` of a word with
disjunct list `d`: the sizes, the lengths of the tables, the order of every
bucket, and the pointers every bucket holds. -/
def word_tables_ok (H : HashConsts) (d : List Disjunct) (wt : WordTables) : Prop :=
  wt.l_size = next_power_of_two_up (left_disjunct_list_length d) ∧
  wt.r_size = next_power_of_two_up (right_disjunct_list_length d) ∧
  wt.l_table.length = wt.l_size.toNat ∧
  wt.r_table.length = wt.r_size.toNat ∧
  (∀ b ∈ wt.l_table, left_sorted b) ∧
  (∀ b ∈ wt.r_table, right_sorted b) ∧
  (∀ (i : Nat) (b : List Match_node), wt.l_table[i]? = some b →
    (b.map (fun m => m.d)).Perm
      ((disjunct_ptrs 0 d).filter
        (fun p => decide (left_bucket_index H wt.l_size p = some (i : Int))))) ∧
  (∀ (i : Nat) (b : List Match_node), wt.r_table[i]? = some b →
    (b.map (fun m => m.d)).Perm
      ((disjunct_ptrs 0 d).filter
        (fun p => decide (right_bucket_index H wt.r_size p = some (i : Int)))))

/-- The soundness condition of a query in the words of the claim: the disjunct
has the hash of `lc` on its first left connector and `word >= lw` there, or the
hash of `rc` on its first right connector and `word <= rw` there. -/
def query_sound (H : HashConsts) (lc : Option Connector) (lw : Int) (rc : Option Connector)
    (rw : Int) (d : Disjunct) : Prop :=
  (∃ c l, d.left.head? = some c ∧ lc = some l ∧
    fast_match_hash H c = fast_match_hash H l ∧ lw ≤ c.word) ∨
  (∃ c r, d.right.head? = some c ∧ rc = some r ∧
    fast_match_hash H c = fast_match_hash H r ∧ c.word ≤ rw)

/-- The soundness condition of a query with the hashes masked to the table
sizes: the disjunct is in the bucket of `lc` of the left table and has
`word >= lw` on its first left connector, or it is in the bucket of `rc` of the
right table and has `word <= rw` on its first right connector. -/
def query_sound_masked (H : HashConsts) (lsize rsize : Int) (lc : Option Connector) (lw : Int)
    (rc : Option Connector) (rw : Int) (d : Disjunct) : Prop :=
  (∃ c l, d.left.head? = some c ∧ lc = some l ∧
    Int.land (fast_match_hash H c) (lsize - 1) = Int.land (fast_match_hash H l) (lsize - 1) ∧
    lw ≤ c.word) ∨
  (∃ c r, d.right.head? = some c ∧ rc = some r ∧
    Int.land (fast_match_hash H c) (rsize - 1) = Int.land (fast_match_hash H r) (rsize - 1) ∧
    c.word ≤ rw)

/-- The state of the matcher for the sentence `sent1`: the left table of its
word holds the disjuncts 2 and 0 in bucket 0, the right table the disjuncts 1
and 0 in bucket 1. -/
def matcher1 : Matcher :=
  { match_cost := 0
    l_table_size := [2]
    r_table_size := [2]
    l_table := [[[{ d := { addr := 2, node := disj0 [conn0 "A" 5] [] } },
                  { d := { addr := 0, node := disj0 [conn0 "A" 3] [conn0 "B" 6] } }], []]]
    r_table := [[[], [{ d := { addr := 1, node := disj0 [] [conn0 "B" 4] } },
                      { d := { addr := 0, node := disj0 [conn0 "A" 3] [conn0 "B" 6] } }]]]
    mn_free_list := [] }

/-- A state of the matcher with one word whose right table has one bucket,
holding disjuncts with first right connectors at the words 2, 4, 6 and 8. -/
def matcher_S6 : Matcher :=
  { match_cost := 0
    l_table_size := [1]
    r_table_size := [1]
    l_table := [[[]]]
    r_table := [[[{ d := { addr := 0, node := disj0 [] [conn0 "B" 2] } },
                  { d := { addr := 1, node := disj0 [] [conn0 "B" 4] } },
                  { d := { addr := 2, node := disj0 [] [conn0 "B" 6] } },
                  { d := { addr := 3, node := disj0 [] [conn0 "B" 8] } }]]]
    mn_free_list := [] }

/-- The one clause of the expression `[B+]` in which `B+` carries cost 3. -/
def clause_B3 : Clause :=
  { cost := 3, maxcost := 3, c := [{ multi := false, dir := '+', string := "B" }] }

/-! ## Expressions: copy, size, comparison, containment (word-utils.c)

The functions take non-null pointers; the versions with `_ptr` add the tests
for NULL of the C functions.  Nodes that are none of AND, OR, CONNECTOR are
taken to carry one and the same type tag. -/

mutual
/-- Build a copy of the given expression: the node is copied, and for a node
that is not a connector the child list is replaced by a copy. -/
def copy_Exp : Exp → Exp
  | Exp.CONNECTOR cost dir multi string => Exp.CONNECTOR cost dir multi string
  | Exp.AND cost l => Exp.AND cost (copy_E_list l)
  | Exp.OR cost l => Exp.OR cost (copy_E_list l)
  | Exp.no_type cost l => Exp.no_type cost (copy_E_list l)
/-- Build a copy of a child list. -/
def copy_E_list : E_list → E_list
  | E_list.nil => E_list.nil
  | E_list.cons e next => E_list.cons (copy_Exp e) (copy_E_list next)
end

/-- The function `copy_Exp` at a pointer that may be NULL. -/
def copy_Exp_ptr (e : Option Exp) : Option Exp :=
  match e with
  | none => none
  | some e1 => some (copy_Exp e1)

mutual
/-- The number of connectors in the expression. -/
def size_of_expression : Exp → Int
  | Exp.CONNECTOR _ _ _ _ => 1
  | Exp.AND _ l => size_of_E_list l 0
  | Exp.OR _ l => size_of_E_list l 0
  | Exp.no_type _ l => size_of_E_list l 0
/-- The loop of `size_of_expression` over the children; `size` is the sum so
far. -/
def size_of_E_list : E_list → Int → Int
  | E_list.nil, size => size
  | E_list.cons e next, size => size_of_E_list next (size + size_of_expression e)
end

mutual
/-- The function `exp_compare` on non-null pointers: 1 for equal, 0 for
unequal; type, cost, and for connectors dir and string are compared, for other
nodes the child lists. -/
def exp_compare : Exp → Exp → Int
  | Exp.CONNECTOR c1 d1 _ s1, Exp.CONNECTOR c2 d2 _ s2 =>
    if c1 ≠ c2 then 0 else if d1 ≠ d2 then 0 else if s1 ≠ s2 then 0 else 1
  | Exp.AND c1 l1, Exp.AND c2 l2 => if c1 ≠ c2 then 0 else exp_compare_list l1 l2
  | Exp.OR c1 l1, Exp.OR c2 l2 => if c1 ≠ c2 then 0 else exp_compare_list l1 l2
  | Exp.no_type c1 l1, Exp.no_type c2 l2 => if c1 ≠ c2 then 0 else exp_compare_list l1 l2
  | Exp.CONNECTOR _ _ _ _, Exp.AND _ _ => 0
  | Exp.CONNECTOR _ _ _ _, Exp.OR _ _ => 0
  | Exp.CONNECTOR _ _ _ _, Exp.no_type _ _ => 0
  | Exp.AND _ _, Exp.CONNECTOR _ _ _ _ => 0
  | Exp.AND _ _, Exp.OR _ _ => 0
  | Exp.AND _ _, Exp.no_type _ _ => 0
  | Exp.OR _ _, Exp.CONNECTOR _ _ _ _ => 0
  | Exp.OR _ _, Exp.AND _ _ => 0
  | Exp.OR _ _, Exp.no_type _ _ => 0
  | Exp.no_type _ _, Exp.CONNECTOR _ _ _ _ => 0
  | Exp.no_type _ _, Exp.AND _ _ => 0
  | Exp.no_type _ _, Exp.OR _ _ => 0
/-- The loop of `exp_compare` over the two child lists. -/
def exp_compare_list : E_list → E_list → Int
  | E_list.nil, E_list.nil => 1
  | E_list.nil, E_list.cons _ _ => 0
  | E_list.cons _ _, E_list.nil => 0
  | E_list.cons e1 n1, E_list.cons e2 n2 =>
    if exp_compare e1 e2 = 0 then 0 else exp_compare_list n1 n2
end

/-- The function `exp_compare` at pointers that may be NULL. -/
def exp_compare_ptr (e1 e2 : Option Exp) : Int :=
  match e1, e2 with
  | none, none => 1
  | none, some _ => 0
  | some _, none => 0
  | some a, some b => exp_compare a b

mutual
/-- The function `exp_contains` on non-null pointers: 1 if `sub` is contained
in `super`, 0 otherwise. -/
def exp_contains : Exp → Exp → Int
  | Exp.CONNECTOR c d m s, sub =>
    if exp_compare sub (Exp.CONNECTOR c d m s) = 1 then 1 else 0
  | Exp.AND c l, sub =>
    if exp_compare sub (Exp.AND c l) = 1 then 1 else exp_contains_list l sub
  | Exp.OR c l, sub =>
    if exp_compare sub (Exp.OR c l) = 1 then 1 else exp_contains_list l sub
  | Exp.no_type c l, sub =>
    if exp_compare sub (Exp.no_type c l) = 1 then 1 else exp_contains_list l sub
/-- The loop of `exp_contains` over the children of `super`. -/
def exp_contains_list : E_list → Exp → Int
  | E_list.nil, _ => 0
  | E_list.cons e next, sub =>
    if exp_contains e sub = 1 then 1 else exp_contains_list next sub
end

/-- The function `exp_contains` at pointers that may be NULL. -/
def exp_contains_ptr (super sub : Option Exp) : Int :=
  match super, sub with
  | some a, some b => exp_contains a b
  | _, _ => 0

mutual
/-- The expression with the multi flag of every connector cleared. -/
def erase_multi : Exp → Exp
  | Exp.CONNECTOR cost dir _ string => Exp.CONNECTOR cost dir false string
  | Exp.AND cost l => Exp.AND cost (erase_multi_list l)
  | Exp.OR cost l => Exp.OR cost (erase_multi_list l)
  | Exp.no_type cost l => Exp.no_type cost (erase_multi_list l)
/-- The child list with the multi flag of every connector cleared. -/
def erase_multi_list : E_list → E_list
  | E_list.nil => E_list.nil
  | E_list.cons e next => E_list.cons (erase_multi e) (erase_multi_list next)
end

/-- Structural equality in the words of the claim: equal node type and equal
cost at every node, equal dir and equal string at every connector leaf, child
lists of equal length that are pairwise equal in order; that is, the two trees
are equal once the multi flags are left out. -/
def struct_eq (a b : Exp) : Prop := erase_multi a = erase_multi b

mutual
/-- The sub-expressions of an expression: the expression itself and all its
descendants. -/
def subexps : Exp → List Exp
  | Exp.CONNECTOR c d m s => [Exp.CONNECTOR c d m s]
  | Exp.AND c l => Exp.AND c l :: subexps_list l
  | Exp.OR c l => Exp.OR c l :: subexps_list l
  | Exp.no_type c l => Exp.no_type c l :: subexps_list l
/-- The sub-expressions of the expressions of a child list. -/
def subexps_list : E_list → List Exp
  | E_list.nil => []
  | E_list.cons e next => subexps e ++ subexps_list next
end

/-- The expression `(A+ & (B- or @C+))` with costs. -/
def exp_nested : Exp :=
  Exp.AND 1 (E_list.ofList
    [Exp.CONNECTOR 0 '+' false "A",
     Exp.OR 2 (E_list.ofList [Exp.CONNECTOR 0 '-' false "B", Exp.CONNECTOR 1 '+' true "C"])])

/-! ## The string set (string-set.c)

The table is an open-addressing hash table with double hashing.  A stored
string is a pointer: the address of its block and the bytes it holds.  The
strings are byte lists (the `'\0'` terminator is left out; a byte is a
character with its code), `strcmp(..) == 0` is equality of the byte lists.
The `int` fields `size` and `count` are natural numbers: the products
`2 * size`, `3 * size` and `4 * count` are taken without the overflow of `int`
(they stay below `2^31` in every set with fewer than `2^29` strings).  The
`unsigned int` accumulator of the hash functions wraps at `2^32`. -/

/-- A `char *` into the table: the address of the block and its bytes. -/
structure StrPtr where
  addr : Nat
  bytes : List Char
deriving DecidableEq, Repr

/-- The fields of `String_set` used by string-set.c: `size`, `count` and
`table` (an array of `size` pointers, `none` is `NULL`). -/
structure String_set where
  size : Nat
  count : Nat
  table : List (Option StrPtr)
deriving DecidableEq, Repr

/-- The loop of `hash_string`: `accum = ((256*accum) + (*str)) % (ss->size)`
in `unsigned int` arithmetic (the sum wraps at `2^32`). -/
def hash_string_loop (size : Nat) : List Char → Nat → Nat
  | [], accum => accum
  | c :: str, accum =>
    hash_string_loop size str (((256 * accum + c.toNat) % 4294967296) % size)

/-- Translation of `hash_string`. -/
def hash_string (sa : List Char) (ss : String_set) : Nat :=
  hash_string_loop ss.size sa 0

/-- The loop of `stride_hash_string`:
`accum = ((17*accum) + (*str)) % (ss->size)` in `unsigned int` arithmetic. -/
def stride_hash_string_loop (size : Nat) : List Char → Nat → Nat
  | [], accum => accum
  | c :: str, accum =>
    stride_hash_string_loop size str (((17 * accum + c.toNat) % 4294967296) % size)

/-- Translation of `stride_hash_string`: a zero stride is replaced by 1. -/
def stride_hash_string (sa : List Char) (ss : String_set) : Nat :=
  let accum := stride_hash_string_loop ss.size sa 0
  if accum = 0 then 1 else accum

/-- The inner loop of `next_prime_up`,
`for (i=3; (i <= (start/i)); i += 2) { if (start % i == 0) break; }`;
the result is the value of `i` when the loop is left.  The first argument
bounds the number of iterations. -/
def next_prime_up_inner (start : Nat) : Nat → Nat → Nat
  | 0, i => i
  | fuel + 1, i =>
    if i ≤ start / i then
      if start % i = 0 then i else next_prime_up_inner start fuel (i + 2)
    else i

/-- The outer loop `for (;;)` of `next_prime_up`: `start` moves up by 2 while
`start % i == 0` for the `i` left by the inner loop.  The first argument
bounds the number of iterations. -/
def next_prime_up_loop : Nat → Nat → Nat
  | 0, start => start
  | fuel + 1, start =>
    if start % (next_prime_up_inner start start 3) = 0 then
      next_prime_up_loop fuel (start + 2)
    else start

/-- Translation of `next_prime_up` (`start = start | 1` first); the numbers are
taken without the `int` overflow. -/
def next_prime_up (start : Nat) : Nat :=
  next_prime_up_loop (start ||| 1) (start ||| 1)

/-- Translation of `string_set_create`. -/
def string_set_create : String_set :=
  { size := next_prime_up 100, count := 0,
    table := List.replicate (next_prime_up 100) none }

/-- The loop of `find_place`,
`for (i=h; 1; i = (i + s)%(ss->size))`: the slot `i` is returned when it is
`NULL` or holds a string equal to `str`.  The first argument bounds the number
of probes; `none` is a loop that does not return within the bound, or a read
outside the table. -/
def find_place_loop (str : List Char) (ss : String_set) (s : Nat) : Nat → Nat → Option Nat
  | 0, _ => none
  | fuel + 1, i =>
    match ss.table[i]? with
    | none => none
    | some none => some i
    | some (some p) =>
      if p.bytes = str then some i
      else find_place_loop str ss s fuel ((i + s) % ss.size)

/-- Translation of `find_place`; `ss.size` probes are allowed (the probe
sequence repeats after that many). -/
def find_place (str : List Char) (ss : String_set) : Option Nat :=
  find_place_loop str ss (stride_hash_string str ss) ss.size (hash_string str ss)

/-- The re-insertion loop of `grow_table` over the slots of the old table. -/
def grow_table_loop : List (Option StrPtr) → String_set → Option String_set
  | [], ss => some ss
  | none :: old, ss => grow_table_loop old ss
  | some p :: old, ss =>
    match find_place p.bytes ss with
    | none => none
    | some i =>
      grow_table_loop old
        { ss with table := ss.table.set i (some p), count := ss.count + 1 }

/-- Translation of `grow_table`: the new size is `next_prime_up(2 * old.size)`,
the new table starts all `NULL` with count 0, and the stored pointers of the
old table are put at their places in slot order. -/
def grow_table (ss : String_set) : Option String_set :=
  grow_table_loop (ss.table.take ss.size)
    { size := next_prime_up (2 * ss.size), count := 0,
      table := List.replicate (next_prime_up (2 * ss.size)) none }

/-- Translation of `string_set_add` for a non-null `source_string`; `a` is the
address of the block that `xalloc` returns when the string is copied. -/
def string_set_add (a : Nat) (source_string : List Char) (ss : String_set) :
    Option (StrPtr × String_set) :=
  match find_place source_string ss with
  | none => none
  | some p =>
    match ss.table[p]? with
    | none => none
    | some (some q) => some (q, ss)
    | some none =>
      let str : StrPtr := { addr := a, bytes := source_string }
      let ss1 : String_set :=
        { ss with table := ss.table.set p (some str), count := ss.count + 1 }
      if 4 * ss1.count > 3 * ss1.size then
        match grow_table ss1 with
        | none => none
        | some ss2 => some (str, ss2)
      else some (str, ss1)

/-- Translation of `string_set_lookup`: the slot found by `find_place`
(`some none` is the `NULL` result). -/
def string_set_lookup (source_string : List Char) (ss : String_set) :
    Option (Option StrPtr) :=
  match find_place source_string ss with
  | none => none
  | some p => ss.table[p]?

/-- The pointers stored in the table, in slot order. -/
def stored (ss : String_set) : List StrPtr := ss.table.filterMap id

/-- The set after an add (the set itself when the add does not return). -/
def set_after_add (a : Nat) (s : List Char) (ss : String_set) : String_set :=
  match string_set_add a s ss with
  | some r => r.2
  | none => ss

/-- Well-formedness of a string set: the size is prime, the table has `size`
slots, `count` is the number of stored pointers, every stored string is at the
slot that `find_place` returns for it, and the stored blocks have distinct
addresses. -/
structure SS_wf (ss : String_set) : Prop where
  prime : Nat.Prime ss.size
  len : ss.table.length = ss.size
  cnt : ss.count = (stored ss).length
  canon : ∀ j p, ss.table[j]? = some (some p) → find_place p.bytes ss = some j
  addrs : ((stored ss).map StrPtr.addr).Nodup

/-- The invariant of the string set between calls: well-formed and at most
three quarters full. -/
def SS_inv (ss : String_set) : Prop := SS_wf ss ∧ 4 * ss.count ≤ 3 * ss.size

/-- The relation `Adds ss0 hist ss`: the set `ss` is reached from `ss0` by
calls of `string_set_add` that return, with the strings `hist` (the latest
first); each copy is made in a block whose address is not that of a stored
string. -/
inductive Adds (ss0 : String_set) : List (List Char) → String_set → Prop
  | refl : Adds ss0 [] ss0
  | step {hist : List (List Char)} {ss1 ss2 : String_set} {a : Nat} {s : List Char}
      {p : StrPtr} :
      Adds ss0 hist ss1 → a ∉ (stored ss1).map StrPtr.addr →
      string_set_add a s ss1 = some (p, ss2) → Adds ss0 (s :: hist) ss2

/-- Adding the strings of a list in order, the copies made at the addresses
`a`, `a + 1`, ... -/
def add_all : List (List Char) → Nat → String_set → String_set
  | [], _, ss => ss
  | s :: l, a, ss => add_all l (a + 1) (set_after_add a s ss)

/-- The set after adding `"S"` to a new set. -/
def ss_S : String_set := set_after_add 0 ['S'] string_set_create

/-- The set after adding `"S"` and `"MVp"` to a new set. -/
def ss_S_MVp : String_set := set_after_add 1 ['M', 'V', 'p'] ss_S

/-- The 76 one-byte strings with the bytes 40 to 115. -/
def strs76 : List (List Char) := (List.range 76).map (fun i => [Char.ofNat (40 + i)])

/-- The set after adding the first 75 strings of `strs76` to a new set. -/
def ss_75 : String_set := add_all (strs76.take 75) 0 string_set_create

/-- The set after adding all strings of `strs76` to a new set. -/
def ss_76 : String_set := add_all strs76 0 string_set_create

/-- The set in the middle of `string_set_add`, after the new pointer `p` is
put at the slot `q` and `count` is incremented
(`ss->table[p] = str; ss->count++`) and before the load test. -/
def insert_at (ss : String_set) (q : Nat) (p : StrPtr) : String_set :=
  { ss with table := ss.table.set q (some p), count := ss.count + 1 }

/-- The hash value in the words of the spec, for the bytes `b1 .. bn` of a
string: `b1 * base^(n-1) + ... + bn`. -/
def hash_formula (base : Nat) : List Char → Nat
  | [] => 0
  | c :: str => c.toNat * base ^ str.length + hash_formula base str

/-! ## The match nodes in memory (fast-match.c)

The lists of `Match_node`s are linked through their `next` fields, and
`form_match_list` writes these fields.  Here the nodes are cells of a memory,
a list is the address of its first cell, and every read and write of the
code is a read or write of a cell.  `xalloc` returns the cell at the address
`brk`, which is above every cell handed out before.  The disjuncts and
connectors are not written by the functions below and stay values. -/

/-- A `Match_node` in memory: the fields `d` and `next` (`none` is `NULL`). -/
structure Cell where
  d : DisjunctPtr
  next : Option Nat
deriving DecidableEq, Repr

/-- The static variables of fast-match.c with the match nodes in memory: a
bucket of a table and the free list are the addresses of their first cells;
`cells` is the memory of the match nodes and `brk` the address of the next
cell of `xalloc`. -/
structure Heap_matcher where
  match_cost : Int
  l_table_size : List Int
  r_table_size : List Int
  l_table : List (List (Option Nat))
  r_table : List (List (Option Nat))
  mn_free_list : Option Nat
  cells : Nat → Option Cell
  brk : Nat

/-- The memory with the cell at address `a` written. -/
def set_cell (cells : Nat → Option Cell) (a : Nat) (c : Cell) : Nat → Option Cell :=
  fun x => if x = a then some c else cells x

/-- The function `get_match_node` on the memory: the first cell of the free
list, or a new cell from `xalloc`; returns the address of the cell. -/
def h_get_match_node (st : Heap_matcher) : Option (Nat × Heap_matcher) :=
  match st.mn_free_list with
  | some m =>
    match st.cells m with
    | some c => some (m, { st with mn_free_list := c.next })
    | none => none
  | none =>
    some (st.brk,
      { st with cells := set_cell st.cells st.brk { d := xalloc_Match_node.d, next := none }
                brk := st.brk + 1 })

/-- The function `put_match_list` on the memory: every cell of the list `m`
is linked in front of the free list.  The first argument bounds the number of
iterations. -/
def h_put_match_list : Nat → Option Nat → Heap_matcher → Option Heap_matcher
  | 0, _, _ => none
  | _ + 1, none, st => some st
  | fuel + 1, some m, st =>
    match st.cells m with
    | none => none
    | some c =>
      h_put_match_list fuel c.next
        { st with cells := set_cell st.cells m { c with next := st.mn_free_list }
                  mn_free_list := some m }

/-- The bucket `table[w][fast_match_hash(c) & (size[w]-1)]` as the address of
its first cell, or `NULL` when the connector pointer `c` is NULL. -/
def h_bucket_for (H : HashConsts) (sizes : List Int) (tables : List (List (Option Nat)))
    (w : Nat) (c : Option Connector) : Option (Option Nat) :=
  match c with
  | none => some none
  | some c1 =>
    match sizes[w]?, tables[w]? with
    | some size, some t =>
      if 0 ≤ Int.land (fast_match_hash H c1) (size - 1) then
        t[(Int.land (fast_match_hash H c1) (size - 1)).toNat]?
      else none
    | _, _ => none

/-- The break test of the first copy loop of `form_match_list`:
`mx->d->left->word < lw`. -/
def stop_left (lw : Int) (d : DisjunctPtr) : Option Bool :=
  match first_word d.node.left with
  | none => none
  | some wd => some (decide (wd < lw))

/-- The break test of the second copy loop of `form_match_list`:
`mx->d->right->word > rw`. -/
def stop_right (rw : Int) (d : DisjunctPtr) : Option Bool :=
  match first_word d.node.right with
  | none => none
  | some wd => some (decide (wd > rw))

/-- The two copy loops of `form_match_list`, which differ in the break test
`stop` only: for every cell `mx` of the bucket up to the break, a cell `my`
is taken with `get_match_node`, `my->d = mx->d; my->next = front; front = my`.
The first argument bounds the number of iterations; `none` is a run past the
bound or a read through a pointer that is NULL or not a cell. -/
def h_copy_loop (stop : DisjunctPtr → Option Bool) :
    Nat → Option Nat → Option Nat → Heap_matcher → Option (Option Nat × Heap_matcher)
  | 0, _, _, _ => none
  | _ + 1, none, front, st => some (front, st)
  | fuel + 1, some mx, front, st =>
    match st.cells mx with
    | none => none
    | some cx =>
      match stop cx.d with
      | none => none
      | some true => some (front, st)
      | some false =>
        match h_get_match_node st with
        | none => none
        | some (my, st1) =>
          match st1.cells mx with
          | none => none
          | some cx1 =>
            match (set_cell st1.cells my { d := cx1.d, next := front }) mx with
            | none => none
            | some cx2 =>
              h_copy_loop stop fuel cx2.next (some my)
                { st1 with cells := set_cell st1.cells my { d := cx1.d, next := front } }

/-- The inner loop of the duplicate elimination on the memory: the list `ml`
is scanned for a cell with the disjunct pointer `d`. -/
def h_scan_ml (d : DisjunctPtr) (cells : Nat → Option Cell) :
    Nat → Option Nat → Int → Option (Bool × Int)
  | 0, _, _ => none
  | _ + 1, none, match_cost => some (false, match_cost)
  | fuel + 1, some my, match_cost =>
    match cells my with
    | none => none
    | some cy =>
      if d.addr = cy.d.addr then some (true, match_cost + 1)
      else h_scan_ml d cells fuel cy.next (match_cost + 1)

/-- The outer loop of the duplicate elimination on the memory: every cell
`mx` of `mr` is linked in front of `free_later` when its disjunct is in `ml`
and in front of `front` otherwise (`mz = mx->next` is read first).  The first
argument bounds the iterations of the inner loop, the second those of this
loop. -/
def h_eliminate_duplicates (ml : Option Nat) (fuel_in : Nat) :
    Nat → Option Nat → Option Nat → Option Nat → Heap_matcher →
      Option (Option Nat × Option Nat × Heap_matcher)
  | 0, _, _, _, _ => none
  | _ + 1, none, front, free_later, st => some (front, free_later, st)
  | fuel + 1, some mx, front, free_later, st =>
    match st.cells mx with
    | none => none
    | some cx =>
      match h_scan_ml cx.d st.cells fuel_in ml (st.match_cost + 1) with
      | none => none
      | some (true, cost) =>
        h_eliminate_duplicates ml fuel_in fuel cx.next front (some mx)
          { st with match_cost := cost
                    cells := set_cell st.cells mx { cx with next := free_later } }
      | some (false, cost) =>
        h_eliminate_duplicates ml fuel_in fuel cx.next (some mx) free_later
          { st with match_cost := cost
                    cells := set_cell st.cells mx { cx with next := front } }

/-- The loop `for (mx = mr; mx->next != NULL; mx = mx->next);`: the address of
the last cell of the list that starts at the cell `mx`. -/
def h_last (cells : Nat → Option Cell) : Nat → Nat → Option Nat
  | 0, _ => none
  | fuel + 1, mx =>
    match cells mx with
    | none => none
    | some c =>
      match c.next with
      | none => some mx
      | some nx => h_last cells fuel nx

/-- The end of `form_match_list` on the memory: `ml` when `mr` is NULL,
otherwise the last cell of `mr` is linked to `ml` and `mr` is returned. -/
def h_catenate (fuel : Nat) (mr ml : Option Nat) (st : Heap_matcher) :
    Option (Option Nat × Heap_matcher) :=
  match mr with
  | none => some (ml, st)
  | some m =>
    match h_last st.cells fuel m with
    | none => none
    | some mx =>
      match st.cells mx with
      | none => none
      | some c => some (some m, { st with cells := set_cell st.cells mx { c with next := ml } })

/-- The function `form_match_list` on the memory; `fuel` bounds the number of
iterations of each of its loops. -/
def h_form_match_list (H : HashConsts) (fuel : Nat) (st : Heap_matcher) (w : Nat)
    (lc : Option Connector) (lw : Int) (rc : Option Connector) (rw : Int) :
    Option (Option Nat × Heap_matcher) :=
  match h_bucket_for H st.l_table_size st.l_table w lc,
        h_bucket_for H st.r_table_size st.r_table w rc with
  | some ml0, some mr0 =>
    match h_copy_loop (stop_left lw) fuel ml0 none st with
    | none => none
    | some (ml, st1) =>
      match h_copy_loop (stop_right rw) fuel mr0 none st1 with
      | none => none
      | some (mr, st2) =>
        match h_eliminate_duplicates ml fuel fuel mr none none st2 with
        | none => none
        | some (mr1, free_later, st3) =>
          match h_put_match_list fuel free_later st3 with
          | none => none
          | some st4 => h_catenate fuel mr1 ml st4
  | _, _ => none

/-- The list that starts at the pointer `p` has the cells at the addresses,
and with the disjunct pointers, of `l`, in this order, and ends with `NULL`. -/
def is_list (cells : Nat → Option Cell) : Option Nat → List (Nat × DisjunctPtr) → Bool
  | none, [] => true
  | some a, x :: rest =>
    match cells a with
    | some c => decide (a = x.1) && decide (c.d = x.2) && is_list cells c.next rest
    | none => false
  | _, _ => false

/-- The addresses of the cells of a list. -/
def addrs (l : List (Nat × DisjunctPtr)) : List Nat := l.map Prod.fst

/-- The list of a memory list in the list model: the `Match_node`s without
their addresses. -/
def nodes (l : List (Nat × DisjunctPtr)) : List Match_node := l.map (fun x => { d := x.2 })

/-- The cells that `get_match_node` may hand out: those of the free list `fl`
and those `xalloc` has not handed out yet. -/
def in_pool (st : Heap_matcher) (fl : List (Nat × DisjunctPtr)) (a : Nat) : Prop :=
  a ∈ addrs fl ∨ st.brk ≤ a

/-- The free list is a list of distinct cells below `brk`. -/
def pool_ok (st : Heap_matcher) (fl : List (Nat × DisjunctPtr)) : Prop :=
  is_list st.cells st.mn_free_list fl = true ∧ (addrs fl).Nodup ∧ ∀ a ∈ addrs fl, a < st.brk

/-- The sizes and the bucket pointers of the tables are the same in two
states. -/
def same_tables (st st1 : Heap_matcher) : Prop :=
  st1.l_table_size = st.l_table_size ∧ st1.r_table_size = st.r_table_size ∧
  st1.l_table = st.l_table ∧ st1.r_table = st.r_table

/-- Every bucket pointer of the tables `t` is a list in memory, with the
cells `L` (per word and bucket). -/
def tables_ok (cells : Nat → Option Cell) (t : List (List (Option Nat)))
    (L : List (List (List (Nat × DisjunctPtr)))) : Prop :=
  List.Forall₂ (List.Forall₂ (fun head B => is_list cells head B = true)) t L

/-- The addresses of all cells of the tables with the cells `L`. -/
def table_addrs (L : List (List (List (Nat × DisjunctPtr)))) : List Nat :=
  addrs L.flatten.flatten

/-- The cells of a memory with two table cells (disjuncts with the first left
connectors at the words 5 and 3, linked in this order) and one free cell. -/
def heap0_cells : Nat → Option Cell
  | 0 => some { d := { addr := 0, node := disj0 [conn0 "A" 5] [] }, next := some 1 }
  | 1 => some { d := { addr := 1, node := disj0 [conn0 "A" 3] [] }, next := none }
  | 2 => some { d := xalloc_Match_node.d, next := none }
  | _ => none

/-- A state of the matcher in memory for one word: the left table has one
bucket with the two cells 0 and 1, the right table one empty bucket, the free
list is the cell 2, and `xalloc` continues at the address 3. -/
def heap_matcher0 : Heap_matcher :=
  { match_cost := 0
    l_table_size := [1]
    r_table_size := [1]
    l_table := [[some 0]]
    r_table := [[none]]
    mn_free_list := some 2
    cells := heap0_cells
    brk := 3 }

/-- The cells of the left table of `heap_matcher0`. -/
def heap0_left : List (List (List (Nat × DisjunctPtr))) :=
  [[[(0, { addr := 0, node := disj0 [conn0 "A" 5] [] }),
     (1, { addr := 1, node := disj0 [conn0 "A" 3] [] })]]]

/-! ## The loops as list operations -/

theorem Treverse_loop_eq (e head : List Tconnector) :
    Treverse_loop e head = e.reverse ++ head := by
  induction e generalizing head with
  | nil => rfl
  | cons a t ih => simp [Treverse_loop, ih]

theorem Treverse_eq (e : List Tconnector) : Treverse e = e.reverse := by
  simp [Treverse, Treverse_loop_eq]

theorem reverse_loop_eq (e head : List Connector) :
    reverse_loop e head = e.reverse ++ head := by
  induction e generalizing head with
  | nil => rfl
  | cons a t ih => simp [reverse_loop, ih]

theorem reverse_eq (e : List Connector) : reverse e = e.reverse := by
  simp [reverse, reverse_loop_eq]

theorem catenate_push_eq (e head : List Tconnector) :
    catenate_push e head = e.reverse ++ head := by
  induction e generalizing head with
  | nil => rfl
  | cons a t ih => simp [catenate_push, ih]

theorem catenate_eq (e1 e2 : List Tconnector) : catenate e1 e2 = e1 ++ e2 := by
  simp [catenate, Treverse_eq, catenate_push_eq]

theorem and_inner_eq (c3 : Clause) (c2 c_head : List Clause) :
    and_inner c3 c2 c_head = (c2.map (and_clause c3)).reverse ++ c_head := by
  induction c2 generalizing c_head with
  | nil => rfl
  | cons a t ih => simp [and_inner, ih, and_clause, catenate_eq]

theorem and_outer_eq (c2 c1 c_head : List Clause) :
    and_outer c2 c1 c_head
      = (c1.flatMap (fun c3 => c2.map (and_clause c3))).reverse ++ c_head := by
  induction c1 generalizing c_head with
  | nil => rfl
  | cons a t ih => simp [and_outer, ih, and_inner_eq]

theorem or_push_eq (c1 c : List Clause) : or_push c1 c = c1.reverse ++ c := by
  induction c1 generalizing c with
  | nil => rfl
  | cons a t ih => simp [or_push, ih]

theorem add_node_cost_eq (cost : Nat) (c : List Clause) :
    add_node_cost cost c = c.map (add_cost cost) := by
  induction c with
  | nil => rfl
  | cons a t ih => simp [add_node_cost, ih, add_cost]


/-! ## The clause list is a permutation of the sum of products -/

theorem and_clause_assoc (a b t : Clause) :
    and_clause (and_clause a b) t = and_clause a (and_clause b t) := by
  simp [and_clause, add_assoc, max_assoc]

theorem and_clause_empty (a : Clause) (h : 0 ≤ a.maxcost) :
    and_clause a { cost := 0, maxcost := 0, c := [] } = a := by
  cases a
  simp only [and_clause, add_zero, List.append_nil] at *
  simp [h]

theorem flatMap_and_clause_empty (acc : List Clause) (h : ∀ a ∈ acc, 0 ≤ a.maxcost) :
    acc.flatMap (fun a => [{ cost := 0, maxcost := 0, c := [] }].map (and_clause a)) = acc := by
  induction acc with
  | nil => rfl
  | cons a t ih =>
    have h1 : 0 ≤ a.maxcost := h a (List.mem_cons_self _ _)
    have h2 : ∀ b ∈ t, 0 ≤ b.maxcost := fun b hb => h b (List.mem_cons_of_mem _ hb)
    simp only [List.flatMap_cons, List.map_cons, List.map_nil, List.singleton_append,
      and_clause_empty a h1]
    have := ih h2
    simp only [List.map_cons, List.map_nil] at this
    rw [this]

theorem and_outer_maxcost_nonneg (c2 c1 : List Clause) (h : ∀ a ∈ c1, 0 ≤ a.maxcost) :
    ∀ a ∈ and_outer c2 c1 [], 0 ≤ a.maxcost := by
  intro a ha
  rw [and_outer_eq] at ha
  simp only [List.append_nil, List.mem_reverse, List.mem_flatMap, List.mem_map] at ha
  obtain ⟨c3, h3, c4, _, rfl⟩ := ha
  exact le_trans (h c3 h3) (le_max_left _ _)

theorem empty_and_clause (t : Clause) (h : 0 ≤ t.maxcost) :
    and_clause { cost := 0, maxcost := 0, c := [] } t = t := by
  cases t
  simp only [and_clause, zero_add, List.nil_append] at *
  simp [h]

theorem map_empty_and_clause (l : List Clause) (h : ∀ a ∈ l, 0 ≤ a.maxcost) :
    l.map (and_clause { cost := 0, maxcost := 0, c := [] }) = l := by
  induction l with
  | nil => rfl
  | cons a t ih =>
    rw [List.map_cons, empty_and_clause a (h a (List.mem_cons_self _ _)),
      ih (fun b hb => h b (List.mem_cons_of_mem _ hb))]

theorem add_cost_maxcost_nonneg (cost : Nat) (l : List Clause) (h : ∀ a ∈ l, 0 ≤ a.maxcost) :
    ∀ a ∈ l.map (add_cost cost), 0 ≤ a.maxcost := by
  intro a ha
  obtain ⟨b, hb, rfl⟩ := List.mem_map.1 ha
  have := h b hb
  simp only [add_cost]
  omega

mutual
theorem expansion_maxcost_nonneg (e : Exp) : ∀ a ∈ expansion e, 0 ≤ a.maxcost := by
  cases e with
  | CONNECTOR cost dir multi string =>
    intro a ha
    simp only [expansion, List.mem_singleton] at ha
    subst ha
    simp only [add_cost]
    omega
  | AND cost l =>
    rw [expansion]
    exact add_cost_maxcost_nonneg cost _ (expansion_and_maxcost_nonneg l)
  | OR cost l =>
    rw [expansion]
    exact add_cost_maxcost_nonneg cost _ (expansion_or_maxcost_nonneg l)
  | no_type cost l => simp [expansion]
theorem expansion_and_maxcost_nonneg (l : E_list) : ∀ a ∈ expansion_and l, 0 ≤ a.maxcost := by
  cases l with
  | nil => simp [expansion_and]
  | cons e next =>
    intro a ha
    simp only [expansion_and, List.mem_flatMap, List.mem_map] at ha
    obtain ⟨b, hb, t, _, rfl⟩ := ha
    exact le_trans (expansion_maxcost_nonneg e b hb) (le_max_left _ _)
theorem expansion_or_maxcost_nonneg (l : E_list) : ∀ a ∈ expansion_or l, 0 ≤ a.maxcost := by
  cases l with
  | nil => simp [expansion_or]
  | cons e next =>
    intro a ha
    simp only [expansion_or, List.mem_append] at ha
    rcases ha with ha | ha
    · exact expansion_maxcost_nonneg e a ha
    · exact expansion_or_maxcost_nonneg next a ha
end

mutual
theorem build_clause_perm (e : Exp) (k : Int) (h : well_typed e = true) :
    ∃ cl, build_clause e k = Except.ok cl ∧ cl.Perm (expansion e) := by
  cases e with
  | CONNECTOR cost dir multi string =>
    exact ⟨_, rfl, by simp [add_node_cost, add_cost, expansion]⟩
  | AND cost l =>
    have hl : well_typed_list l = true := by simpa [well_typed] using h
    obtain ⟨cl, h1, h2⟩ := build_clause_and_perm l k [{ cost := 0, maxcost := 0, c := [] }] hl
      (by simp)
    refine ⟨add_node_cost cost cl, ?_, ?_⟩
    · simp [build_clause, h1, bind, Except.bind, pure, Except.pure]
    · rw [add_node_cost_eq, expansion]
      refine (h2.map _).trans ?_
      rw [List.flatMap_singleton, map_empty_and_clause _ (expansion_and_maxcost_nonneg l)]
  | OR cost l =>
    have hl : well_typed_list l = true := by simpa [well_typed] using h
    obtain ⟨cl, h1, h2⟩ := build_clause_or_perm l k [] hl
    refine ⟨add_node_cost cost cl, ?_, ?_⟩
    · simp [build_clause, h1, bind, Except.bind, pure, Except.pure]
    · rw [add_node_cost_eq, expansion]
      simpa using h2.map (add_cost cost)
  | no_type cost l => simp [well_typed] at h
theorem build_clause_and_perm (l : E_list) (k : Int) (acc : List Clause)
    (h : well_typed_list l = true) (hacc : ∀ a ∈ acc, 0 ≤ a.maxcost) :
    ∃ cl, build_clause_and l k acc = Except.ok cl ∧
      cl.Perm (acc.flatMap (fun a => (expansion_and l).map (and_clause a))) := by
  cases l with
  | nil =>
    refine ⟨acc, rfl, ?_⟩
    rw [expansion_and, flatMap_and_clause_empty acc hacc]
  | cons e next =>
    have he : well_typed e = true ∧ well_typed_list next = true := by
      simpa [well_typed_list] using h
    obtain ⟨c2, h1, h2⟩ := build_clause_perm e k he.1
    obtain ⟨cl, h3, h4⟩ := build_clause_and_perm next k (and_outer c2 acc []) he.2
      (and_outer_maxcost_nonneg c2 acc hacc)
    refine ⟨cl, ?_, ?_⟩
    · simp [build_clause_and, h1, h3, bind, Except.bind]
    · refine h4.trans ?_
      rw [and_outer_eq, List.append_nil, expansion_and]
      refine ((List.reverse_perm _).flatMap_right _).trans ?_
      rw [List.flatMap_assoc]
      refine List.Perm.flatMap_left _ (fun a _ => ?_)
      rw [List.flatMap_map, List.map_flatMap]
      refine (h2.flatMap_right _).trans ?_
      have hassoc : ∀ b : Clause,
          (fun x => and_clause a (and_clause b x)) = and_clause (and_clause a b) :=
        fun b => funext (fun x => (and_clause_assoc a b x).symm)
      simp only [List.map_map, Function.comp_def, hassoc]
      exact List.Perm.refl _
theorem build_clause_or_perm (l : E_list) (k : Int) (acc : List Clause)
    (h : well_typed_list l = true) :
    ∃ cl, build_clause_or l k acc = Except.ok cl ∧
      cl.Perm (acc ++ expansion_or l) := by
  cases l with
  | nil => exact ⟨acc, rfl, by simp [expansion_or]⟩
  | cons e next =>
    have he : well_typed e = true ∧ well_typed_list next = true := by
      simpa [well_typed_list] using h
    obtain ⟨c1, h1, h2⟩ := build_clause_perm e k he.1
    obtain ⟨cl, h3, h4⟩ := build_clause_or_perm next k (or_push c1 acc) he.2
    refine ⟨cl, ?_, ?_⟩
    · simp [build_clause_or, h1, h3, bind, Except.bind]
    · refine h4.trans ?_
      rw [or_push_eq, expansion_or, ← List.append_assoc]
      refine List.Perm.append_right _ ?_
      exact (List.perm_append_comm.trans
        (List.Perm.append_left _ ((List.reverse_perm _).trans h2)))
end


/-! ## The sum of products in the words of the spec -/

mutual
theorem expansion_map_c (e : Exp) : (expansion e).map Clause.c = sum_of_products e := by
  cases e with
  | CONNECTOR cost dir multi string => rfl
  | AND cost l =>
    rw [expansion, sum_of_products, ← expansion_and_map_c l, List.map_map]
    rfl
  | OR cost l =>
    rw [expansion, sum_of_products, ← expansion_or_map_c l, List.map_map]
    rfl
  | no_type cost l => rfl
theorem expansion_and_map_c (l : E_list) :
    (expansion_and l).map Clause.c = sum_of_products_and l := by
  cases l with
  | nil => rfl
  | cons e next =>
    rw [expansion_and, sum_of_products_and, ← expansion_map_c e, ← expansion_and_map_c next]
    simp only [List.flatMap_map, List.map_flatMap, List.map_map]
    rfl
theorem expansion_or_map_c (l : E_list) :
    (expansion_or l).map Clause.c = sum_of_products_or l := by
  cases l with
  | nil => rfl
  | cons e next =>
    rw [expansion_or, sum_of_products_or, ← expansion_map_c e, ← expansion_or_map_c next,
      List.map_append]
end

mutual
theorem sum_of_products_sublist (e : Exp) : ∀ s ∈ sum_of_products e, s.Sublist (leaves e) := by
  cases e with
  | CONNECTOR cost dir multi string =>
    intro s hs
    simp only [sum_of_products, List.mem_singleton] at hs
    subst hs
    exact List.Sublist.refl _
  | AND cost l => exact sum_of_products_and_sublist l
  | OR cost l => exact sum_of_products_or_sublist l
  | no_type cost l => simp [sum_of_products]
theorem sum_of_products_and_sublist (l : E_list) :
    ∀ s ∈ sum_of_products_and l, s.Sublist (leaves_list l) := by
  cases l with
  | nil =>
    intro s hs
    simp only [sum_of_products_and, List.mem_singleton] at hs
    subst hs
    exact List.Sublist.refl _
  | cons e next =>
    intro s hs
    simp only [sum_of_products_and, List.mem_flatMap, List.mem_map] at hs
    obtain ⟨a, ha, b, hb, rfl⟩ := hs
    exact (sum_of_products_sublist e a ha).append (sum_of_products_and_sublist next b hb)
theorem sum_of_products_or_sublist (l : E_list) :
    ∀ s ∈ sum_of_products_or l, s.Sublist (leaves_list l) := by
  cases l with
  | nil => simp [sum_of_products_or]
  | cons e next =>
    intro s hs
    simp only [sum_of_products_or, List.mem_append] at hs
    rcases hs with hs | hs
    · exact List.sublist_append_of_sublist_left (sum_of_products_sublist e s hs)
    · exact List.sublist_append_of_sublist_right (sum_of_products_or_sublist next s hs)
end

/-! ## Cost and maxcost of a choice -/

theorem cost_sum_cons (c : Nat) (l : List Nat) : cost_sum (c :: l) = cost_sum l + c := by
  simp only [cost_sum, List.sum_cons]
  push_cast
  ring

theorem cost_sum_append (a b : List Nat) : cost_sum (a ++ b) = cost_sum a + cost_sum b := by
  simp only [cost_sum, List.sum_append]
  push_cast
  rfl

mutual
theorem expansion_map_cost (e : Exp) :
    (expansion e).map (fun C => (C.c, C.cost))
      = (choice_nodes e).map (fun p => (p.1, cost_sum p.2)) := by
  cases e with
  | CONNECTOR cost dir multi string =>
    simp [expansion, choice_nodes, add_cost, build_terminal, cost_sum]
  | AND cost l =>
    rw [expansion, choice_nodes, List.map_map, List.map_map]
    have h := congrArg (List.map (fun q : List Tconnector × Int => (q.1, q.2 + (cost : Int))))
      (expansion_and_map_cost l)
    simp only [List.map_map] at h
    simpa [Function.comp_def, add_cost, cost_sum_cons] using h
  | OR cost l =>
    rw [expansion, choice_nodes, List.map_map, List.map_map]
    have h := congrArg (List.map (fun q : List Tconnector × Int => (q.1, q.2 + (cost : Int))))
      (expansion_or_map_cost l)
    simp only [List.map_map] at h
    simpa [Function.comp_def, add_cost, cost_sum_cons] using h
  | no_type cost l => rfl
theorem expansion_and_map_cost (l : E_list) :
    (expansion_and l).map (fun C => (C.c, C.cost))
      = (choice_nodes_and l).map (fun p => (p.1, cost_sum p.2)) := by
  cases l with
  | nil => simp [expansion_and, choice_nodes_and, cost_sum]
  | cons e next =>
    have h1 := expansion_map_cost e
    have h2 := expansion_and_map_cost next
    rw [expansion_and, choice_nodes_and]
    simp only [List.map_flatMap, List.map_map, Function.comp_def, cost_sum_append, and_clause]
    have h3 : ∀ a : List Tconnector × Int,
        (expansion_and next).map (fun x => (a.1 ++ x.c, a.2 + x.cost))
          = (choice_nodes_and next).map (fun x => (a.1 ++ x.1, a.2 + cost_sum x.2)) := by
      intro a
      have := congrArg (List.map (fun q : List Tconnector × Int => (a.1 ++ q.1, a.2 + q.2))) h2
      simpa [List.map_map, Function.comp_def] using this
    have h4 := congrArg (fun L : List (List Tconnector × Int) =>
      L.flatMap (fun a => (expansion_and next).map (fun x => (a.1 ++ x.c, a.2 + x.cost)))) h1
    simp only [List.flatMap_map] at h4
    rw [h4]
    exact List.flatMap_congr (fun a _ => h3 (a.1, cost_sum a.2))
theorem expansion_or_map_cost (l : E_list) :
    (expansion_or l).map (fun C => (C.c, C.cost))
      = (choice_nodes_or l).map (fun p => (p.1, cost_sum p.2)) := by
  cases l with
  | nil => rfl
  | cons e next =>
    rw [expansion_or, choice_nodes_or, List.map_append, List.map_append,
      expansion_map_cost e, expansion_or_map_cost next]
end

theorem foldl_max_max (xs : List Int) (a b : Int) :
    xs.foldl max (max a b) = max a (xs.foldl max b) := by
  induction xs generalizing b with
  | nil => rfl
  | cons x t ih => simp only [List.foldl_cons, max_assoc, ih]

theorem max_or_zero_cons (m : Int) (ms : List Int) (h : 0 ≤ m) :
    max_or_zero (m :: ms) = max m (max_or_zero ms) := by
  cases ms with
  | nil => simp [max_or_zero, h]
  | cons x t => simp only [max_or_zero, List.foldl_cons, foldl_max_max]

mutual
theorem expansion_map_maxcost (e : Exp) :
    (expansion e).map (fun C => (C.c, C.maxcost)) = maxcost_rule e := by
  cases e with
  | CONNECTOR cost dir multi string =>
    simp [expansion, maxcost_rule, add_cost, build_terminal]
  | AND cost l =>
    rw [expansion, maxcost_rule, List.map_map]
    have h := congrArg (List.map (fun q : List Tconnector × Int => (q.1, q.2 + (cost : Int))))
      (expansion_and_map_maxcost l)
    simp only [List.map_map] at h
    simpa [Function.comp_def, add_cost] using h
  | OR cost l =>
    rw [expansion, maxcost_rule, List.map_map, ← expansion_or_map_maxcost l, List.map_map]
    rfl
  | no_type cost l => rfl
theorem expansion_and_map_maxcost (l : E_list) :
    (expansion_and l).map (fun C => (C.c, C.maxcost))
      = (maxcost_rule_and l).map (fun p => (p.1, max_or_zero p.2)) := by
  cases l with
  | nil => simp [expansion_and, maxcost_rule_and, max_or_zero]
  | cons e next =>
    have h1 := expansion_map_maxcost e
    have h2 := expansion_and_map_maxcost next
    rw [expansion_and, maxcost_rule_and, ← h1]
    simp only [List.map_flatMap, List.flatMap_map, List.map_map, Function.comp_def, and_clause]
    refine List.flatMap_congr (fun a ha => ?_)
    have hm : 0 ≤ a.maxcost := expansion_maxcost_nonneg e a ha
    have := congrArg
      (List.map (fun q : List Tconnector × Int => (a.c ++ q.1, max a.maxcost q.2))) h2
    simp only [List.map_map, Function.comp_def] at this
    rw [this]
    exact List.map_congr_left (fun b _ => by rw [max_or_zero_cons _ _ hm])
theorem expansion_or_map_maxcost (l : E_list) :
    (expansion_or l).map (fun C => (C.c, C.maxcost)) = maxcost_rule_or l := by
  cases l with
  | nil => rfl
  | cons e next =>
    rw [expansion_or, maxcost_rule_or, List.map_append,
      expansion_map_maxcost e, expansion_or_map_maxcost next]
end

mutual
theorem expansion_maxcost_eq_cost (e : Exp) (h : and_at_most_one e = true) :
    ∀ C ∈ expansion e, C.maxcost = C.cost := by
  cases e with
  | CONNECTOR cost dir multi string =>
    intro C hC
    simp only [expansion, List.mem_singleton] at hC
    subst hC
    rfl
  | AND cost l =>
    cases l with
    | nil =>
      intro C hC
      simp only [expansion, expansion_and, List.map_cons, List.map_nil,
        List.mem_singleton] at hC
      subst hC
      rfl
    | cons e next =>
      cases next with
      | nil =>
        have he : and_at_most_one e = true := by simpa [and_at_most_one] using h
        intro C hC
        simp only [expansion, expansion_and, List.mem_map, List.mem_flatMap, List.map_cons,
          List.map_nil, List.mem_singleton] at hC
        obtain ⟨b, ⟨a, ha, rfl⟩, rfl⟩ := hC
        rw [and_clause_empty a (expansion_maxcost_nonneg e a ha)]
        have := expansion_maxcost_eq_cost e he a ha
        simp only [add_cost, this]
      | cons e2 next2 => simp [and_at_most_one] at h
  | OR cost l =>
    have hl : and_at_most_one_list l = true := by simpa [and_at_most_one] using h
    intro C hC
    simp only [expansion, List.mem_map] at hC
    obtain ⟨a, ha, rfl⟩ := hC
    have := expansion_or_maxcost_eq_cost l hl a ha
    simp only [add_cost, this]
  | no_type cost l => simp [expansion]
theorem expansion_or_maxcost_eq_cost (l : E_list) (h : and_at_most_one_list l = true) :
    ∀ C ∈ expansion_or l, C.maxcost = C.cost := by
  cases l with
  | nil => simp [expansion_or]
  | cons e next =>
    have he : and_at_most_one e = true ∧ and_at_most_one_list next = true := by
      simpa [and_at_most_one_list] using h
    intro C hC
    simp only [expansion_or, List.mem_append] at hC
    rcases hC with hC | hC
    · exact expansion_maxcost_eq_cost e he.1 C hC
    · exact expansion_or_maxcost_eq_cost next he.2 C hC
end

/-! ## Claims C1 to C4: the clause builder -/

/-- C1, clause completeness: for every well-typed expression and every cutoff,
`build_clause` returns a clause list whose connector sequences are, as a
multiset, the sum-of-products expansion of the expression, and the connectors
of every clause are in the left-to-right order of the leaves of the
expression. -/
theorem C1_clause_completeness (e : Exp) (cost_cutoff : Int) (h : well_typed e = true) :
    ∃ cl, build_clause e cost_cutoff = Except.ok cl ∧
      (↑(cl.map Clause.c) : Multiset (List Tconnector)) = ↑(sum_of_products e) ∧
      ∀ C ∈ cl, C.c.Sublist (leaves e) := by
  obtain ⟨cl, h1, h2⟩ := build_clause_perm e cost_cutoff h
  have h3 : (cl.map Clause.c).Perm (sum_of_products e) := by
    rw [← expansion_map_c e]
    exact h2.map _
  refine ⟨cl, h1, Multiset.coe_eq_coe.2 h3, fun C hC => ?_⟩
  exact sum_of_products_sublist e C.c (h3.mem_iff.1 (List.mem_map_of_mem _ hC))

/-- Witness of C1 on the expression `((A+ or B+) & (C- or D-))`. -/
theorem C1_clause_completeness_witness :
    well_typed exp_S3 = true ∧
    ∃ cl, build_clause exp_S3 0 = Except.ok cl ∧
      (↑(cl.map Clause.c) : Multiset (List Tconnector)) = ↑(sum_of_products exp_S3) ∧
      ∀ C ∈ cl, C.c.Sublist (leaves exp_S3) :=
  ⟨by rfl, C1_clause_completeness exp_S3 0 (by rfl)⟩

/-- C2, cost additivity: for every well-typed expression, the clauses returned
by `build_clause` are, as a multiset, the choices of the expression, and the
cost of the clause of a choice is the sum of the costs of the nodes the choice
passes through, every node counted once. -/
theorem C2_cost_additivity (e : Exp) (cost_cutoff : Int) (h : well_typed e = true) :
    ∃ cl, build_clause e cost_cutoff = Except.ok cl ∧
      (↑(cl.map (fun C => (C.c, C.cost))) : Multiset (List Tconnector × Int))
        = ↑((choice_nodes e).map (fun p => (p.1, cost_sum p.2))) := by
  obtain ⟨cl, h1, h2⟩ := build_clause_perm e cost_cutoff h
  refine ⟨cl, h1, Multiset.coe_eq_coe.2 ?_⟩
  rw [← expansion_map_cost e]
  exact h2.map _

/-- Witness of C2 on the expression `[(A+ or [B-])]`. -/
theorem C2_cost_additivity_witness :
    well_typed exp_or_costs = true ∧
    ∃ cl, build_clause exp_or_costs 0 = Except.ok cl ∧
      (↑(cl.map (fun C => (C.c, C.cost))) : Multiset (List Tconnector × Int))
        = ↑((choice_nodes exp_or_costs).map (fun p => (p.1, cost_sum p.2))) :=
  ⟨by rfl, C2_cost_additivity exp_or_costs 0 (by rfl)⟩

/-- C3, maxcost rule: for every well-typed expression, the maxcost of the
clause of every choice follows the recursion: the cost of the leaf at a
Connector leaf; the maxcost of the chosen child plus the cost of the node at
an OR node; the maximum of the maxcosts chosen in the children (0 for no
children) plus the cost of the node at an AND node. -/
theorem C3_maxcost_rule (e : Exp) (cost_cutoff : Int) (h : well_typed e = true) :
    ∃ cl, build_clause e cost_cutoff = Except.ok cl ∧
      (↑(cl.map (fun C => (C.c, C.maxcost))) : Multiset (List Tconnector × Int))
        = ↑(maxcost_rule e) := by
  obtain ⟨cl, h1, h2⟩ := build_clause_perm e cost_cutoff h
  refine ⟨cl, h1, Multiset.coe_eq_coe.2 ?_⟩
  rw [← expansion_map_maxcost e]
  exact h2.map _

/-- Witness of C3 on the expression `([A+] & [[B+]])`. -/
theorem C3_maxcost_rule_witness :
    well_typed exp_and_costs = true ∧
    ∃ cl, build_clause exp_and_costs 0 = Except.ok cl ∧
      (↑(cl.map (fun C => (C.c, C.maxcost))) : Multiset (List Tconnector × Int))
        = ↑(maxcost_rule exp_and_costs) :=
  ⟨by rfl, C3_maxcost_rule exp_and_costs 0 (by rfl)⟩

/-- C4 fails as stated: on `([A+] & [[B+]])` the one clause has cost 3 and
maxcost 2, because the AND case takes the maximum of the maxcosts of the
children. -/
theorem C4_maxcost_eq_cost_counterexample :
    build_clause exp_and_costs 0
        = Except.ok [{ cost := 3, maxcost := 2,
                       c := [{ multi := false, dir := '+', string := "A" },
                             { multi := false, dir := '+', string := "B" }] }] ∧
    ¬ (∀ (e : Exp) (k : Int) (cl : List Clause), build_clause e k = Except.ok cl →
        ∀ C ∈ cl, C.maxcost = C.cost) := by
  refine ⟨by rfl, fun hall => ?_⟩
  have h := hall exp_and_costs 0 _ (by rfl) _ (List.mem_singleton_self _)
  exact absurd h (by decide)

/-- C4 as amended: for every well-typed expression in which no AND node has
more than one child, every clause returned by `build_clause` has its maxcost
equal to its cost. -/
theorem C4_maxcost_eq_cost_amended (e : Exp) (cost_cutoff : Int)
    (h : well_typed e = true) (hand : and_at_most_one e = true) :
    ∃ cl, build_clause e cost_cutoff = Except.ok cl ∧ ∀ C ∈ cl, C.maxcost = C.cost := by
  obtain ⟨cl, h1, h2⟩ := build_clause_perm e cost_cutoff h
  exact ⟨cl, h1, fun C hC => expansion_maxcost_eq_cost e hand C (h2.mem_iff.1 hC)⟩

/-- Witness of the amended C4 on the expression `[(A+ or [B-])]`. -/
theorem C4_maxcost_eq_cost_amended_witness :
    well_typed exp_or_costs = true ∧ and_at_most_one exp_or_costs = true ∧
    ∃ cl, build_clause exp_or_costs 0 = Except.ok cl ∧ ∀ C ∈ cl, C.maxcost = C.cost :=
  ⟨by rfl, by rfl, C4_maxcost_eq_cost_amended exp_or_costs 0 (by rfl) (by rfl)⟩

/-! ## The disjunct builder -/

theorem extract_connectors_eq (K : Consts) (e : List Tconnector) (c : Char) :
    extract_connectors K e c = (e.filter (fun t => decide (t.dir = c))).map (connector_of K) := by
  induction e with
  | nil => rfl
  | cons a t ih =>
    by_cases h : a.dir = c
    · simp [extract_connectors, h, ih, connector_of, init_connector, xalloc_Connector]
    · simp [extract_connectors, h, ih]

theorem build_disjunct_loop_eq (K : Consts) (s : String) (k : Int) (cl : List Clause)
    (dis : List Disjunct) :
    build_disjunct_loop K s k cl dis = ((kept k cl).map (disjunct_of K s)).reverse ++ dis := by
  induction cl generalizing dis with
  | nil => rfl
  | cons a t ih =>
    by_cases h : a.maxcost ≤ k
    · simp [build_disjunct_loop, h, ih, kept, disjunct_of]
    · simp [build_disjunct_loop, h, ih, kept]

theorem build_disjunct_eq (K : Consts) (cl : List Clause) (s : String) (k : Int) :
    build_disjunct K cl s k = ((kept k cl).reverse).map (disjunct_of K s) := by
  simp [build_disjunct, build_disjunct_loop_eq, List.map_reverse]

theorem side_lengths (c : List Tconnector) :
    (c.filter (fun t => decide (t.dir = '-'))).length
      + (c.filter (fun t => decide (t.dir = '+'))).length
      + c.countP (fun t => decide (t.dir ≠ '-' ∧ t.dir ≠ '+')) = c.length := by
  induction c with
  | nil => rfl
  | cons a t ih =>
    by_cases h1 : a.dir = '-'
    · have h2 : ¬ a.dir = '+' := by rw [h1]; decide
      simp [List.filter_cons, List.countP_cons, h1] at ih ⊢
      omega
    · by_cases h2 : a.dir = '+'
      · simp [List.filter_cons, List.countP_cons, h2] at ih ⊢
        omega
      · simp [List.filter_cons, List.countP_cons, h1, h2] at ih ⊢
        omega

mutual
theorem build_clause_cutoff (e : Exp) (k1 k2 : Int) :
    build_clause e k1 = build_clause e k2 := by
  cases e with
  | CONNECTOR cost dir multi string => rfl
  | AND cost l => simp only [build_clause, build_clause_and_cutoff l k1 k2]
  | OR cost l => simp only [build_clause, build_clause_or_cutoff l k1 k2]
  | no_type cost l => rfl
theorem build_clause_and_cutoff (l : E_list) (k1 k2 : Int) (acc : List Clause) :
    build_clause_and l k1 acc = build_clause_and l k2 acc := by
  cases l with
  | nil => rfl
  | cons e next =>
    simp only [build_clause_and, build_clause_cutoff e k1 k2]
    cases build_clause e k2 with
    | error err => rfl
    | ok c2 => exact build_clause_and_cutoff next k1 k2 _
theorem build_clause_or_cutoff (l : E_list) (k1 k2 : Int) (acc : List Clause) :
    build_clause_or l k1 acc = build_clause_or l k2 acc := by
  cases l with
  | nil => rfl
  | cons e next =>
    simp only [build_clause_or, build_clause_cutoff e k1 k2]
    cases build_clause e k2 with
    | error err => rfl
    | ok c2 => exact build_clause_or_cutoff next k1 k2 _
end

theorem kept_sublist (k1 k2 : Int) (h : k1 ≤ k2) (cl : List Clause) :
    (kept k1 cl).Sublist (kept k2 cl) := by
  induction cl with
  | nil => exact List.Sublist.refl _
  | cons a t ih =>
    by_cases h1 : a.maxcost ≤ k1
    · have h2 : a.maxcost ≤ k2 := le_trans h1 h
      simpa [kept, h1, h2] using ih
    · by_cases h2 : a.maxcost ≤ k2
      · simpa [kept, h1, h2] using List.Sublist.cons a ih
      · simpa [kept, h1, h2] using ih

/-! ## Claims C5 to C9: the disjunct builder -/

/-- C5, cutoff filter: `build_disjunct` returns one disjunct for each clause
with `maxcost <= cost_cutoff` and none for the others, in the reverse of the
clause order; its length is the number of clauses with
`maxcost <= cost_cutoff`, and a dropped clause is no failure (the function is
total). -/
theorem C5_cutoff_filter (K : Consts) (cl : List Clause) (s : String) (k : Int) :
    build_disjunct K cl s k
        = ((cl.filter (fun c => decide (c.maxcost ≤ k))).reverse).map (disjunct_of K s) ∧
      (build_disjunct K cl s k).length = cl.countP (fun c => decide (c.maxcost ≤ k)) ∧
      (build_disjunct K cl s k).length + cl.countP (fun c => decide (k < c.maxcost))
        = cl.length := by
  have h1 := build_disjunct_eq K cl s k
  have h2 : (build_disjunct K cl s k).length = cl.countP (fun c => decide (c.maxcost ≤ k)) := by
    rw [h1, List.length_map, List.length_reverse, kept, List.countP_eq_length_filter]
  refine ⟨h1, h2, ?_⟩
  rw [h2]
  have h3 : (fun c : Clause => decide (k < c.maxcost))
      = (fun c : Clause => !(decide (c.maxcost ≤ k))) := by
    funext c
    by_cases h : c.maxcost ≤ k
    · simp [h]
    · simp [h, lt_of_not_le h]
  rw [h3, List.countP_eq_length_filter, List.countP_eq_length_filter]
  have := List.length_eq_length_filter_add (l := cl) (fun c => decide (c.maxcost ≤ k))
  omega

/-- C6, side split: for every clause kept by `build_disjunct`, the left list
of its disjunct holds the connectors of the clause with dir `-` and the right
list those with dir `+`, each in the reverse of the order of the clause; the
two lengths and the number of connectors with another dir add up to the
length of the clause; the clause `[A-, B+]` gives left `[A]` and right `[B]`. -/
theorem C6_side_split (K : Consts) (cl : List Clause) (s : String) (k : Int) :
    List.Forall₂
      (fun (c : Clause) (d : Disjunct) =>
        d.left.map (fun x => (x.string, x.multi))
            = ((c.c.filter (fun t => decide (t.dir = '-'))).map
                (fun t => (t.string, t.multi))).reverse ∧
        d.right.map (fun x => (x.string, x.multi))
            = ((c.c.filter (fun t => decide (t.dir = '+'))).map
                (fun t => (t.string, t.multi))).reverse ∧
        d.left.length + d.right.length
            + c.c.countP (fun t => decide (t.dir ≠ '-' ∧ t.dir ≠ '+')) = c.c.length)
      ((cl.filter (fun c => decide (c.maxcost ≤ k))).reverse) (build_disjunct K cl s k) ∧
    build_disjunct K
        [{ cost := 0, maxcost := 0,
           c := [{ multi := false, dir := '-', string := "A" },
                 { multi := false, dir := '+', string := "B" }] }] s 0
      = [{ left := [{ label := K.NORMAL_LABEL, word := 0, length_limit := K.UNLIMITED_LEN,
                      priority := K.THIN_priority, multi := false, string := "A" }],
           right := [{ label := K.NORMAL_LABEL, word := 0, length_limit := K.UNLIMITED_LEN,
                       priority := K.THIN_priority, multi := false, string := "B" }],
           string := s, cost := 0 }] := by
  refine ⟨?_, by rfl⟩
  rw [build_disjunct_eq, List.forall₂_map_right_iff]
  refine List.forall₂_same.2 (fun c _ => ?_)
  simp only [disjunct_of, reverse_eq, extract_connectors_eq, List.map_reverse, List.map_map,
    List.length_reverse, List.length_map]
  exact ⟨rfl, rfl, side_lengths c.c⟩

/-- C7, cutoff monotonicity: for a well-typed expression and cutoffs
`k1 <= k2`, the disjunct list built with cutoff `k1` (`build_clause` followed
by `build_disjunct`) is contained, as a multiset, in the list built with
cutoff `k2`. -/
theorem C7_cutoff_monotone (K : Consts) (x : X_node) (k1 k2 : Int) (hk : k1 ≤ k2)
    (h : well_typed x.exp = true) :
    ∃ d1 d2, build_disjuncts_for_X_node K x k1 = Except.ok d1 ∧
      build_disjuncts_for_X_node K x k2 = Except.ok d2 ∧
      (↑d1 : Multiset Disjunct) ≤ ↑d2 := by
  obtain ⟨cl, h1, _⟩ := build_clause_perm x.exp k1 h
  have h2 : build_clause x.exp k2 = Except.ok cl := by
    rw [← build_clause_cutoff x.exp k1 k2]
    exact h1
  refine ⟨build_disjunct K cl x.string k1, build_disjunct K cl x.string k2, ?_, ?_, ?_⟩
  · simp [build_disjuncts_for_X_node, h1, bind, Except.bind, pure, Except.pure]
  · simp [build_disjuncts_for_X_node, h2, bind, Except.bind, pure, Except.pure]
  · rw [Multiset.coe_le, build_disjunct_eq, build_disjunct_eq]
    exact (((kept_sublist k1 k2 hk cl).reverse).map _).subperm

/-- Witness of C7 on `(A+ or [B+])` with `B+` of cost 3 and the cutoffs 2
and 3. -/
theorem C7_cutoff_monotone_witness :
    (2 : Int) ≤ 3 ∧ well_typed exp_S4 = true ∧
    ∃ d1 d2, build_disjuncts_for_X_node consts0 { string := "w", exp := exp_S4 } 2
          = Except.ok d1 ∧
      build_disjuncts_for_X_node consts0 { string := "w", exp := exp_S4 } 3 = Except.ok d2 ∧
      (↑d1 : Multiset Disjunct) ≤ ↑d2 :=
  ⟨by decide, by rfl,
    C7_cutoff_monotone consts0 { string := "w", exp := exp_S4 } 2 3 (by decide) (by rfl)⟩

theorem build_clause_or_leaves (k : Int) (ts : List Tconnector) (acc : List Clause) :
    build_clause_or
        (E_list.ofList (ts.map (fun t => Exp.CONNECTOR 0 t.dir t.multi t.string))) k acc
      = Except.ok ((ts.map (fun t => ({ cost := 0, maxcost := 0, c := [t] } : Clause))).reverse
          ++ acc) := by
  induction ts generalizing acc with
  | nil => rfl
  | cons a t ih =>
    simp only [List.map_cons, E_list.ofList, build_clause_or, build_clause, add_node_cost,
      build_terminal, pure, Except.pure, bind, Except.bind, or_push]
    rw [ih]
    simp

/-- C8, trivial OR: for an OR node of cost 0 over `n` Connector leaves of cost
0 and a cutoff `>= 0`, clause building followed by disjunct building yields
`n` disjuncts of cost 0, the i-th made from the i-th leaf: a `+` leaf gives
right = [that connector] and left = [], a `-` leaf gives left = [that
connector] and right = []. -/
theorem C8_trivial_or (K : Consts) (ts : List Tconnector) (s : String) (k : Int)
    (hk : 0 ≤ k) :
    build_disjuncts_for_X_node K
        { string := s,
          exp := Exp.OR 0
            (E_list.ofList (ts.map (fun t => Exp.CONNECTOR 0 t.dir t.multi t.string))) } k
      = Except.ok (ts.map (fun t =>
          { left := if t.dir = '-' then
              [{ label := K.NORMAL_LABEL, word := 0, length_limit := K.UNLIMITED_LEN,
                 priority := K.THIN_priority, multi := t.multi, string := t.string }]
              else [],
            right := if t.dir = '+' then
              [{ label := K.NORMAL_LABEL, word := 0, length_limit := K.UNLIMITED_LEN,
                 priority := K.THIN_priority, multi := t.multi, string := t.string }]
              else [],
            string := s, cost := 0 })) := by
  have hadd : ∀ l : List Clause, add_node_cost 0 l = l := by
    intro l
    rw [add_node_cost_eq]
    conv_rhs => rw [← List.map_id l]
    exact List.map_congr_left (fun c _ => by simp [add_cost])
  have hkept : ∀ l : List Tconnector,
      kept k (l.map (fun t => ({ cost := 0, maxcost := 0, c := [t] } : Clause)))
        = l.map (fun t => ({ cost := 0, maxcost := 0, c := [t] } : Clause)) := by
    intro l
    simp [kept, List.filter_eq_self, hk]
  simp only [build_disjuncts_for_X_node, build_clause, build_clause_or_leaves, bind,
    Except.bind, pure, Except.pure, hadd, List.append_nil, build_disjunct_eq]
  rw [← List.map_reverse, hkept]
  simp only [List.map_reverse, List.reverse_reverse, List.map_map]
  congr 1
  refine List.map_congr_left (fun t _ => ?_)
  by_cases h1 : t.dir = '-'
  · have h2 : ¬ t.dir = '+' := by rw [h1]; decide
    simp [disjunct_of, reverse_eq, extract_connectors_eq, connector_of, h1]
  · by_cases h2 : t.dir = '+'
    · simp [disjunct_of, reverse_eq, extract_connectors_eq, connector_of, h2]
    · simp [disjunct_of, reverse_eq, extract_connectors_eq, connector_of, h1, h2]

/-- Witness of C8 on the leaves `A+`, `B-` with cutoff 0. -/
theorem C8_trivial_or_witness :
    (0 : Int) ≤ 0 ∧
    build_disjuncts_for_X_node consts0
        { string := "w",
          exp := Exp.OR 0 (E_list.ofList
            (([{ multi := false, dir := '+', string := "A" },
               { multi := false, dir := '-', string := "B" }] : List Tconnector).map
              (fun t => Exp.CONNECTOR 0 t.dir t.multi t.string))) } 0
      = Except.ok
          (([{ multi := false, dir := '+', string := "A" },
             { multi := false, dir := '-', string := "B" }] : List Tconnector).map (fun t =>
          { left := if t.dir = '-' then
              [{ label := consts0.NORMAL_LABEL, word := 0,
                 length_limit := consts0.UNLIMITED_LEN,
                 priority := consts0.THIN_priority, multi := t.multi, string := t.string }]
              else [],
            right := if t.dir = '+' then
              [{ label := consts0.NORMAL_LABEL, word := 0,
                 length_limit := consts0.UNLIMITED_LEN,
                 priority := consts0.THIN_priority, multi := t.multi, string := t.string }]
              else [],
            string := "w", cost := 0 })) :=
  ⟨by decide, C8_trivial_or consts0 _ "w" 0 (by decide)⟩

/-- C9, disjunct fields: every disjunct of `build_disjunct cl s k` has string
`s` and the cost of the clause it came from, and every Connector of its left
and right lists has label `NORMAL_LABEL`, priority `THIN_priority`, word 0,
length_limit `UNLIMITED_LEN`, and the string and the multi flag of the
Tconnector it was made from. -/
theorem C9_disjunct_fields (K : Consts) (cl : List Clause) (s : String) (k : Int) :
    List.Forall₂
      (fun (c : Clause) (d : Disjunct) =>
        d.string = s ∧ d.cost = c.cost ∧
        List.Forall₂
          (fun (t : Tconnector) (x : Connector) =>
            x.label = K.NORMAL_LABEL ∧ x.priority = K.THIN_priority ∧ x.word = 0 ∧
            x.length_limit = K.UNLIMITED_LEN ∧ x.string = t.string ∧ x.multi = t.multi)
          ((c.c.filter (fun t => decide (t.dir = '-'))).reverse) d.left ∧
        List.Forall₂
          (fun (t : Tconnector) (x : Connector) =>
            x.label = K.NORMAL_LABEL ∧ x.priority = K.THIN_priority ∧ x.word = 0 ∧
            x.length_limit = K.UNLIMITED_LEN ∧ x.string = t.string ∧ x.multi = t.multi)
          ((c.c.filter (fun t => decide (t.dir = '+'))).reverse) d.right)
      ((cl.filter (fun c => decide (c.maxcost ≤ k))).reverse) (build_disjunct K cl s k) := by
  rw [build_disjunct_eq, List.forall₂_map_right_iff]
  refine List.forall₂_same.2 (fun c _ => ?_)
  refine ⟨rfl, rfl, ?_, ?_⟩
  · simp only [disjunct_of, reverse_eq, extract_connectors_eq, ← List.map_reverse]
    rw [List.forall₂_map_right_iff]
    exact List.forall₂_same.2 (fun t _ => ⟨rfl, rfl, rfl, rfl, rfl, rfl⟩)
  · simp only [disjunct_of, reverse_eq, extract_connectors_eq, ← List.map_reverse]
    rw [List.forall₂_map_right_iff]
    exact List.forall₂_same.2 (fun t _ => ⟨rfl, rfl, rfl, rfl, rfl, rfl⟩)

/-! ## Claim C10: sentence binding -/

theorem catenate_disjuncts_eq (d1 d2 : List Disjunct) : catenate_disjuncts d1 d2 = d1 ++ d2 := by
  cases d1 with
  | nil => cases d2 <;> rfl
  | cons a t =>
    cases d2 with
    | nil => simp [catenate_disjuncts]
    | cons b u => rfl

theorem build_disjuncts_for_X_node_ok (K : Consts) (x : X_node) (k : Int)
    (h : well_typed x.exp = true) :
    ∃ b, build_disjuncts_for_X_node K x k = Except.ok b := by
  obtain ⟨cl, h1, _⟩ := build_clause_perm x.exp k h
  exact ⟨build_disjunct K cl x.string k,
    by simp [build_disjuncts_for_X_node, h1, bind, Except.bind, pure, Except.pure]⟩

theorem build_word_disjuncts_eq (K : Consts) (k : Int) (xs : List X_node) (d : List Disjunct)
    (h : xs.all (fun x => well_typed x.exp) = true) :
    ∃ blocks, List.Forall₂ (fun x b => build_disjuncts_for_X_node K x k = Except.ok b) xs blocks ∧
      build_word_disjuncts K k xs d = Except.ok (blocks.reverse.flatten ++ d) := by
  induction xs generalizing d with
  | nil => exact ⟨[], List.Forall₂.nil, rfl⟩
  | cons x t ih =>
    have hx : well_typed x.exp = true ∧ t.all (fun x => well_typed x.exp) = true := by
      simpa [List.all_cons] using h
    obtain ⟨b, hb⟩ := build_disjuncts_for_X_node_ok K x k hx.1
    obtain ⟨blocks, h1, h2⟩ := ih (catenate_disjuncts b d) hx.2
    refine ⟨b :: blocks, List.Forall₂.cons hb h1, ?_⟩
    rw [catenate_disjuncts_eq] at h2
    simp [build_word_disjuncts, hb, h2, bind, Except.bind, catenate_disjuncts_eq]

theorem build_sentence_words_eq (K : Consts) (k : Int) (ws : List Word)
    (h : ws.all (fun w => w.x.all (fun x => well_typed x.exp)) = true) :
    ∃ ws1, build_sentence_words K k ws = Except.ok ws1 ∧
      List.Forall₂
        (fun (w w1 : Word) => w1.string = w.string ∧ w1.x = w.x ∧
          ∃ blocks,
            List.Forall₂ (fun x b => build_disjuncts_for_X_node K x k = Except.ok b) w.x blocks ∧
            w1.d = blocks.reverse.flatten)
        ws ws1 := by
  induction ws with
  | nil => exact ⟨[], rfl, List.Forall₂.nil⟩
  | cons w t ih =>
    have hw : w.x.all (fun x => well_typed x.exp) = true ∧
        t.all (fun w => w.x.all (fun x => well_typed x.exp)) = true := by
      simpa [List.all_cons] using h
    obtain ⟨blocks, h1, h2⟩ := build_word_disjuncts_eq K k w.x [] hw.1
    obtain ⟨ws1, h3, h4⟩ := ih hw.2
    refine ⟨{ w with d := blocks.reverse.flatten } :: ws1, ?_, ?_⟩
    · simp [build_sentence_words, h2, h3, bind, Except.bind, pure, Except.pure]
    · exact List.Forall₂.cons ⟨rfl, rfl, blocks, h1, rfl⟩ h4

/-- C10, sentence binding, content: when the alternatives of every word are
well typed, `build_sentence_disjuncts sent k` returns a sentence in which, at
every word position, the disjunct list is made of exactly the disjunct lists
that `build_disjuncts_for_X_node` builds for the alternatives of the word
with cutoff `k`: it is the concatenation of these per-alternative lists taken
in some order, each list a contiguous block in the order in which it was
produced, and its length is the sum of the lengths of the per-alternative
lists. -/
theorem C10_sentence_binding (K : Consts) (sent : Sentence) (k : Int)
    (h : sent.word.all (fun w => w.x.all (fun x => well_typed x.exp)) = true) :
    ∃ sent1, build_sentence_disjuncts K sent k = Except.ok sent1 ∧
      List.Forall₂
        (fun (w w1 : Word) =>
          ∃ blocks order : List (List Disjunct),
            List.Forall₂ (fun x b => build_disjuncts_for_X_node K x k = Except.ok b) w.x blocks ∧
            order.Perm blocks ∧ w1.d = order.flatten ∧
            w1.d.length = (blocks.map List.length).sum)
        sent.word sent1.word := by
  obtain ⟨ws1, h1, h2⟩ := build_sentence_words_eq K k sent.word h
  refine ⟨{ sent with word := ws1 }, ?_, ?_⟩
  · simp [build_sentence_disjuncts, h1, bind, Except.bind, pure, Except.pure]
  · refine h2.imp (fun w w1 hw => ?_)
    obtain ⟨_, _, blocks, hb, hd⟩ := hw
    refine ⟨blocks, blocks.reverse, hb, List.reverse_perm _, hd, ?_⟩
    rw [hd, List.length_flatten, List.map_reverse, List.sum_reverse]

/-- Witness of C10 on a sentence of two words, the first with two
alternatives. -/
theorem C10_sentence_binding_witness :
    sent0.word.all (fun w => w.x.all (fun x => well_typed x.exp)) = true ∧
    ∃ sent1, build_sentence_disjuncts consts0 sent0 2 = Except.ok sent1 ∧
      List.Forall₂
        (fun (w w1 : Word) =>
          ∃ blocks order : List (List Disjunct),
            List.Forall₂
              (fun x b => build_disjuncts_for_X_node consts0 x 2 = Except.ok b) w.x blocks ∧
            order.Perm blocks ∧ w1.d = order.flatten ∧
            w1.d.length = (blocks.map List.length).sum)
        sent0.word sent1.word :=
  ⟨by rfl, C10_sentence_binding consts0 sent0 2 (by rfl)⟩

/-! ## Claim C11: the order of the alternatives -/

/-- C11 fails as stated: for the first word of `sent0`, whose alternatives are
`x1 = (A+ or B-)` and `x2 = (A+ or [B+])`, the list built with cutoff 2 is
`D(x2) ++ D(x1)`, which differs from `D(x1) ++ D(x2)`. -/
theorem C11_alternative_order_counterexample :
    ∃ sent1 d1 d2 rest,
      build_sentence_disjuncts consts0 sent0 2 = Except.ok sent1 ∧
      build_disjuncts_for_X_node consts0 { string := "v.1", exp := exp_S1 } 2 = Except.ok d1 ∧
      build_disjuncts_for_X_node consts0 { string := "v.2", exp := exp_S4 } 2 = Except.ok d2 ∧
      sent1.word = { string := "v",
                     x := [{ string := "v.1", exp := exp_S1 }, { string := "v.2", exp := exp_S4 }],
                     d := d2 ++ d1 } :: rest ∧
      d2 ++ d1 ≠ d1 ++ d2 := by
  refine ⟨_, _, _, _, rfl, rfl, rfl, rfl, ?_⟩
  decide

/-- C11 as amended: for a word whose alternatives are `x1, ..., xn` in list
order, the disjunct list produced by `build_sentence_disjuncts` is the
concatenation in reverse alternative order `D(xn) ++ ... ++ D(x1)`, where
`D(x)` is the list `build_disjuncts_for_X_node` returns for `x`. -/
theorem C11_alternative_order_amended (K : Consts) (sent : Sentence) (k : Int)
    (h : sent.word.all (fun w => w.x.all (fun x => well_typed x.exp)) = true) :
    ∃ sent1, build_sentence_disjuncts K sent k = Except.ok sent1 ∧
      List.Forall₂
        (fun (w w1 : Word) =>
          ∃ blocks : List (List Disjunct),
            List.Forall₂ (fun x b => build_disjuncts_for_X_node K x k = Except.ok b) w.x blocks ∧
            w1.d = blocks.reverse.flatten)
        sent.word sent1.word := by
  obtain ⟨ws1, h1, h2⟩ := build_sentence_words_eq K k sent.word h
  refine ⟨{ sent with word := ws1 }, ?_, ?_⟩
  · simp [build_sentence_disjuncts, h1, bind, Except.bind, pure, Except.pure]
  · exact h2.imp (fun w w1 hw => hw.2.2)

/-- Witness of the amended C11 on the sentence `sent0`. -/
theorem C11_alternative_order_amended_witness :
    sent0.word.all (fun w => w.x.all (fun x => well_typed x.exp)) = true ∧
    ∃ sent1, build_sentence_disjuncts consts0 sent0 2 = Except.ok sent1 ∧
      List.Forall₂
        (fun (w w1 : Word) =>
          ∃ blocks : List (List Disjunct),
            List.Forall₂
              (fun x b => build_disjuncts_for_X_node consts0 x 2 = Except.ok b) w.x blocks ∧
            w1.d = blocks.reverse.flatten)
        sent0.word sent1.word :=
  ⟨by rfl, C11_alternative_order_amended consts0 sent0 2 (by rfl)⟩

/-! ## Claim C12: invalid expressions -/

mutual
theorem build_clause_error (e : Exp) (k : Int) (h : well_typed e = false) :
    ∃ msg, build_clause e k = Except.error msg := by
  cases e with
  | CONNECTOR cost dir multi string => simp [well_typed] at h
  | AND cost l =>
    have hl : well_typed_list l = false := by simpa [well_typed] using h
    obtain ⟨msg, hm⟩ := build_clause_and_error l k [{ cost := 0, maxcost := 0, c := [] }] hl
    exact ⟨msg, by simp [build_clause, hm, bind, Except.bind]⟩
  | OR cost l =>
    have hl : well_typed_list l = false := by simpa [well_typed] using h
    obtain ⟨msg, hm⟩ := build_clause_or_error l k [] hl
    exact ⟨msg, by simp [build_clause, hm, bind, Except.bind]⟩
  | no_type cost l => exact ⟨_, rfl⟩
theorem build_clause_and_error (l : E_list) (k : Int) (acc : List Clause)
    (h : well_typed_list l = false) :
    ∃ msg, build_clause_and l k acc = Except.error msg := by
  cases l with
  | nil => simp [well_typed_list] at h
  | cons e next =>
    cases he : well_typed e with
    | false =>
      obtain ⟨msg, hm⟩ := build_clause_error e k he
      exact ⟨msg, by simp [build_clause_and, hm, bind, Except.bind]⟩
    | true =>
      have hn : well_typed_list next = false := by simpa [well_typed_list, he] using h
      obtain ⟨c2, h2, _⟩ := build_clause_perm e k he
      obtain ⟨msg, hm⟩ := build_clause_and_error next k (and_outer c2 acc []) hn
      exact ⟨msg, by simp [build_clause_and, h2, hm, bind, Except.bind]⟩
theorem build_clause_or_error (l : E_list) (k : Int) (acc : List Clause)
    (h : well_typed_list l = false) :
    ∃ msg, build_clause_or l k acc = Except.error msg := by
  cases l with
  | nil => simp [well_typed_list] at h
  | cons e next =>
    cases he : well_typed e with
    | false =>
      obtain ⟨msg, hm⟩ := build_clause_error e k he
      exact ⟨msg, by simp [build_clause_or, hm, bind, Except.bind]⟩
    | true =>
      have hn : well_typed_list next = false := by simpa [well_typed_list, he] using h
      obtain ⟨c1, h1, _⟩ := build_clause_perm e k he
      obtain ⟨msg, hm⟩ := build_clause_or_error next k (or_push c1 acc) hn
      exact ⟨msg, by simp [build_clause_or, h1, hm, bind, Except.bind]⟩
end

/-- C12, invalid expression: `build_clause` aborts with a fatal assertion if
and only if the expression pointer is null or some node of the tree has a
type that is none of AND, OR, CONNECTOR (the tree is not well typed); on every
well-typed expression it returns a clause list, whatever the cutoff. -/
theorem C12_invalid_expression (e : Option Exp) (cost_cutoff : Int) :
    ((∃ msg, build_clause_ptr e cost_cutoff = Except.error msg) ↔
      (e = none ∨ ∃ e1, e = some e1 ∧ well_typed e1 = false)) ∧
    (∀ e1, e = some e1 → well_typed e1 = true →
      ∃ cl, build_clause_ptr e cost_cutoff = Except.ok cl) := by
  cases e with
  | none =>
    refine ⟨⟨fun _ => Or.inl rfl, fun _ => ⟨_, rfl⟩⟩, fun e1 h => by simp at h⟩
  | some e0 =>
    refine ⟨⟨fun hm => Or.inr ⟨e0, rfl, ?_⟩, fun hm => ?_⟩, fun e1 h1 h2 => ?_⟩
    · cases hw : well_typed e0 with
      | false => rfl
      | true =>
        obtain ⟨cl, hcl, _⟩ := build_clause_perm e0 cost_cutoff hw
        obtain ⟨msg, hmsg⟩ := hm
        simp [build_clause_ptr, hcl] at hmsg
    · rcases hm with hm | ⟨e1, h1, h2⟩
      · simp at hm
      · cases h1
        exact build_clause_error e0 cost_cutoff h2
    · cases h1
      obtain ⟨cl, hcl, _⟩ := build_clause_perm e0 cost_cutoff h2
      exact ⟨cl, hcl⟩

/-! ## Claims C13 and C14: the hash functions -/

theorem fast_match_hash_loop_eq (H : HashConsts) (s : List Char) (i : Int) :
    fast_match_hash_loop H s i
      = (s.takeWhile isupper).foldl (fun j c => hash_step H j (c.toNat : Int)) i := by
  induction s generalizing i with
  | nil => rfl
  | cons c t ih =>
    by_cases hc : isupper c = true
    · simp [fast_match_hash_loop, List.takeWhile_cons, hc, ih]
    · simp [fast_match_hash_loop, List.takeWhile_cons, hc]

theorem deref_take (s : List Char) (n : Nat) (hn : n ≠ 0) : deref (s.take n) = deref s := by
  cases s with
  | nil => simp [deref]
  | cons c t =>
    cases n with
    | zero => exact absurd rfl hn
    | succ m => rfl

theorem connector_hash_loop_eq (H : HashConsts) (fuel : Nat) (s : List Char) (i : Int) :
    connector_hash_loop H fuel s i
      = (utf8_upper_run H fuel s).foldl (fun j g => hash_step H j ((deref g).toNat : Int)) i := by
  induction fuel generalizing s i with
  | zero => rfl
  | succ n ih =>
    by_cases h0 : H.is_utf8_upper s = 0
    · simp [connector_hash_loop, utf8_upper_run, h0]
    · simp [connector_hash_loop, utf8_upper_run, h0, ih, deref_take s _ h0]

theorem connector_hash_loop_fuel (H : HashConsts) (fuel1 fuel2 : Nat) (s : List Char) (i : Int)
    (h1 : s.length < fuel1) (h2 : s.length < fuel2) :
    connector_hash_loop H fuel1 s i = connector_hash_loop H fuel2 s i := by
  induction fuel1 generalizing fuel2 s i with
  | zero => omega
  | succ n ih =>
    cases fuel2 with
    | zero => omega
    | succ m =>
      by_cases h0 : H.is_utf8_upper s = 0
      · simp [connector_hash_loop, h0]
      · have hs : s ≠ [] := by
          intro hnil
          rw [hnil] at h0
          exact h0 H.is_utf8_upper_nil
        have hlen : (s.drop (H.is_utf8_upper s)).length < s.length := by
          have : 0 < s.length := List.length_pos.2 hs
          rw [List.length_drop]
          omega
        simp only [connector_hash_loop, h0, if_false]
        exact ih m _ _ (by omega) (by omega)

theorem easy_match_upper (s t : List Char) (h : easy_match s t = true) :
    s.takeWhile isupper = t.takeWhile isupper := by
  induction s generalizing t with
  | nil =>
    cases t with
    | nil => rfl
    | cons b t =>
      by_cases hb : isupper b = true
      · simp [easy_match, hb] at h
      · simp [List.takeWhile_cons, hb]
  | cons a s ih =>
    cases t with
    | nil =>
      by_cases ha : isupper a = true
      · simp [easy_match, ha] at h
      · simp [List.takeWhile_cons, ha]
    | cons b t =>
      by_cases hab : (isupper a || isupper b) = true
      · simp only [easy_match, hab, if_true] at h
        by_cases hne : a = b
        · subst hne
          simp only [ne_eq, not_true_eq_false, if_false] at h
          simp [List.takeWhile_cons, ih t h]
        · simp [hne] at h
      · have ha : isupper a = false := by
          cases hx : isupper a with
          | false => rfl
          | true => simp [hx] at hab
        have hb : isupper b = false := by
          cases hx : isupper b with
          | false => rfl
          | true => simp [hx] at hab
        simp [List.takeWhile_cons, ha, hb]

/-- C13, the hash ignores the subtype tail: for two connectors with the same
label, `fast_match_hash` returns the same value when the strings have the
same leading run of upper-case letters, whatever follows the run; and
`connector_hash` with the same seed returns the same value when the strings
have the same leading run of upper-case characters as `is_utf8_upper` reads
them. -/
theorem C13_hash_ignores_tail (H : HashConsts) (c1 c2 : Connector) (i : Int)
    (hl : c1.label = c2.label) :
    (c1.string.data.takeWhile isupper = c2.string.data.takeWhile isupper →
      fast_match_hash H c1 = fast_match_hash H c2) ∧
    (utf8_upper_run H (c1.string.data.length + 1) c1.string.data
        = utf8_upper_run H (c2.string.data.length + 1) c2.string.data →
      connector_hash H c1 i = connector_hash H c2 i) := by
  constructor
  · intro h
    simp only [fast_match_hash, fast_match_hash_loop_eq, hl, h]
  · intro h
    simp only [connector_hash, connector_hash_loop_eq, hl, h]

/-- Witness of C13 on the connectors `MVp` and `MVa`. -/
theorem C13_hash_ignores_tail_witness :
    (conn0 "MVp" 0).label = (conn0 "MVa" 0).label ∧
    (conn0 "MVp" 0).string.data.takeWhile isupper
      = (conn0 "MVa" 0).string.data.takeWhile isupper ∧
    utf8_upper_run hash0 ((conn0 "MVp" 0).string.data.length + 1) (conn0 "MVp" 0).string.data
      = utf8_upper_run hash0 ((conn0 "MVa" 0).string.data.length + 1)
          (conn0 "MVa" 0).string.data ∧
    fast_match_hash hash0 (conn0 "MVp" 0) = fast_match_hash hash0 (conn0 "MVa" 0) ∧
    connector_hash hash0 (conn0 "MVp" 0) 5 = connector_hash hash0 (conn0 "MVa" 0) 5 :=
  ⟨rfl, by decide, by decide,
    (C13_hash_ignores_tail hash0 (conn0 "MVp" 0) (conn0 "MVa" 0) 5 rfl).1 (by decide),
    (C13_hash_ignores_tail hash0 (conn0 "MVp" 0) (conn0 "MVa" 0) 5 rfl).2 (by decide)⟩

/-- C14, hash-match compatibility: two connectors with equal label whose
strings `easy_match` accepts have the same `fast_match_hash`. -/
theorem C14_hash_match_compat (H : HashConsts) (c1 c2 : Connector)
    (hl : c1.label = c2.label)
    (hm : easy_match c1.string.data c2.string.data = true) :
    fast_match_hash H c1 = fast_match_hash H c2 := by
  simp only [fast_match_hash, fast_match_hash_loop_eq, hl, easy_match_upper _ _ hm]

/-- Witness of C14 on the connectors `Ss` and `S*b`. -/
theorem C14_hash_match_compat_witness :
    (conn0 "Ss" 0).label = (conn0 "S*b" 0).label ∧
    easy_match (conn0 "Ss" 0).string.data (conn0 "S*b" 0).string.data = true ∧
    fast_match_hash hash0 (conn0 "Ss" 0) = fast_match_hash hash0 (conn0 "S*b" 0) :=
  ⟨rfl, by decide, C14_hash_match_compat hash0 (conn0 "Ss" 0) (conn0 "S*b" 0) rfl (by decide)⟩

/-! ## The fast matcher: sizes and bucket indices -/

theorem next_power_of_two_up_loop_spec (fuel a : Nat) (i : Int)
    (hf : i.toNat ≤ fuel + a) (hlow : ∀ b, b < a → (2 : Int) ^ b < i) :
    ∃ k, next_power_of_two_up_loop fuel ((2 : Int) ^ a) i = (2 : Int) ^ k ∧
      i ≤ (2 : Int) ^ k ∧ ∀ j : Nat, i ≤ (2 : Int) ^ j → k ≤ j := by
  induction fuel generalizing a with
  | zero =>
    refine ⟨a, rfl, ?_, ?_⟩
    · have h1 : (a : Int) < (2 : Int) ^ a := by exact_mod_cast Nat.lt_two_pow a
      have h2 : i ≤ (a : Int) := by omega
      omega
    · intro j hj
      by_contra hlt
      have := hlow j (by omega)
      omega
  | succ n ih =>
    by_cases hlt : (2 : Int) ^ a < i
    · have hstep : next_power_of_two_up_loop (n + 1) ((2 : Int) ^ a) i
          = next_power_of_two_up_loop n ((2 : Int) ^ (a + 1)) i := by
        simp [next_power_of_two_up_loop, hlt, pow_succ]
      rw [hstep]
      refine ih (a + 1) (by omega) (fun b hb => ?_)
      by_cases hba : b < a
      · exact hlow b hba
      · have : b = a := by omega
        rw [this]
        exact hlt
    · refine ⟨a, by simp [next_power_of_two_up_loop, hlt], by omega, ?_⟩
      intro j hj
      by_contra hja
      have := hlow j (by omega)
      omega

theorem next_power_of_two_up_spec (i : Int) :
    ∃ k, next_power_of_two_up i = (2 : Int) ^ k ∧ i ≤ (2 : Int) ^ k ∧
      ∀ j : Nat, i ≤ (2 : Int) ^ j → k ≤ j := by
  have h := next_power_of_two_up_loop_spec i.toNat 0 i (by omega) (fun b hb => by omega)
  simpa [next_power_of_two_up] using h

theorem land_mask_nonneg (h : Int) (k : Nat) : 0 ≤ Int.land h ((2 : Int) ^ k - 1) := by
  have hn : ((2 : Int) ^ k - 1) = (((2 ^ k - 1 : Nat)) : Int) := by
    have : 1 ≤ 2 ^ k := Nat.one_le_two_pow
    push_cast [Nat.cast_sub this]
    rfl
  rw [hn]
  cases h with
  | ofNat m => exact Int.ofNat_nonneg _
  | negSucc m => exact Int.ofNat_nonneg _

theorem land_mask_lt (h : Int) (k : Nat) : Int.land h ((2 : Int) ^ k - 1) < (2 : Int) ^ k := by
  have hn : ((2 : Int) ^ k - 1) = (((2 ^ k - 1 : Nat)) : Int) := by
    have : 1 ≤ 2 ^ k := Nat.one_le_two_pow
    push_cast [Nat.cast_sub this]
    rfl
  rw [hn]
  cases h with
  | ofNat m =>
    have h1 : Int.land (Int.ofNat m) ((2 ^ k - 1 : Nat) : Int) = ((m &&& (2 ^ k - 1) : Nat) : Int) :=
      rfl
    rw [h1, Nat.and_pow_two_sub_one_eq_mod]
    exact_mod_cast Nat.mod_lt _ (Nat.two_pow_pos k)
  | negSucc m =>
    have h1 : Int.land (Int.negSucc m) ((2 ^ k - 1 : Nat) : Int)
        = ((Nat.ldiff (2 ^ k - 1) m : Nat) : Int) := rfl
    rw [h1]
    have h2 : Nat.ldiff (2 ^ k - 1) m < 2 ^ k := by
      apply Nat.lt_pow_two_of_testBit
      intro i hi
      rw [Nat.testBit_ldiff, Nat.testBit_two_pow_sub_one]
      simp
      omega
    exact_mod_cast h2

/-! ## The fast matcher: sorted insertion -/

theorem add_to_right_table_list_spec (m : Match_node) (a : Int)
    (hm : first_word m.d.node.right = some a) (l : List Match_node) (ks : List Int)
    (hl : l.map (fun x => first_word x.d.node.right) = ks.map some) :
    ∃ r, add_to_right_table_list m l = some r ∧ r.Perm (m :: l) ∧
      r.map (fun x => first_word x.d.node.right)
        = (ks.orderedInsert (fun x y => x ≤ y) a).map some := by
  induction l generalizing ks with
  | nil =>
    cases ks with
    | nil => exact ⟨[m], rfl, List.Perm.refl _, by simp [hm]⟩
    | cons k ks => simp at hl
  | cons x t ih =>
    cases ks with
    | nil => simp at hl
    | cons k ks =>
      simp only [List.map_cons, List.cons.injEq] at hl
      obtain ⟨hx, ht⟩ := hl
      by_cases hle : a ≤ k
      · refine ⟨m :: x :: t, ?_, List.Perm.refl _, ?_⟩
        · simp [add_to_right_table_list, hm, hx, hle]
        · simp [List.orderedInsert, hle, hm, hx, ht]
      · obtain ⟨r, h1, h2, h3⟩ := ih ks ht
        refine ⟨x :: r, ?_, ?_, ?_⟩
        · simp [add_to_right_table_list, hm, hx, hle, h1]
        · exact (List.Perm.cons x h2).trans (List.Perm.swap m x t)
        · simp [List.orderedInsert, hle, hx, h3]

theorem add_to_left_table_list_spec (m : Match_node) (a : Int)
    (hm : first_word m.d.node.left = some a) (l : List Match_node) (ks : List Int)
    (hl : l.map (fun x => first_word x.d.node.left) = ks.map some) :
    ∃ r, add_to_left_table_list m l = some r ∧ r.Perm (m :: l) ∧
      r.map (fun x => first_word x.d.node.left)
        = (ks.orderedInsert (fun x y => x ≥ y) a).map some := by
  induction l generalizing ks with
  | nil =>
    cases ks with
    | nil => exact ⟨[m], rfl, List.Perm.refl _, by simp [hm]⟩
    | cons k ks => simp at hl
  | cons x t ih =>
    cases ks with
    | nil => simp at hl
    | cons k ks =>
      simp only [List.map_cons, List.cons.injEq] at hl
      obtain ⟨hx, ht⟩ := hl
      by_cases hle : a ≥ k
      · refine ⟨m :: x :: t, ?_, List.Perm.refl _, ?_⟩
        · simp [add_to_left_table_list, hm, hx, hle]
        · simp [List.orderedInsert, hle, hm, hx, ht]
      · obtain ⟨r, h1, h2, h3⟩ := ih ks ht
        refine ⟨x :: r, ?_, ?_, ?_⟩
        · simp [add_to_left_table_list, hm, hx, hle, h1]
        · exact (List.Perm.cons x h2).trans (List.Perm.swap m x t)
        · simp [List.orderedInsert, hle, hx, h3]

theorem add_to_right_table_list_sorted (m : Match_node) (hm : m.d.node.right ≠ [])
    (l : List Match_node) (hl : right_sorted l) :
    ∃ r, add_to_right_table_list m l = some r ∧ r.Perm (m :: l) ∧ right_sorted r := by
  obtain ⟨ks, h1, h2⟩ := hl
  cases hr : m.d.node.right with
  | nil => exact absurd hr hm
  | cons c rest =>
    obtain ⟨r, h3, h4, h5⟩ := add_to_right_table_list_spec m c.word (by simp [hr, first_word]) l ks h1
    refine ⟨r, h3, h4, _, h5, ?_⟩
    exact List.Sorted.orderedInsert c.word ks h2

theorem add_to_left_table_list_sorted (m : Match_node) (hm : m.d.node.left ≠ [])
    (l : List Match_node) (hl : left_sorted l) :
    ∃ r, add_to_left_table_list m l = some r ∧ r.Perm (m :: l) ∧ left_sorted r := by
  obtain ⟨ks, h1, h2⟩ := hl
  cases hr : m.d.node.left with
  | nil => exact absurd hr hm
  | cons c rest =>
    obtain ⟨r, h3, h4, h5⟩ := add_to_left_table_list_spec m c.word (by simp [hr, first_word]) l ks h1
    refine ⟨r, h3, h4, _, h5, ?_⟩
    exact List.Sorted.orderedInsert c.word ks h2

/-! ## The fast matcher: filling a table -/

theorem table_index_lt (H : HashConsts) (c : Connector) (size : Int) (k : Nat)
    (hsize : size = (2 : Int) ^ k) (n : Nat) (hn : n = 2 ^ k) :
    0 ≤ Int.land (fast_match_hash H c) (size - 1) ∧
      (Int.land (fast_match_hash H c) (size - 1)).toNat < n := by
  subst hsize
  have h1 := land_mask_nonneg (fast_match_hash H c) k
  have h2 := land_mask_lt (fast_match_hash H c) k
  refine ⟨h1, ?_⟩
  have h3 : ((2 : Int) ^ k) = ((2 ^ k : Nat) : Int) := by push_cast; rfl
  omega

theorem put_into_match_table_right (H : HashConsts) (size : Int) (k : Nat)
    (hsize : size = (2 : Int) ^ k) (t : List (List Match_node)) (hlen : t.length = 2 ^ k)
    (hs : ∀ b ∈ t, right_sorted b) (d : DisjunctPtr) (c : Connector) (rest : List Connector)
    (hd : d.node.right = c :: rest) :
    ∃ b b1, t[(Int.land (fast_match_hash H c) (size - 1)).toNat]? = some b ∧
      put_into_match_table H size t d c 1
        = some (t.set (Int.land (fast_match_hash H c) (size - 1)).toNat b1) ∧
      b1.Perm ({ d := d } :: b) ∧ right_sorted b1 := by
  obtain ⟨h0, hlt⟩ := table_index_lt H c size k hsize t.length hlen
  have hb : t[(Int.land (fast_match_hash H c) (size - 1)).toNat]?
      = some (t[(Int.land (fast_match_hash H c) (size - 1)).toNat]) :=
    List.getElem?_eq_getElem hlt
  obtain ⟨b1, h1, h2, h3⟩ := add_to_right_table_list_sorted { d := d } (by simp [hd])
    _ (hs _ (List.getElem_mem hlt))
  refine ⟨_, b1, hb, ?_, h2, h3⟩
  simp [put_into_match_table, table_get, h0, hb, h1]

theorem put_into_match_table_left (H : HashConsts) (size : Int) (k : Nat)
    (hsize : size = (2 : Int) ^ k) (t : List (List Match_node)) (hlen : t.length = 2 ^ k)
    (hs : ∀ b ∈ t, left_sorted b) (d : DisjunctPtr) (c : Connector) (rest : List Connector)
    (hd : d.node.left = c :: rest) :
    ∃ b b1, t[(Int.land (fast_match_hash H c) (size - 1)).toNat]? = some b ∧
      put_into_match_table H size t d c (-1)
        = some (t.set (Int.land (fast_match_hash H c) (size - 1)).toNat b1) ∧
      b1.Perm ({ d := d } :: b) ∧ left_sorted b1 := by
  obtain ⟨h0, hlt⟩ := table_index_lt H c size k hsize t.length hlen
  have hb : t[(Int.land (fast_match_hash H c) (size - 1)).toNat]?
      = some (t[(Int.land (fast_match_hash H c) (size - 1)).toNat]) :=
    List.getElem?_eq_getElem hlt
  obtain ⟨b1, h1, h2, h3⟩ := add_to_left_table_list_sorted { d := d } (by simp [hd])
    _ (hs _ (List.getElem_mem hlt))
  refine ⟨_, b1, hb, ?_, h2, h3⟩
  simp [put_into_match_table, table_get, h0, hb, h1]

theorem fill_right_table_spec (H : HashConsts) (size : Int) (k : Nat)
    (hsize : size = (2 : Int) ^ k) (ds : List DisjunctPtr) (t : List (List Match_node))
    (hlen : t.length = 2 ^ k) (hs : ∀ b ∈ t, right_sorted b) :
    ∃ t1, fill_right_table H size ds t = some t1 ∧ t1.length = 2 ^ k ∧
      (∀ b ∈ t1, right_sorted b) ∧
      ∀ i : Nat, i < 2 ^ k → ∃ b b1, t[i]? = some b ∧ t1[i]? = some b1 ∧
        (b1.map (fun m => m.d)).Perm
          (b.map (fun m => m.d)
            ++ ds.filter (fun p => decide (right_bucket_index H size p = some (i : Int)))) := by
  induction ds generalizing t with
  | nil =>
    refine ⟨t, rfl, hlen, hs, fun i hi => ?_⟩
    exact ⟨t[i], t[i], List.getElem?_eq_getElem (by omega), List.getElem?_eq_getElem (by omega),
      by simp⟩
  | cons d next ih =>
    cases hd : d.node.right with
    | nil =>
      obtain ⟨t1, h1, h2, h3, h4⟩ := ih t hlen hs
      refine ⟨t1, by simp [fill_right_table, hd, h1], h2, h3, fun i hi => ?_⟩
      obtain ⟨b, b1, h5, h6, h7⟩ := h4 i hi
      refine ⟨b, b1, h5, h6, ?_⟩
      have hne : right_bucket_index H size d ≠ some (i : Int) := by
        simp [right_bucket_index, hd]
      simpa [List.filter_cons, hne] using h7
    | cons c rest =>
      obtain ⟨b0, b1, hb0, hput, hperm, hsorted⟩ :=
        put_into_match_table_right H size k hsize t hlen hs d c rest hd
      obtain ⟨h0, hlt⟩ := table_index_lt H c size k hsize t.length hlen
      have hs1 : ∀ b ∈ t.set (Int.land (fast_match_hash H c) (size - 1)).toNat b1,
          right_sorted b := by
        intro b hb
        rcases List.mem_or_eq_of_mem_set hb with hb | hb
        · exact hs b hb
        · rw [hb]; exact hsorted
      obtain ⟨t1, h1, h2, h3, h4⟩ := ih (t.set (Int.land (fast_match_hash H c) (size - 1)).toNat b1)
        (by simp [hlen]) hs1
      refine ⟨t1, by simp [fill_right_table, hd, hput, h1], h2, h3, fun i hi => ?_⟩
      obtain ⟨b, b2, h5, h6, h7⟩ := h4 i hi
      have hidx : right_bucket_index H size d
          = some (Int.land (fast_match_hash H c) (size - 1)) := by
        simp [right_bucket_index, hd]
      by_cases hi2 : (Int.land (fast_match_hash H c) (size - 1)).toNat = i
      · have hb : b = b1 := by
          rw [List.getElem?_set, if_pos hi2, if_pos hlt] at h5
          exact (Option.some.inj h5).symm
        subst hb
        have heq : Int.land (fast_match_hash H c) (size - 1) = (i : Int) := by omega
        refine ⟨b0, b2, by rw [← hi2]; exact hb0, h6, ?_⟩
        refine h7.trans ?_
        simp only [List.filter_cons, hidx, heq, decide_True, if_true]
        refine (List.Perm.append_right _ (hperm.map _)).trans ?_
        simp only [List.map_cons, List.cons_append]
        exact List.perm_middle.symm
      · have hne : Int.land (fast_match_hash H c) (size - 1) ≠ (i : Int) := by omega
        rw [List.getElem?_set_ne hi2] at h5
        refine ⟨b, b2, h5, h6, ?_⟩
        simpa [List.filter_cons, hidx, hne] using h7

theorem fill_left_table_spec (H : HashConsts) (size : Int) (k : Nat)
    (hsize : size = (2 : Int) ^ k) (ds : List DisjunctPtr) (t : List (List Match_node))
    (hlen : t.length = 2 ^ k) (hs : ∀ b ∈ t, left_sorted b) :
    ∃ t1, fill_left_table H size ds t = some t1 ∧ t1.length = 2 ^ k ∧
      (∀ b ∈ t1, left_sorted b) ∧
      ∀ i : Nat, i < 2 ^ k → ∃ b b1, t[i]? = some b ∧ t1[i]? = some b1 ∧
        (b1.map (fun m => m.d)).Perm
          (b.map (fun m => m.d)
            ++ ds.filter (fun p => decide (left_bucket_index H size p = some (i : Int)))) := by
  induction ds generalizing t with
  | nil =>
    refine ⟨t, rfl, hlen, hs, fun i hi => ?_⟩
    exact ⟨t[i], t[i], List.getElem?_eq_getElem (by omega), List.getElem?_eq_getElem (by omega),
      by simp⟩
  | cons d next ih =>
    cases hd : d.node.left with
    | nil =>
      obtain ⟨t1, h1, h2, h3, h4⟩ := ih t hlen hs
      refine ⟨t1, by simp [fill_left_table, hd, h1], h2, h3, fun i hi => ?_⟩
      obtain ⟨b, b1, h5, h6, h7⟩ := h4 i hi
      refine ⟨b, b1, h5, h6, ?_⟩
      have hne : left_bucket_index H size d ≠ some (i : Int) := by
        simp [left_bucket_index, hd]
      simpa [List.filter_cons, hne] using h7
    | cons c rest =>
      obtain ⟨b0, b1, hb0, hput, hperm, hsorted⟩ :=
        put_into_match_table_left H size k hsize t hlen hs d c rest hd
      obtain ⟨h0, hlt⟩ := table_index_lt H c size k hsize t.length hlen
      have hs1 : ∀ b ∈ t.set (Int.land (fast_match_hash H c) (size - 1)).toNat b1,
          left_sorted b := by
        intro b hb
        rcases List.mem_or_eq_of_mem_set hb with hb | hb
        · exact hs b hb
        · rw [hb]; exact hsorted
      obtain ⟨t1, h1, h2, h3, h4⟩ := ih (t.set (Int.land (fast_match_hash H c) (size - 1)).toNat b1)
        (by simp [hlen]) hs1
      refine ⟨t1, by simp [fill_left_table, hd, hput, h1], h2, h3, fun i hi => ?_⟩
      obtain ⟨b, b2, h5, h6, h7⟩ := h4 i hi
      have hidx : left_bucket_index H size d
          = some (Int.land (fast_match_hash H c) (size - 1)) := by
        simp [left_bucket_index, hd]
      by_cases hi2 : (Int.land (fast_match_hash H c) (size - 1)).toNat = i
      · have hb : b = b1 := by
          rw [List.getElem?_set, if_pos hi2, if_pos hlt] at h5
          exact (Option.some.inj h5).symm
        subst hb
        have heq : Int.land (fast_match_hash H c) (size - 1) = (i : Int) := by omega
        refine ⟨b0, b2, by rw [← hi2]; exact hb0, h6, ?_⟩
        refine h7.trans ?_
        simp only [List.filter_cons, hidx, heq, decide_True, if_true]
        refine (List.Perm.append_right _ (hperm.map _)).trans ?_
        simp only [List.map_cons, List.cons_append]
        exact List.perm_middle.symm
      · have hne : Int.land (fast_match_hash H c) (size - 1) ≠ (i : Int) := by omega
        rw [List.getElem?_set_ne hi2] at h5
        refine ⟨b, b2, h5, h6, ?_⟩
        simpa [List.filter_cons, hidx, hne] using h7

/-! ## The fast matcher: the tables of a sentence -/

theorem left_disjunct_list_length_loop_eq (d : List Disjunct) (i : Int) :
    left_disjunct_list_length_loop d i
      = i + ((d.countP (fun x => decide (x.left ≠ [])) : Nat) : Int) := by
  induction d generalizing i with
  | nil => simp [left_disjunct_list_length_loop]
  | cons x t ih =>
    by_cases hx : x.left = []
    · simp [left_disjunct_list_length_loop, hx, ih]
    · simp [left_disjunct_list_length_loop, hx, ih, List.countP_cons]
      omega

theorem left_disjunct_list_length_eq (d : List Disjunct) :
    left_disjunct_list_length d = ((d.countP (fun x => decide (x.left ≠ [])) : Nat) : Int) := by
  simp [left_disjunct_list_length, left_disjunct_list_length_loop_eq]

theorem right_disjunct_list_length_loop_eq (d : List Disjunct) (i : Int) :
    right_disjunct_list_length_loop d i
      = i + ((d.countP (fun x => decide (x.right ≠ [])) : Nat) : Int) := by
  induction d generalizing i with
  | nil => simp [right_disjunct_list_length_loop]
  | cons x t ih =>
    by_cases hx : x.right = []
    · simp [right_disjunct_list_length_loop, hx, ih]
    · simp [right_disjunct_list_length_loop, hx, ih, List.countP_cons]
      omega

theorem right_disjunct_list_length_eq (d : List Disjunct) :
    right_disjunct_list_length d = ((d.countP (fun x => decide (x.right ≠ [])) : Nat) : Int) := by
  simp [right_disjunct_list_length, right_disjunct_list_length_loop_eq]

theorem two_pow_toNat (k : Nat) : ((2 : Int) ^ k).toNat = 2 ^ k := by
  have h : ((2 : Int) ^ k) = ((2 ^ k : Nat) : Int) := by push_cast; rfl
  rw [h, Int.toNat_natCast]

theorem left_sorted_nil : left_sorted [] := ⟨[], rfl, List.Pairwise.nil⟩

theorem right_sorted_nil : right_sorted [] := ⟨[], rfl, List.Pairwise.nil⟩

theorem init_word_tables_ok (H : HashConsts) (d : List Disjunct) :
    ∃ wt, init_word_tables H d = some wt ∧ word_tables_ok H d wt := by
  obtain ⟨kl, hkl, _, _⟩ := next_power_of_two_up_spec (left_disjunct_list_length d)
  obtain ⟨kr, hkr, _, _⟩ := next_power_of_two_up_spec (right_disjunct_list_length d)
  obtain ⟨lt, hl1, hl2, hl3, hl4⟩ := fill_left_table_spec H _ kl hkl (disjunct_ptrs 0 d)
    (List.replicate (next_power_of_two_up (left_disjunct_list_length d)).toNat [])
    (by rw [hkl, List.length_replicate, two_pow_toNat])
    (fun b hb => by rw [(List.mem_replicate.1 hb).2]; exact left_sorted_nil)
  obtain ⟨rt, hr1, hr2, hr3, hr4⟩ := fill_right_table_spec H _ kr hkr (disjunct_ptrs 0 d)
    (List.replicate (next_power_of_two_up (right_disjunct_list_length d)).toNat [])
    (by rw [hkr, List.length_replicate, two_pow_toNat])
    (fun b hb => by rw [(List.mem_replicate.1 hb).2]; exact right_sorted_nil)
  refine ⟨{ l_size := next_power_of_two_up (left_disjunct_list_length d), l_table := lt,
            r_size := next_power_of_two_up (right_disjunct_list_length d), r_table := rt },
    by simp only [init_word_tables, hl1, hr1], rfl, rfl, ?_, ?_, hl3, hr3, ?_, ?_⟩
  · show lt.length = _
    rw [hl2, hkl, two_pow_toNat]
  · show rt.length = _
    rw [hr2, hkr, two_pow_toNat]
  · intro i b hb
    have hi : i < 2 ^ kl := by
      rw [← hl2]
      exact (List.getElem?_eq_some.1 hb).1
    obtain ⟨b0, b1, h1, h2, h3⟩ := hl4 i hi
    have hb0 : b0 = [] := by
      rw [List.getElem?_replicate] at h1
      split at h1
      · exact (Option.some.inj h1).symm
      · exact absurd h1 (by simp)
    have hb1 : b = b1 := Option.some.inj (hb.symm.trans h2)
    subst hb0 hb1
    simpa using h3
  · intro i b hb
    have hi : i < 2 ^ kr := by
      rw [← hr2]
      exact (List.getElem?_eq_some.1 hb).1
    obtain ⟨b0, b1, h1, h2, h3⟩ := hr4 i hi
    have hb0 : b0 = [] := by
      rw [List.getElem?_replicate] at h1
      split at h1
      · exact (Option.some.inj h1).symm
      · exact absurd h1 (by simp)
    have hb1 : b = b1 := Option.some.inj (hb.symm.trans h2)
    subst hb0 hb1
    simpa using h3

theorem init_words_tables_ok (H : HashConsts) (ws : List Word) :
    ∃ r, init_words_tables H ws = some r ∧
      List.Forall₂ (fun (w : Word) (wt : WordTables) => word_tables_ok H w.d wt) ws r := by
  induction ws with
  | nil => exact ⟨[], rfl, List.Forall₂.nil⟩
  | cons w rest ih =>
    obtain ⟨wt, h1, h2⟩ := init_word_tables_ok H w.d
    obtain ⟨r, h3, h4⟩ := ih
    exact ⟨wt :: r, by simp [init_words_tables, h1, h3], List.Forall₂.cons h2 h4⟩

theorem forall₂_getElem? {α β : Type} {R : α → β → Prop} {l1 : List α} {l2 : List β}
    (h : List.Forall₂ R l1 l2) (i : Nat) (a : α) (ha : l1[i]? = some a) :
    ∃ b, l2[i]? = some b ∧ R a b := by
  induction h generalizing i with
  | nil => simp at ha
  | cons hab _ ih =>
    cases i with
    | zero =>
      simp only [List.getElem?_cons_zero, Option.some.injEq] at ha
      subst ha
      exact ⟨_, List.getElem?_cons_zero, hab⟩
    | succ n =>
      simp only [List.getElem?_cons_succ] at ha
      simpa using ih n ha

theorem init_fast_matcher_ok (H : HashConsts) (sent : Sentence) (st : Matcher) :
    ∃ st1, init_fast_matcher H sent st = some st1 ∧ st1.match_cost = 0 ∧
      st1.mn_free_list = st.mn_free_list ∧
      ∀ (w : Nat) (wd : Word), sent.word[w]? = some wd →
        ∃ wt : WordTables, st1.l_table_size[w]? = some wt.l_size ∧
          st1.r_table_size[w]? = some wt.r_size ∧
          st1.l_table[w]? = some wt.l_table ∧ st1.r_table[w]? = some wt.r_table ∧
          word_tables_ok H wd.d wt := by
  obtain ⟨r, h1, h2⟩ := init_words_tables_ok H sent.word
  refine ⟨{ match_cost := 0
            l_table_size := r.map (fun wt => wt.l_size)
            r_table_size := r.map (fun wt => wt.r_size)
            l_table := r.map (fun wt => wt.l_table)
            r_table := r.map (fun wt => wt.r_table)
            mn_free_list := st.mn_free_list },
    by simp only [init_fast_matcher, h1], rfl, rfl, fun w wd hw => ?_⟩
  obtain ⟨wt, h3, h4⟩ := forall₂_getElem? h2 w wd hw
  exact ⟨wt, by simp [h3], by simp [h3], by simp [h3], by simp [h3], h4⟩

theorem disjunct_ptrs_addr (a : Nat) (ds : List Disjunct) :
    (disjunct_ptrs a ds).map (fun p => p.addr) = List.range' a ds.length := by
  induction ds generalizing a with
  | nil => rfl
  | cons d t ih => simp [disjunct_ptrs, ih, List.range'_succ]

theorem disjunct_ptrs_addr_nodup (a : Nat) (ds : List Disjunct) :
    ((disjunct_ptrs a ds).map (fun p => p.addr)).Nodup := by
  rw [disjunct_ptrs_addr]
  exact List.nodup_range' a ds.length

theorem disjunct_ptrs_nodup (a : Nat) (ds : List Disjunct) : (disjunct_ptrs a ds).Nodup :=
  List.Nodup.of_map _ (disjunct_ptrs_addr_nodup a ds)

theorem count_filter_nodup (ptrs : List DisjunctPtr) (hn : ptrs.Nodup) (q : DisjunctPtr → Bool)
    (p : DisjunctPtr) (hp : p ∈ ptrs) :
    (ptrs.filter q).count p = if q p = true then 1 else 0 := by
  by_cases hq : q p = true
  · rw [if_pos hq, List.count_filter hq, List.count_eq_one_of_mem hn hp]
  · rw [if_neg hq]
    exact List.count_eq_zero_of_not_mem (fun h => hq (List.mem_filter.1 h).2)

/-! ## Claims C15 to C17: the tables built by init_fast_matcher -/

/-- C15, table sizing: `init_fast_matcher` returns, and for every word the
size of the left table is the smallest power of two that is at least the
number of disjuncts of the word with a non-empty left list (so 1 when there
are none), the size of the right table likewise for the right lists; each
table has as many slots as its size, and a slot to which no disjunct of the
word hashes is empty. -/
theorem C15_table_sizing (H : HashConsts) (sent : Sentence) (st : Matcher) :
    ∃ st1, init_fast_matcher H sent st = some st1 ∧
      ∀ (w : Nat) (wd : Word), sent.word[w]? = some wd →
        ∃ (lsize rsize : Int) (lt rt : List (List Match_node)) (kl kr : Nat),
          st1.l_table_size[w]? = some lsize ∧ st1.r_table_size[w]? = some rsize ∧
          st1.l_table[w]? = some lt ∧ st1.r_table[w]? = some rt ∧
          lsize = (2 : Int) ^ kl ∧
          ((wd.d.countP (fun x => decide (x.left ≠ [])) : Nat) : Int) ≤ (2 : Int) ^ kl ∧
          (∀ j : Nat, ((wd.d.countP (fun x => decide (x.left ≠ [])) : Nat) : Int) ≤ (2 : Int) ^ j →
            (2 : Int) ^ kl ≤ (2 : Int) ^ j) ∧
          rsize = (2 : Int) ^ kr ∧
          ((wd.d.countP (fun x => decide (x.right ≠ [])) : Nat) : Int) ≤ (2 : Int) ^ kr ∧
          (∀ j : Nat, ((wd.d.countP (fun x => decide (x.right ≠ [])) : Nat) : Int) ≤ (2 : Int) ^ j →
            (2 : Int) ^ kr ≤ (2 : Int) ^ j) ∧
          lt.length = 2 ^ kl ∧ rt.length = 2 ^ kr ∧
          (∀ (i : Nat) (b : List Match_node), lt[i]? = some b →
            (∀ p ∈ disjunct_ptrs 0 wd.d, left_bucket_index H lsize p ≠ some (i : Int)) →
            b = []) ∧
          (∀ (i : Nat) (b : List Match_node), rt[i]? = some b →
            (∀ p ∈ disjunct_ptrs 0 wd.d, right_bucket_index H rsize p ≠ some (i : Int)) →
            b = []) := by
  obtain ⟨st1, h1, _, _, h2⟩ := init_fast_matcher_ok H sent st
  refine ⟨st1, h1, fun w wd hw => ?_⟩
  obtain ⟨wt, h3, h4, h5, h6, hl, hr, hll, hrl, _, _, hlp, hrp⟩ := h2 w wd hw
  obtain ⟨kl, hkl, hkl1, hkl2⟩ := next_power_of_two_up_spec (left_disjunct_list_length wd.d)
  obtain ⟨kr, hkr, hkr1, hkr2⟩ := next_power_of_two_up_spec (right_disjunct_list_length wd.d)
  rw [left_disjunct_list_length_eq] at hkl1 hkl2
  rw [right_disjunct_list_length_eq] at hkr1 hkr2
  refine ⟨wt.l_size, wt.r_size, wt.l_table, wt.r_table, kl, kr, h3, h4, h5, h6,
    hl.trans hkl, hkl1, fun j hj => pow_le_pow_right₀ (by decide) (hkl2 j hj),
    hr.trans hkr, hkr1, fun j hj => pow_le_pow_right₀ (by decide) (hkr2 j hj), ?_, ?_, ?_, ?_⟩
  · rw [hll, hl, hkl, two_pow_toNat]
  · rw [hrl, hr, hkr, two_pow_toNat]
  · intro i b hb hnone
    have hperm := hlp i b hb
    have hnil : (disjunct_ptrs 0 wd.d).filter
        (fun p => decide (left_bucket_index H wt.l_size p = some (i : Int))) = [] := by
      rw [List.filter_eq_nil_iff]
      intro p hp
      simpa using hnone p hp
    rw [hnil] at hperm
    exact List.map_eq_nil_iff.1 hperm.eq_nil
  · intro i b hb hnone
    have hperm := hrp i b hb
    have hnil : (disjunct_ptrs 0 wd.d).filter
        (fun p => decide (right_bucket_index H wt.r_size p = some (i : Int))) = [] := by
      rw [List.filter_eq_nil_iff]
      intro p hp
      simpa using hnone p hp
    rw [hnil] at hperm
    exact List.map_eq_nil_iff.1 hperm.eq_nil

/-- C16, insertion placement: after `init_fast_matcher`, for every word, a
pointer to a disjunct of the word occurs in a bucket of the left table once if
the index of the bucket is `fast_match_hash(d.left) & (l_table_size[w] - 1)`
and not at all otherwise (so a disjunct with a non-empty left list occurs
exactly once in the table, in that bucket, which exists, and one with an empty
left list occurs in no bucket); every entry of the table points to a disjunct
of the word; the same holds for the right table. -/
theorem C16_insertion_placement (H : HashConsts) (sent : Sentence) (st : Matcher) :
    ∃ st1, init_fast_matcher H sent st = some st1 ∧
      ∀ (w : Nat) (wd : Word), sent.word[w]? = some wd →
        ∃ (lsize rsize : Int) (lt rt : List (List Match_node)),
          st1.l_table_size[w]? = some lsize ∧ st1.r_table_size[w]? = some rsize ∧
          st1.l_table[w]? = some lt ∧ st1.r_table[w]? = some rt ∧
          (∀ p ∈ disjunct_ptrs 0 wd.d, ∀ (i : Nat) (b : List Match_node), lt[i]? = some b →
            (b.map (fun m => m.d)).count p
              = if left_bucket_index H lsize p = some (i : Int) then 1 else 0) ∧
          (∀ p ∈ disjunct_ptrs 0 wd.d, ∀ idx : Int, left_bucket_index H lsize p = some idx →
            0 ≤ idx ∧ ∃ b, lt[idx.toNat]? = some b) ∧
          (∀ (i : Nat) (b : List Match_node), lt[i]? = some b →
            ∀ m ∈ b, m.d ∈ disjunct_ptrs 0 wd.d) ∧
          (∀ p ∈ disjunct_ptrs 0 wd.d, ∀ (i : Nat) (b : List Match_node), rt[i]? = some b →
            (b.map (fun m => m.d)).count p
              = if right_bucket_index H rsize p = some (i : Int) then 1 else 0) ∧
          (∀ p ∈ disjunct_ptrs 0 wd.d, ∀ idx : Int, right_bucket_index H rsize p = some idx →
            0 ≤ idx ∧ ∃ b, rt[idx.toNat]? = some b) ∧
          (∀ (i : Nat) (b : List Match_node), rt[i]? = some b →
            ∀ m ∈ b, m.d ∈ disjunct_ptrs 0 wd.d) := by
  obtain ⟨st1, h1, _, _, h2⟩ := init_fast_matcher_ok H sent st
  refine ⟨st1, h1, fun w wd hw => ?_⟩
  obtain ⟨wt, h3, h4, h5, h6, hl, hr, hll, hrl, _, _, hlp, hrp⟩ := h2 w wd hw
  obtain ⟨kl, hkl, _, _⟩ := next_power_of_two_up_spec (left_disjunct_list_length wd.d)
  obtain ⟨kr, hkr, _, _⟩ := next_power_of_two_up_spec (right_disjunct_list_length wd.d)
  have hnd := disjunct_ptrs_nodup 0 wd.d
  refine ⟨wt.l_size, wt.r_size, wt.l_table, wt.r_table, h3, h4, h5, h6, ?_, ?_, ?_, ?_, ?_, ?_⟩
  · intro p hp i b hb
    rw [(hlp i b hb).count_eq, count_filter_nodup _ hnd _ p hp]
    simp
  · intro p hp idx hidx
    cases hleft : p.node.left with
    | nil => simp [left_bucket_index, hleft] at hidx
    | cons c rest =>
      have hlen : wt.l_table.length = 2 ^ kl := by rw [hll, hl, hkl, two_pow_toNat]
      obtain ⟨h0, hlt⟩ := table_index_lt H c wt.l_size kl (hl.trans hkl) _ hlen
      have : idx = Int.land (fast_match_hash H c) (wt.l_size - 1) := by
        simp [left_bucket_index, hleft] at hidx
        exact hidx.symm
      subst this
      exact ⟨h0, _, List.getElem?_eq_getElem hlt⟩
  · intro i b hb m hm
    have := (hlp i b hb).mem_iff.1 (List.mem_map_of_mem (fun m => m.d) hm)
    exact (List.mem_filter.1 this).1
  · intro p hp i b hb
    rw [(hrp i b hb).count_eq, count_filter_nodup _ hnd _ p hp]
    simp
  · intro p hp idx hidx
    cases hright : p.node.right with
    | nil => simp [right_bucket_index, hright] at hidx
    | cons c rest =>
      have hlen : wt.r_table.length = 2 ^ kr := by rw [hrl, hr, hkr, two_pow_toNat]
      obtain ⟨h0, hlt⟩ := table_index_lt H c wt.r_size kr (hr.trans hkr) _ hlen
      have : idx = Int.land (fast_match_hash H c) (wt.r_size - 1) := by
        simp [right_bucket_index, hright] at hidx
        exact hidx.symm
      subst this
      exact ⟨h0, _, List.getElem?_eq_getElem hlt⟩
  · intro i b hb m hm
    have := (hrp i b hb).mem_iff.1 (List.mem_map_of_mem (fun m => m.d) hm)
    exact (List.mem_filter.1 this).1

/-- C17, bucket order: `add_to_right_table_list` applied to a node with a
right connector and a bucket sorted ascending by `d.right.word` returns a
bucket sorted ascending that holds the old entries and the new one;
`add_to_left_table_list` does the same for buckets sorted descending by
`d.left.word`; and after `init_fast_matcher` every bucket of every right table
is sorted ascending and every bucket of every left table descending. -/
theorem C17_bucket_order (H : HashConsts) (sent : Sentence) (st : Matcher) :
    (∀ (m : Match_node) (l : List Match_node), m.d.node.right ≠ [] → right_sorted l →
      ∃ r, add_to_right_table_list m l = some r ∧ r.Perm (m :: l) ∧ right_sorted r) ∧
    (∀ (m : Match_node) (l : List Match_node), m.d.node.left ≠ [] → left_sorted l →
      ∃ r, add_to_left_table_list m l = some r ∧ r.Perm (m :: l) ∧ left_sorted r) ∧
    ∃ st1, init_fast_matcher H sent st = some st1 ∧
      st1.l_table.length = sent.word.length ∧ st1.r_table.length = sent.word.length ∧
      (∀ t ∈ st1.r_table, ∀ b ∈ t, right_sorted b) ∧
      (∀ t ∈ st1.l_table, ∀ b ∈ t, left_sorted b) := by
  refine ⟨fun m l hm hl => add_to_right_table_list_sorted m hm l hl,
    fun m l hm hl => add_to_left_table_list_sorted m hm l hl, ?_⟩
  obtain ⟨r, h1, h2⟩ := init_words_tables_ok H sent.word
  refine ⟨{ match_cost := 0
            l_table_size := r.map (fun wt => wt.l_size)
            r_table_size := r.map (fun wt => wt.r_size)
            l_table := r.map (fun wt => wt.l_table)
            r_table := r.map (fun wt => wt.r_table)
            mn_free_list := st.mn_free_list },
    by simp only [init_fast_matcher, h1], ?_, ?_, ?_, ?_⟩
  · simp [h2.length_eq]
  · simp [h2.length_eq]
  · intro t ht b hb
    obtain ⟨wt, hwt, rfl⟩ := List.mem_map.1 ht
    obtain ⟨i, hi⟩ := List.mem_iff_getElem?.1 hwt
    obtain ⟨wd, hwd, hok⟩ := forall₂_getElem? h2.flip i wt hi
    exact hok.2.2.2.2.2.1 b hb
  · intro t ht b hb
    obtain ⟨wt, hwt, rfl⟩ := List.mem_map.1 ht
    obtain ⟨i, hi⟩ := List.mem_iff_getElem?.1 hwt
    obtain ⟨wd, hwd, hok⟩ := forall₂_getElem? h2.flip i wt hi
    exact hok.2.2.2.2.1 b hb

/-! ## The fast matcher: the query -/

theorem copy_left_eq (lw : Int) (l front free : List Match_node)
    (h : ∀ m ∈ l, m.d.node.left ≠ []) :
    copy_left lw l front free
      = some ((l.takeWhile (left_word_ge lw)).reverse ++ front,
          free.drop (l.takeWhile (left_word_ge lw)).length) := by
  induction l generalizing front free with
  | nil => rfl
  | cons mx next ih =>
    have hn : ∀ m ∈ next, m.d.node.left ≠ [] := fun m hm => h m (List.mem_cons_of_mem _ hm)
    cases hleft : mx.d.node.left with
    | nil => exact absurd hleft (h mx (List.mem_cons_self _ _))
    | cons c rest =>
      by_cases hlt : c.word < lw
      · have hge : left_word_ge lw mx = false := by
          simp [left_word_ge, hleft, first_word, hlt]
        simp [copy_left, hleft, first_word, hlt, List.takeWhile_cons, hge]
      · have hge : left_word_ge lw mx = true := by
          simp only [left_word_ge, hleft, first_word, decide_eq_true_eq]
          omega
        have hdrop : (get_match_node free).2 = free.drop 1 := by
          cases free <;> rfl
        simp only [copy_left, hleft, first_word, hlt, if_false, List.takeWhile_cons, hge,
          if_true, List.reverse_cons, List.append_assoc, List.singleton_append,
          List.length_cons]
        rw [ih _ _ hn, hdrop, List.drop_drop]
        simp [Nat.add_comm]

theorem copy_right_eq (rw : Int) (l front free : List Match_node)
    (h : ∀ m ∈ l, m.d.node.right ≠ []) :
    copy_right rw l front free
      = some ((l.takeWhile (right_word_le rw)).reverse ++ front,
          free.drop (l.takeWhile (right_word_le rw)).length) := by
  induction l generalizing front free with
  | nil => rfl
  | cons mx next ih =>
    have hn : ∀ m ∈ next, m.d.node.right ≠ [] := fun m hm => h m (List.mem_cons_of_mem _ hm)
    cases hright : mx.d.node.right with
    | nil => exact absurd hright (h mx (List.mem_cons_self _ _))
    | cons c rest =>
      by_cases hgt : c.word > rw
      · have hle : right_word_le rw mx = false := by
          simp only [right_word_le, hright, first_word, decide_eq_false_iff_not]
          omega
        simp [copy_right, hright, first_word, hgt, List.takeWhile_cons, hle]
      · have hle : right_word_le rw mx = true := by
          simp only [right_word_le, hright, first_word, decide_eq_true_eq]
          omega
        have hdrop : (get_match_node free).2 = free.drop 1 := by
          cases free <;> rfl
        simp only [copy_right, hright, first_word, hgt, if_false, List.takeWhile_cons, hle,
          if_true, List.reverse_cons, List.append_assoc, List.singleton_append,
          List.length_cons]
        rw [ih _ _ hn, hdrop, List.drop_drop]
        simp [Nat.add_comm]

theorem scan_ml_found (mx : Match_node) (ml : List Match_node) (cost : Int) :
    (scan_ml mx ml cost).1 = ml.any (fun my => decide (mx.d.addr = my.d.addr)) := by
  induction ml generalizing cost with
  | nil => rfl
  | cons my next ih =>
    by_cases h : mx.d.addr = my.d.addr
    · simp [scan_ml, h]
    · simp [scan_ml, h, ih]

theorem eliminate_duplicates_front (ml mr front free_later : List Match_node) (cost : Int) :
    (eliminate_duplicates ml mr front free_later cost).1
      = (mr.filter (fun mx => !(ml.any (fun my => decide (mx.d.addr = my.d.addr))))).reverse
          ++ front := by
  induction mr generalizing front free_later cost with
  | nil => rfl
  | cons mx mz ih =>
    by_cases h : (scan_ml mx ml (cost + 1)).1 = true
    · have h2 := h
      rw [scan_ml_found] at h2
      simp only [eliminate_duplicates, h, if_true, ih, List.filter_cons, h2, Bool.not_true,
        Bool.false_eq_true, if_false]
    · have h2 := h
      rw [scan_ml_found] at h2
      simp only [eliminate_duplicates, h, Bool.false_eq_true, if_false, List.filter_cons]
      rw [ih]
      simp [h2]

theorem catenate_match_lists_eq (mr ml : List Match_node) :
    catenate_match_lists mr ml = mr ++ ml := by
  cases mr <;> rfl

theorem form_match_list_eq (H : HashConsts) (st : Matcher) (w : Nat) (lc : Option Connector)
    (lw : Int) (rc : Option Connector) (rw : Int) (lb rb : List Match_node)
    (hl : bucket_for H st.l_table_size st.l_table w lc = some lb)
    (hr : bucket_for H st.r_table_size st.r_table w rc = some rb)
    (hld : ∀ m ∈ lb, m.d.node.left ≠ []) (hrd : ∀ m ∈ rb, m.d.node.right ≠ []) :
    ∃ (cost : Int) (free : List Match_node), form_match_list H st w lc lw rc rw
      = some ((rb.takeWhile (right_word_le rw)).filter
                (fun mx => !((lb.takeWhile (left_word_ge lw)).reverse.any
                  (fun my => decide (mx.d.addr = my.d.addr))))
              ++ (lb.takeWhile (left_word_ge lw)).reverse,
              { st with match_cost := cost, mn_free_list := free }) := by
  simp only [form_match_list, hl, hr, copy_left_eq lw lb _ _ hld, copy_right_eq rw rb _ _ hrd,
    List.append_nil, eliminate_duplicates_front, List.filter_reverse, List.reverse_reverse,
    catenate_match_lists_eq]
  exact ⟨_, _, rfl⟩

theorem left_sorted_ne (b : List Match_node) (h : left_sorted b) :
    ∀ m ∈ b, m.d.node.left ≠ [] := by
  obtain ⟨ks, hks, _⟩ := h
  intro m hm hnil
  have h1 : first_word m.d.node.left ∈ ks.map some := by
    rw [← hks]
    exact List.mem_map_of_mem (fun m => first_word m.d.node.left) hm
  rw [hnil] at h1
  simp [first_word] at h1

theorem right_sorted_ne (b : List Match_node) (h : right_sorted b) :
    ∀ m ∈ b, m.d.node.right ≠ [] := by
  obtain ⟨ks, hks, _⟩ := h
  intro m hm hnil
  have h1 : first_word m.d.node.right ∈ ks.map some := by
    rw [← hks]
    exact List.mem_map_of_mem (fun m => first_word m.d.node.right) hm
  rw [hnil] at h1
  simp [first_word] at h1

theorem bucket_addr_nodup (b : List Match_node) (d : List Disjunct) (q : DisjunctPtr → Bool)
    (h : (b.map (fun m => m.d)).Perm ((disjunct_ptrs 0 d).filter q)) :
    (b.map (fun m => m.d.addr)).Nodup := by
  have h1 := h.map (fun p => p.addr)
  rw [List.map_map] at h1
  refine h1.nodup_iff.2 ?_
  exact List.Nodup.sublist ((List.filter_sublist _).map _) (disjunct_ptrs_addr_nodup 0 d)

theorem bucket_for_left_init (H : HashConsts) (d : List Disjunct) (wt : WordTables)
    (hok : word_tables_ok H d wt) (sizes : List Int) (tables : List (List (List Match_node)))
    (w : Nat) (hs : sizes[w]? = some wt.l_size) (ht : tables[w]? = some wt.l_table)
    (lc : Option Connector) :
    ∃ lb, bucket_for H sizes tables w lc = some lb ∧ (∀ m ∈ lb, m.d.node.left ≠ []) ∧
      (lb.map (fun m => m.d.addr)).Nodup ∧
      ∀ m ∈ lb, ∀ l, lc = some l →
        left_bucket_index H wt.l_size m.d
          = some (Int.land (fast_match_hash H l) (wt.l_size - 1)) := by
  obtain ⟨hl, _, hll, _, hsl, _, hlp, _⟩ := hok
  cases lc with
  | none => exact ⟨[], rfl, by simp, by simp, by simp⟩
  | some l =>
    obtain ⟨kl, hkl, _, _⟩ := next_power_of_two_up_spec (left_disjunct_list_length d)
    have hlen : wt.l_table.length = 2 ^ kl := by rw [hll, hl, hkl, two_pow_toNat]
    obtain ⟨h0, hlt⟩ := table_index_lt H l wt.l_size kl (hl.trans hkl) _ hlen
    have hget : wt.l_table[(Int.land (fast_match_hash H l) (wt.l_size - 1)).toNat]?
        = some (wt.l_table[(Int.land (fast_match_hash H l) (wt.l_size - 1)).toNat]) :=
      List.getElem?_eq_getElem hlt
    refine ⟨wt.l_table[(Int.land (fast_match_hash H l) (wt.l_size - 1)).toNat],
      by simp [bucket_for, hs, ht, table_get, h0, hget], ?_, ?_, ?_⟩
    · exact left_sorted_ne _ (hsl _ (List.getElem_mem hlt))
    · exact bucket_addr_nodup _ d _ (hlp _ _ hget)
    · intro m hm l1 hl1
      cases hl1
      have h1 := (hlp _ _ hget).mem_iff.1 (List.mem_map_of_mem (fun m => m.d) hm)
      have h2 := (List.mem_filter.1 h1).2
      simp only [decide_eq_true_eq] at h2
      rw [h2, Int.toNat_of_nonneg h0]

theorem bucket_for_right_init (H : HashConsts) (d : List Disjunct) (wt : WordTables)
    (hok : word_tables_ok H d wt) (sizes : List Int) (tables : List (List (List Match_node)))
    (w : Nat) (hs : sizes[w]? = some wt.r_size) (ht : tables[w]? = some wt.r_table)
    (rc : Option Connector) :
    ∃ rb, bucket_for H sizes tables w rc = some rb ∧ (∀ m ∈ rb, m.d.node.right ≠ []) ∧
      (rb.map (fun m => m.d.addr)).Nodup ∧
      ∀ m ∈ rb, ∀ r, rc = some r →
        right_bucket_index H wt.r_size m.d
          = some (Int.land (fast_match_hash H r) (wt.r_size - 1)) := by
  obtain ⟨_, hr, _, hrl, _, hsr, _, hrp⟩ := hok
  cases rc with
  | none => exact ⟨[], rfl, by simp, by simp, by simp⟩
  | some r =>
    obtain ⟨kr, hkr, _, _⟩ := next_power_of_two_up_spec (right_disjunct_list_length d)
    have hlen : wt.r_table.length = 2 ^ kr := by rw [hrl, hr, hkr, two_pow_toNat]
    obtain ⟨h0, hlt⟩ := table_index_lt H r wt.r_size kr (hr.trans hkr) _ hlen
    have hget : wt.r_table[(Int.land (fast_match_hash H r) (wt.r_size - 1)).toNat]?
        = some (wt.r_table[(Int.land (fast_match_hash H r) (wt.r_size - 1)).toNat]) :=
      List.getElem?_eq_getElem hlt
    refine ⟨wt.r_table[(Int.land (fast_match_hash H r) (wt.r_size - 1)).toNat],
      by simp [bucket_for, hs, ht, table_get, h0, hget], ?_, ?_, ?_⟩
    · exact right_sorted_ne _ (hsr _ (List.getElem_mem hlt))
    · exact bucket_addr_nodup _ d _ (hrp _ _ hget)
    · intro m hm r1 hr1
      cases hr1
      have h1 := (hrp _ _ hget).mem_iff.1 (List.mem_map_of_mem (fun m => m.d) hm)
      have h2 := (List.mem_filter.1 h1).2
      simp only [decide_eq_true_eq] at h2
      rw [h2, Int.toNat_of_nonneg h0]

/-! ## Claims C18 to C20: the query -/

/-- C18, query result: when the buckets selected by `lc` and `rc` exist (the
empty list for a null connector) and their entries have a connector on the
side of the table, `form_match_list` returns `mr' ++ ml`, where `ml` is the
reverse of the longest prefix of the left bucket whose entries have
`d.left.word >= lw`, and `mr'` is the longest prefix of the right bucket whose
entries have `d.right.word <= rw`, in bucket order, without the entries whose
disjunct occurs in `ml`; no disjunct of `mr'` is a disjunct of `ml`; the
tables are left as they were. -/
theorem C18_query_result (H : HashConsts) (st : Matcher) (w : Nat) (lc : Option Connector)
    (lw : Int) (rc : Option Connector) (rw : Int) (lb rb : List Match_node)
    (hl : bucket_for H st.l_table_size st.l_table w lc = some lb)
    (hr : bucket_for H st.r_table_size st.r_table w rc = some rb)
    (hld : ∀ m ∈ lb, m.d.node.left ≠ []) (hrd : ∀ m ∈ rb, m.d.node.right ≠ []) :
    ∃ (cost : Int) (free : List Match_node),
      form_match_list H st w lc lw rc rw
        = some ((rb.takeWhile (right_word_le rw)).filter
                  (fun mx => !((lb.takeWhile (left_word_ge lw)).reverse.any
                    (fun my => decide (mx.d.addr = my.d.addr))))
                ++ (lb.takeWhile (left_word_ge lw)).reverse,
                { st with match_cost := cost, mn_free_list := free }) ∧
      ∀ mx ∈ (rb.takeWhile (right_word_le rw)).filter
                  (fun mx => !((lb.takeWhile (left_word_ge lw)).reverse.any
                    (fun my => decide (mx.d.addr = my.d.addr)))),
        ∀ my ∈ (lb.takeWhile (left_word_ge lw)).reverse, mx.d.addr ≠ my.d.addr := by
  obtain ⟨cost, free, h⟩ := form_match_list_eq H st w lc lw rc rw lb rb hl hr hld hrd
  refine ⟨cost, free, h, fun mx hmx my hmy heq => ?_⟩
  have h1 := (List.mem_filter.1 hmx).2
  have h2 : (lb.takeWhile (left_word_ge lw)).reverse.any
      (fun my => decide (mx.d.addr = my.d.addr)) = true :=
    List.any_eq_true.2 ⟨my, hmy, by simpa using heq⟩
  simp [h2] at h1

/-- Witness of C18 on the state `matcher1`, with `lc = A`, `lw = 0`, `rc = B`
and `rw = 7`. -/
theorem C18_query_result_witness :
    bucket_for hash0 matcher1.l_table_size matcher1.l_table 0 (some (conn0 "A" 0))
      = some [{ d := { addr := 2, node := disj0 [conn0 "A" 5] [] } },
              { d := { addr := 0, node := disj0 [conn0 "A" 3] [conn0 "B" 6] } }] ∧
    bucket_for hash0 matcher1.r_table_size matcher1.r_table 0 (some (conn0 "B" 0))
      = some [{ d := { addr := 1, node := disj0 [] [conn0 "B" 4] } },
              { d := { addr := 0, node := disj0 [conn0 "A" 3] [conn0 "B" 6] } }] ∧
    ∃ (cost : Int) (free : List Match_node),
      form_match_list hash0 matcher1 0 (some (conn0 "A" 0)) 0 (some (conn0 "B" 0)) 7
        = some ([{ d := { addr := 1, node := disj0 [] [conn0 "B" 4] } },
                 { d := { addr := 0, node := disj0 [conn0 "A" 3] [conn0 "B" 6] } },
                 { d := { addr := 2, node := disj0 [conn0 "A" 5] [] } }],
                { matcher1 with match_cost := cost, mn_free_list := free }) := by
  refine ⟨by rfl, by rfl, ?_⟩
  obtain ⟨cost, free, h, _⟩ := C18_query_result hash0 matcher1 0 (some (conn0 "A" 0)) 0
    (some (conn0 "B" 0)) 7
    [{ d := { addr := 2, node := disj0 [conn0 "A" 5] [] } },
     { d := { addr := 0, node := disj0 [conn0 "A" 3] [conn0 "B" 6] } }]
    [{ d := { addr := 1, node := disj0 [] [conn0 "B" 4] } },
     { d := { addr := 0, node := disj0 [conn0 "A" 3] [conn0 "B" 6] } }]
    (by rfl) (by rfl) (by decide) (by decide)
  exact ⟨cost, free, h⟩

theorem init_query_buckets (H : HashConsts) (sent : Sentence) (st st1 : Matcher)
    (hinit : init_fast_matcher H sent st = some st1) (w : Nat) (wd : Word)
    (hw : sent.word[w]? = some wd) (lc rc : Option Connector) :
    ∃ (lsize rsize : Int) (lb rb : List Match_node),
      st1.l_table_size[w]? = some lsize ∧ st1.r_table_size[w]? = some rsize ∧
      bucket_for H st1.l_table_size st1.l_table w lc = some lb ∧
      bucket_for H st1.r_table_size st1.r_table w rc = some rb ∧
      (∀ m ∈ lb, m.d.node.left ≠ []) ∧ (∀ m ∈ rb, m.d.node.right ≠ []) ∧
      (lb.map (fun m => m.d.addr)).Nodup ∧ (rb.map (fun m => m.d.addr)).Nodup ∧
      (∀ m ∈ lb, ∃ l, lc = some l ∧
        left_bucket_index H lsize m.d = some (Int.land (fast_match_hash H l) (lsize - 1))) ∧
      (∀ m ∈ rb, ∃ r, rc = some r ∧
        right_bucket_index H rsize m.d = some (Int.land (fast_match_hash H r) (rsize - 1))) := by
  obtain ⟨st2, h1, _, _, h2⟩ := init_fast_matcher_ok H sent st
  have hst : st2 = st1 := Option.some.inj (h1.symm.trans hinit)
  subst hst
  obtain ⟨wt, h3, h4, h5, h6, hok⟩ := h2 w wd hw
  obtain ⟨lb, hlb, hl1, hl2, hl3⟩ := bucket_for_left_init H wd.d wt hok _ _ w h3 h5 lc
  obtain ⟨rb, hrb, hr1, hr2, hr3⟩ := bucket_for_right_init H wd.d wt hok _ _ w h4 h6 rc
  refine ⟨wt.l_size, wt.r_size, lb, rb, h3, h4, hlb, hrb, hl1, hr1, hl2, hr2, ?_, ?_⟩
  · intro m hm
    cases lc with
    | none =>
      have : lb = [] := (Option.some.inj hlb).symm
      rw [this] at hm
      simp at hm
    | some l => exact ⟨l, rfl, hl3 m hm l rfl⟩
  · intro m hm
    cases rc with
    | none =>
      have : rb = [] := (Option.some.inj hrb).symm
      rw [this] at hm
      simp at hm
    | some r => exact ⟨r, rfl, hr3 m hm r rfl⟩

/-- C19, query duplicate-freeness: for the tables that `init_fast_matcher`
builds, whose entries point to the distinct disjunct nodes of the word, every
query `form_match_list` on a word of the sentence returns a list in which no
two entries point to the same disjunct. -/
theorem C19_query_no_duplicates (H : HashConsts) (sent : Sentence) (st : Matcher) :
    ∃ st1, init_fast_matcher H sent st = some st1 ∧
      ∀ w : Nat, w < sent.word.length →
        ∀ (lc : Option Connector) (lw : Int) (rc : Option Connector) (rw : Int),
          ∃ res st2, form_match_list H st1 w lc lw rc rw = some (res, st2) ∧
            (res.map (fun m => m.d.addr)).Nodup := by
  obtain ⟨st1, hinit, _⟩ := init_fast_matcher_ok H sent st
  refine ⟨st1, hinit, fun w hw lc lw rc rw => ?_⟩
  obtain ⟨_, _, lb, rb, _, _, hlb, hrb, hld, hrd, hln, hrn, _, _⟩ :=
    init_query_buckets H sent st st1 hinit w sent.word[w] (List.getElem?_eq_getElem hw) lc rc
  obtain ⟨cost, free, h⟩ := form_match_list_eq H st1 w lc lw rc rw lb rb hlb hrb hld hrd
  refine ⟨_, _, h, ?_⟩
  rw [List.map_append, List.nodup_append]
  refine ⟨?_, ?_, ?_⟩
  · exact List.Nodup.sublist
      (((List.filter_sublist _).trans (List.takeWhile_sublist _)).map _) hrn
  · rw [List.map_reverse, List.nodup_reverse]
    exact List.Nodup.sublist ((List.takeWhile_sublist _).map _) hln
  · intro a ha1 ha2
    obtain ⟨mx, hmx, rfl⟩ := List.mem_map.1 ha1
    obtain ⟨my, hmy, hmy2⟩ := List.mem_map.1 ha2
    have h1 := (List.mem_filter.1 hmx).2
    have h2 : (lb.takeWhile (left_word_ge lw)).reverse.any
        (fun my => decide (mx.d.addr = my.d.addr)) = true :=
      List.any_eq_true.2 ⟨my, hmy, by simpa using hmy2.symm⟩
    simp [h2] at h1

/-- C20 fails as stated: in the tables built for `sent1` the bucket 0 of the
left table (of size 2) holds the disjuncts whose first left connector is `A`;
the query with `lc = C`, whose hash differs from the hash of `A` but has the
same last bit, and a null `rc` returns them. -/
theorem C20_query_soundness_counterexample :
    ∃ st1 res st2 m,
      init_fast_matcher hash0 sent1 matcher_init = some st1 ∧
      form_match_list hash0 st1 0 (some (conn0 "C" 0)) 0 none 0 = some (res, st2) ∧
      m ∈ res ∧ m.d.node = disj0 [conn0 "A" 3] [conn0 "B" 6] ∧
      fast_match_hash hash0 (conn0 "A" 3) = 488 ∧ fast_match_hash hash0 (conn0 "C" 0) = 502 ∧
      ¬ query_sound hash0 (some (conn0 "C" 0)) 0 none 0 m.d.node := by
  refine ⟨_, _, _, { d := { addr := 0, node := disj0 [conn0 "A" 3] [conn0 "B" 6] } },
    rfl, rfl, by decide, rfl, by decide, by decide, ?_⟩
  rintro (⟨c, l, h1, h2, h3, _⟩ | ⟨c, r, _, h2, _⟩)
  · simp only [disj0, List.head?_cons, Option.some.injEq] at h1 h2
    subst h1 h2
    revert h3
    decide
  · exact absurd h2 (by simp)

/-- C20 as amended: for the tables that `init_fast_matcher` builds, every
disjunct in the list returned by `form_match_list(w, lc, lw, rc, rw)`
satisfies (`fast_match_hash(d.left) & (l_table_size[w]-1)` equals
`fast_match_hash(lc) & (l_table_size[w]-1)` and `d.left.word >= lw`) or
(`fast_match_hash(d.right) & (r_table_size[w]-1)` equals
`fast_match_hash(rc) & (r_table_size[w]-1)` and `d.right.word <= rw`). -/
theorem C20_query_soundness_amended (H : HashConsts) (sent : Sentence) (st : Matcher) :
    ∃ st1, init_fast_matcher H sent st = some st1 ∧
      ∀ w : Nat, w < sent.word.length →
        ∃ lsize rsize : Int,
          st1.l_table_size[w]? = some lsize ∧ st1.r_table_size[w]? = some rsize ∧
          ∀ (lc : Option Connector) (lw : Int) (rc : Option Connector) (rw : Int),
            ∃ res st2, form_match_list H st1 w lc lw rc rw = some (res, st2) ∧
              ∀ m ∈ res, query_sound_masked H lsize rsize lc lw rc rw m.d.node := by
  obtain ⟨st1, hinit, _⟩ := init_fast_matcher_ok H sent st
  refine ⟨st1, hinit, fun w hw => ?_⟩
  obtain ⟨lsize, rsize, _, _, hls, hrs, _⟩ :=
    init_query_buckets H sent st st1 hinit w sent.word[w] (List.getElem?_eq_getElem hw) none none
  refine ⟨lsize, rsize, hls, hrs, fun lc lw rc rw => ?_⟩
  obtain ⟨lsize1, rsize1, lb, rb, hls1, hrs1, hlb, hrb, hld, hrd, _, _, hli, hri⟩ :=
    init_query_buckets H sent st st1 hinit w sent.word[w] (List.getElem?_eq_getElem hw) lc rc
  have e1 : lsize1 = lsize := Option.some.inj (hls1.symm.trans hls)
  have e2 : rsize1 = rsize := Option.some.inj (hrs1.symm.trans hrs)
  subst e1 e2
  obtain ⟨cost, free, h⟩ := form_match_list_eq H st1 w lc lw rc rw lb rb hlb hrb hld hrd
  refine ⟨_, _, h, fun m hm => ?_⟩
  rcases List.mem_append.1 hm with hm | hm
  · right
    have hm1 := (List.mem_filter.1 hm).1
    have hm2 : right_word_le rw m = true := List.mem_takeWhile_imp hm1
    have hm3 : m ∈ rb := (List.takeWhile_sublist _).subset hm1
    obtain ⟨r, hr, hidx⟩ := hri m hm3
    cases hright : m.d.node.right with
    | nil => exact absurd hright (hrd m hm3)
    | cons c rest =>
      refine ⟨c, r, by simp [hright], hr, ?_, ?_⟩
      · simpa [right_bucket_index, hright] using hidx
      · simpa [right_word_le, hright, first_word] using hm2
  · left
    have hm1 : m ∈ lb.takeWhile (left_word_ge lw) := List.mem_reverse.1 hm
    have hm2 : left_word_ge lw m = true := List.mem_takeWhile_imp hm1
    have hm3 : m ∈ lb := (List.takeWhile_sublist _).subset hm1
    obtain ⟨l, hl, hidx⟩ := hli m hm3
    cases hleft : m.d.node.left with
    | nil => exact absurd hleft (hld m hm3)
    | cons c rest =>
      refine ⟨c, l, by simp [hleft], hl, ?_, ?_⟩
      · simpa [left_bucket_index, hleft] using hidx
      · simpa [left_word_ge, hleft, first_word] using hm2

/-! ## Claim C21: the query stops at the first entry out of range -/

theorem takeWhile_eq_filter_of_sorted_le (rw : Int) (l : List Match_node) (ks : List Int)
    (hl : l.map (fun m => first_word m.d.node.right) = ks.map some)
    (hs : ks.Pairwise (fun a b => a ≤ b)) :
    l.takeWhile (right_word_le rw) = l.filter (right_word_le rw) := by
  induction l generalizing ks with
  | nil => rfl
  | cons x t ih =>
    cases ks with
    | nil => simp at hl
    | cons k ks =>
      simp only [List.map_cons, List.cons.injEq] at hl
      obtain ⟨hx, ht⟩ := hl
      have hs2 := List.pairwise_cons.1 hs
      by_cases hk : k ≤ rw
      · have hp : right_word_le rw x = true := by simp [right_word_le, hx, hk]
        simp [List.takeWhile_cons, List.filter_cons, hp, ih ks ht hs2.2]
      · have hp : right_word_le rw x = false := by simp [right_word_le, hx, hk]
        have hnil : t.filter (right_word_le rw) = [] := by
          rw [List.filter_eq_nil_iff]
          intro m hm
          have h1 : first_word m.d.node.right ∈ ks.map some := by
            rw [← ht]
            exact List.mem_map_of_mem (fun m => first_word m.d.node.right) hm
          obtain ⟨k1, hk1, hk2⟩ := List.mem_map.1 h1
          have := hs2.1 k1 hk1
          simp only [right_word_le, ← hk2, decide_eq_true_eq]
          omega
        simp [List.takeWhile_cons, List.filter_cons, hp, hnil]

theorem takeWhile_eq_filter_of_sorted_ge (lw : Int) (l : List Match_node) (ks : List Int)
    (hl : l.map (fun m => first_word m.d.node.left) = ks.map some)
    (hs : ks.Pairwise (fun a b => a ≥ b)) :
    l.takeWhile (left_word_ge lw) = l.filter (left_word_ge lw) := by
  induction l generalizing ks with
  | nil => rfl
  | cons x t ih =>
    cases ks with
    | nil => simp at hl
    | cons k ks =>
      simp only [List.map_cons, List.cons.injEq] at hl
      obtain ⟨hx, ht⟩ := hl
      have hs2 := List.pairwise_cons.1 hs
      by_cases hk : lw ≤ k
      · have hp : left_word_ge lw x = true := by simp [left_word_ge, hx, hk]
        simp [List.takeWhile_cons, List.filter_cons, hp, ih ks ht hs2.2]
      · have hp : left_word_ge lw x = false := by simp [left_word_ge, hx, hk]
        have hnil : t.filter (left_word_ge lw) = [] := by
          rw [List.filter_eq_nil_iff]
          intro m hm
          have h1 : first_word m.d.node.left ∈ ks.map some := by
            rw [← ht]
            exact List.mem_map_of_mem (fun m => first_word m.d.node.left) hm
          obtain ⟨k1, hk1, hk2⟩ := List.mem_map.1 h1
          have := hs2.1 k1 hk1
          simp only [left_word_ge, ← hk2, decide_eq_true_eq]
          omega
        simp [List.takeWhile_cons, List.filter_cons, hp, hnil]

/-- C21, query break: when the right bucket selected by `rc` is sorted
ascending by `d.right.word` and the left bucket selected by `lc` is sorted
descending by `d.left.word`, the copy loops of `form_match_list` take exactly
the entries of the right bucket with `d.right.word <= rw` and exactly the
entries of the left bucket with `d.left.word >= lw` (the prefix at which the
scan stops is the whole set of such entries), and the list returned is built
from these. -/
theorem C21_query_break (H : HashConsts) (st : Matcher) (w : Nat) (lc : Option Connector)
    (lw : Int) (rc : Option Connector) (rw : Int) (lb rb : List Match_node)
    (hl : bucket_for H st.l_table_size st.l_table w lc = some lb)
    (hr : bucket_for H st.r_table_size st.r_table w rc = some rb)
    (hls : left_sorted lb) (hrs : right_sorted rb) :
    rb.takeWhile (right_word_le rw) = rb.filter (right_word_le rw) ∧
    lb.takeWhile (left_word_ge lw) = lb.filter (left_word_ge lw) ∧
    (∀ free : List Match_node, copy_right rw rb [] free
      = some ((rb.filter (right_word_le rw)).reverse,
          free.drop (rb.filter (right_word_le rw)).length)) ∧
    (∀ free : List Match_node, copy_left lw lb [] free
      = some ((lb.filter (left_word_ge lw)).reverse,
          free.drop (lb.filter (left_word_ge lw)).length)) ∧
    ∃ (cost : Int) (free : List Match_node),
      form_match_list H st w lc lw rc rw
        = some ((rb.filter (right_word_le rw)).filter
                  (fun mx => !((lb.filter (left_word_ge lw)).reverse.any
                    (fun my => decide (mx.d.addr = my.d.addr))))
                ++ (lb.filter (left_word_ge lw)).reverse,
                { st with match_cost := cost, mn_free_list := free }) := by
  have hld := left_sorted_ne lb hls
  have hrd := right_sorted_ne rb hrs
  obtain ⟨ksl, hl1, hl2⟩ := hls
  obtain ⟨ksr, hr1, hr2⟩ := hrs
  have e1 := takeWhile_eq_filter_of_sorted_le rw rb ksr hr1 hr2
  have e2 := takeWhile_eq_filter_of_sorted_ge lw lb ksl hl1 hl2
  refine ⟨e1, e2, fun free => ?_, fun free => ?_, ?_⟩
  · rw [copy_right_eq rw rb [] free hrd, e1, List.append_nil]
  · rw [copy_left_eq lw lb [] free hld, e2, List.append_nil]
  · rw [← e1, ← e2]
    exact form_match_list_eq H st w lc lw rc rw lb rb hl hr hld hrd

/-- Witness of C21: a right bucket with the positions 2, 4, 6, 8 and `rw = 5`
yields exactly the entries at 2 and 4. -/
theorem C21_query_break_witness :
    bucket_for hash0 matcher_S6.l_table_size matcher_S6.l_table 0 none = some [] ∧
    bucket_for hash0 matcher_S6.r_table_size matcher_S6.r_table 0 (some (conn0 "B" 0))
      = some [{ d := { addr := 0, node := disj0 [] [conn0 "B" 2] } },
              { d := { addr := 1, node := disj0 [] [conn0 "B" 4] } },
              { d := { addr := 2, node := disj0 [] [conn0 "B" 6] } },
              { d := { addr := 3, node := disj0 [] [conn0 "B" 8] } }] ∧
    ∃ (cost : Int) (free : List Match_node),
      form_match_list hash0 matcher_S6 0 none 0 (some (conn0 "B" 0)) 5
        = some ([{ d := { addr := 0, node := disj0 [] [conn0 "B" 2] } },
                 { d := { addr := 1, node := disj0 [] [conn0 "B" 4] } }],
                { matcher_S6 with match_cost := cost, mn_free_list := free }) :=
  ⟨by rfl, by rfl,
    (C21_query_break hash0 matcher_S6 0 none 0 (some (conn0 "B" 0)) 5 []
      [{ d := { addr := 0, node := disj0 [] [conn0 "B" 2] } },
       { d := { addr := 1, node := disj0 [] [conn0 "B" 4] } },
       { d := { addr := 2, node := disj0 [] [conn0 "B" 6] } },
       { d := { addr := 3, node := disj0 [] [conn0 "B" 8] } }]
      (by rfl) (by rfl) ⟨[], rfl, List.Pairwise.nil⟩
      ⟨[2, 4, 6, 8], rfl, by decide⟩).2.2.2.2⟩

/-! ## Claim C29: the cutoff is not used by the clause builder -/

/-- C29, the cutoff is not applied inside the recursion: for every expression
(and for the null pointer) and all cutoffs `k1`, `k2`, `build_clause` gives
the same result, the same clauses with the same costs and maxcosts in the
same order; `build_disjunct` does depend on the cutoff: on the one clause of
`[B+]` with `B+` of cost 3 it returns one disjunct for the cutoff 3 and none
for the cutoff 2. -/
theorem C29_cutoff_not_in_recursion (K : Consts) (e : Exp) (k1 k2 : Int) :
    build_clause e k1 = build_clause e k2 ∧
    build_clause_ptr (some e) k1 = build_clause_ptr (some e) k2 ∧
    build_clause_ptr none k1 = build_clause_ptr none k2 ∧
    build_disjunct K [clause_B3] "w" 3 ≠ build_disjunct K [clause_B3] "w" 2 := by
  refine ⟨build_clause_cutoff e k1 k2, build_clause_cutoff e k1 k2, rfl, ?_⟩
  simp [build_disjunct, build_disjunct_loop, clause_B3]

/-! ## Claims C27 and C28: copies and containment of expressions -/

mutual
theorem copy_Exp_eq (e : Exp) : copy_Exp e = e := by
  cases e with
  | CONNECTOR cost dir multi string => rfl
  | AND cost l => rw [copy_Exp, copy_E_list_eq l]
  | OR cost l => rw [copy_Exp, copy_E_list_eq l]
  | no_type cost l => rw [copy_Exp, copy_E_list_eq l]
theorem copy_E_list_eq (l : E_list) : copy_E_list l = l := by
  cases l with
  | nil => rfl
  | cons e next => rw [copy_E_list, copy_Exp_eq e, copy_E_list_eq next]
end

mutual
theorem size_of_expression_eq (e : Exp) :
    size_of_expression e = ((leaves e).length : Int) := by
  cases e with
  | CONNECTOR cost dir multi string => rfl
  | AND cost l => rw [size_of_expression, size_of_E_list_eq l 0, leaves]; simp
  | OR cost l => rw [size_of_expression, size_of_E_list_eq l 0, leaves]; simp
  | no_type cost l => rw [size_of_expression, size_of_E_list_eq l 0, leaves]; simp
theorem size_of_E_list_eq (l : E_list) (size : Int) :
    size_of_E_list l size = size + ((leaves_list l).length : Int) := by
  cases l with
  | nil => simp [size_of_E_list, leaves_list]
  | cons e next =>
    rw [size_of_E_list, size_of_E_list_eq next, size_of_expression_eq e, leaves_list,
      List.length_append]
    push_cast
    ring
end

mutual
theorem exp_compare_01 (a b : Exp) : exp_compare a b = 0 ∨ exp_compare a b = 1 := by
  cases a with
  | CONNECTOR c1 d1 m1 s1 =>
    cases b with
    | CONNECTOR c2 d2 m2 s2 =>
      simp only [exp_compare]
      split
      · exact Or.inl rfl
      · split
        · exact Or.inl rfl
        · split
          · exact Or.inl rfl
          · exact Or.inr rfl
    | AND c2 l2 => exact Or.inl rfl
    | OR c2 l2 => exact Or.inl rfl
    | no_type c2 l2 => exact Or.inl rfl
  | AND c1 l1 =>
    cases b with
    | CONNECTOR c2 d2 m2 s2 => exact Or.inl rfl
    | AND c2 l2 =>
      simp only [exp_compare]
      split
      · exact Or.inl rfl
      · exact exp_compare_list_01 l1 l2
    | OR c2 l2 => exact Or.inl rfl
    | no_type c2 l2 => exact Or.inl rfl
  | OR c1 l1 =>
    cases b with
    | CONNECTOR c2 d2 m2 s2 => exact Or.inl rfl
    | AND c2 l2 => exact Or.inl rfl
    | OR c2 l2 =>
      simp only [exp_compare]
      split
      · exact Or.inl rfl
      · exact exp_compare_list_01 l1 l2
    | no_type c2 l2 => exact Or.inl rfl
  | no_type c1 l1 =>
    cases b with
    | CONNECTOR c2 d2 m2 s2 => exact Or.inl rfl
    | AND c2 l2 => exact Or.inl rfl
    | OR c2 l2 => exact Or.inl rfl
    | no_type c2 l2 =>
      simp only [exp_compare]
      split
      · exact Or.inl rfl
      · exact exp_compare_list_01 l1 l2
theorem exp_compare_list_01 (l1 l2 : E_list) :
    exp_compare_list l1 l2 = 0 ∨ exp_compare_list l1 l2 = 1 := by
  cases l1 with
  | nil =>
    cases l2 with
    | nil => exact Or.inr rfl
    | cons e2 n2 => exact Or.inl rfl
  | cons e1 n1 =>
    cases l2 with
    | nil => exact Or.inl rfl
    | cons e2 n2 =>
      simp only [exp_compare_list]
      split
      · exact Or.inl rfl
      · exact exp_compare_list_01 n1 n2
end

mutual
theorem exp_compare_iff (a b : Exp) : exp_compare a b = 1 ↔ erase_multi a = erase_multi b := by
  cases a with
  | CONNECTOR c1 d1 m1 s1 =>
    cases b with
    | CONNECTOR c2 d2 m2 s2 =>
      simp only [exp_compare, erase_multi, Exp.CONNECTOR.injEq, and_true, ne_eq]
      by_cases h1 : c1 = c2 <;> by_cases h2 : d1 = d2 <;> by_cases h3 : s1 = s2 <;>
        simp [h1, h2, h3]
    | AND c2 l2 => simp [exp_compare, erase_multi]
    | OR c2 l2 => simp [exp_compare, erase_multi]
    | no_type c2 l2 => simp [exp_compare, erase_multi]
  | AND c1 l1 =>
    cases b with
    | CONNECTOR c2 d2 m2 s2 => simp [exp_compare, erase_multi]
    | AND c2 l2 =>
      simp only [exp_compare, erase_multi, Exp.AND.injEq, ne_eq]
      by_cases h1 : c1 = c2
      · simp [h1, exp_compare_list_iff l1 l2]
      · simp [h1]
    | OR c2 l2 => simp [exp_compare, erase_multi]
    | no_type c2 l2 => simp [exp_compare, erase_multi]
  | OR c1 l1 =>
    cases b with
    | CONNECTOR c2 d2 m2 s2 => simp [exp_compare, erase_multi]
    | AND c2 l2 => simp [exp_compare, erase_multi]
    | OR c2 l2 =>
      simp only [exp_compare, erase_multi, Exp.OR.injEq, ne_eq]
      by_cases h1 : c1 = c2
      · simp [h1, exp_compare_list_iff l1 l2]
      · simp [h1]
    | no_type c2 l2 => simp [exp_compare, erase_multi]
  | no_type c1 l1 =>
    cases b with
    | CONNECTOR c2 d2 m2 s2 => simp [exp_compare, erase_multi]
    | AND c2 l2 => simp [exp_compare, erase_multi]
    | OR c2 l2 => simp [exp_compare, erase_multi]
    | no_type c2 l2 =>
      simp only [exp_compare, erase_multi, Exp.no_type.injEq, ne_eq]
      by_cases h1 : c1 = c2
      · simp [h1, exp_compare_list_iff l1 l2]
      · simp [h1]
theorem exp_compare_list_iff (l1 l2 : E_list) :
    exp_compare_list l1 l2 = 1 ↔ erase_multi_list l1 = erase_multi_list l2 := by
  cases l1 with
  | nil =>
    cases l2 with
    | nil => simp [exp_compare_list, erase_multi_list]
    | cons e2 n2 => simp [exp_compare_list, erase_multi_list]
  | cons e1 n1 =>
    cases l2 with
    | nil => simp [exp_compare_list, erase_multi_list]
    | cons e2 n2 =>
      simp only [exp_compare_list, erase_multi_list, E_list.cons.injEq]
      rcases exp_compare_01 e1 e2 with h0 | h1
      · have hne : ¬ erase_multi e1 = erase_multi e2 := by
          intro h
          have := (exp_compare_iff e1 e2).2 h
          omega
        simp [h0, hne]
      · have he : erase_multi e1 = erase_multi e2 := (exp_compare_iff e1 e2).1 h1
        simp [h1, he, exp_compare_list_iff n1 n2]
end

mutual
theorem exp_contains_01 (super sub : Exp) :
    exp_contains super sub = 0 ∨ exp_contains super sub = 1 := by
  cases super with
  | CONNECTOR c d m s =>
    simp only [exp_contains]
    split
    · exact Or.inr rfl
    · exact Or.inl rfl
  | AND c l =>
    simp only [exp_contains]
    split
    · exact Or.inr rfl
    · exact exp_contains_list_01 l sub
  | OR c l =>
    simp only [exp_contains]
    split
    · exact Or.inr rfl
    · exact exp_contains_list_01 l sub
  | no_type c l =>
    simp only [exp_contains]
    split
    · exact Or.inr rfl
    · exact exp_contains_list_01 l sub
theorem exp_contains_list_01 (l : E_list) (sub : Exp) :
    exp_contains_list l sub = 0 ∨ exp_contains_list l sub = 1 := by
  cases l with
  | nil => exact Or.inl rfl
  | cons e next =>
    simp only [exp_contains_list]
    split
    · exact Or.inr rfl
    · exact exp_contains_list_01 next sub
end

theorem contains_node_iff (node sub : Exp) (rest : List Exp) (r : Int)
    (hr : r = 1 ↔ ∃ x ∈ rest, struct_eq x sub) :
    (if exp_compare sub node = 1 then 1 else r) = 1 ↔ ∃ x ∈ node :: rest, struct_eq x sub := by
  by_cases h : exp_compare sub node = 1
  · rw [if_pos h]
    refine ⟨fun _ => ⟨node, List.mem_cons_self _ _, ?_⟩, fun _ => rfl⟩
    exact ((exp_compare_iff sub node).1 h).symm
  · rw [if_neg h, hr]
    constructor
    · rintro ⟨x, hx, hxs⟩
      exact ⟨x, List.mem_cons_of_mem _ hx, hxs⟩
    · rintro ⟨x, hx, hxs⟩
      rcases List.mem_cons.1 hx with hx | hx
      · subst hx
        exact absurd ((exp_compare_iff sub x).2 hxs.symm) h
      · exact ⟨x, hx, hxs⟩

mutual
theorem exp_contains_iff (super sub : Exp) :
    exp_contains super sub = 1 ↔ ∃ x ∈ subexps super, struct_eq x sub := by
  cases super with
  | CONNECTOR c d m s =>
    rw [exp_contains, subexps]
    exact contains_node_iff _ sub [] 0 (by simp)
  | AND c l =>
    rw [exp_contains, subexps]
    exact contains_node_iff _ sub _ _ (exp_contains_list_iff l sub)
  | OR c l =>
    rw [exp_contains, subexps]
    exact contains_node_iff _ sub _ _ (exp_contains_list_iff l sub)
  | no_type c l =>
    rw [exp_contains, subexps]
    exact contains_node_iff _ sub _ _ (exp_contains_list_iff l sub)
theorem exp_contains_list_iff (l : E_list) (sub : Exp) :
    exp_contains_list l sub = 1 ↔ ∃ x ∈ subexps_list l, struct_eq x sub := by
  cases l with
  | nil => simp [exp_contains_list, subexps_list]
  | cons e next =>
    rw [exp_contains_list, subexps_list]
    have h1 := exp_contains_iff e sub
    have h2 := exp_contains_list_iff next sub
    by_cases h : exp_contains e sub = 1
    · rw [if_pos h]
      obtain ⟨x, hx, hxs⟩ := h1.1 h
      exact ⟨fun _ => ⟨x, List.mem_append_left _ hx, hxs⟩, fun _ => rfl⟩
    · rw [if_neg h, h2]
      constructor
      · rintro ⟨x, hx, hxs⟩
        exact ⟨x, List.mem_append_right _ hx, hxs⟩
      · rintro ⟨x, hx, hxs⟩
        rcases List.mem_append.1 hx with hx | hx
        · exact absurd (h1.2 ⟨x, hx, hxs⟩) h
        · exact ⟨x, hx, hxs⟩
end

/-- C27, deep copy: for every expression `copy_Exp` returns a tree equal to
the original at every node (types, costs, dir and multi flags, strings, child
order), so `exp_compare` of the expression and its copy is 1 and
`size_of_expression` is the same on both, the number of connector leaves; the
copy of the null pointer is null. -/
theorem C27_deep_copy (e : Exp) :
    copy_Exp e = e ∧ copy_Exp_ptr (some e) = some e ∧ copy_Exp_ptr none = none ∧
    exp_compare e (copy_Exp e) = 1 ∧
    exp_compare_ptr (some e) (copy_Exp_ptr (some e)) = 1 ∧
    exp_compare_ptr none (copy_Exp_ptr none) = 1 ∧
    size_of_expression (copy_Exp e) = size_of_expression e ∧
    size_of_expression e = ((leaves e).length : Int) := by
  have h1 := copy_Exp_eq e
  have h2 : exp_compare e e = 1 := (exp_compare_iff e e).2 rfl
  refine ⟨h1, ?_, rfl, ?_, ?_, rfl, ?_, size_of_expression_eq e⟩
  · simp [copy_Exp_ptr, h1]
  · rw [h1]; exact h2
  · simp [copy_Exp_ptr, exp_compare_ptr, h1, h2]
  · rw [h1]

/-- C28, sub-expression containment: `exp_contains(super, sub)` returns 1 if
and only if both pointers are non-null and some sub-expression of `super`
(`super` itself or a descendant) is structurally equal to `sub`, and returns 0
otherwise; `exp_compare` returns 1 exactly on structurally equal expressions,
which for two connector leaves means equal cost, dir and string (in
`(A+ & (B- or @C+))` with cost 1 at `@C+` the leaf `C+` of cost 1 is found, the
leaf `@C+` of cost 0 is not). -/
theorem C28_exp_contains (super sub : Option Exp) :
    (exp_contains_ptr super sub = 1 ↔
      ∃ a b, super = some a ∧ sub = some b ∧ ∃ x ∈ subexps a, struct_eq x b) ∧
    (exp_contains_ptr super sub = 0 ∨ exp_contains_ptr super sub = 1) ∧
    (∀ a b : Exp, exp_compare a b = 1 ↔ struct_eq a b) ∧
    (∀ (c1 c2 : Nat) (d1 d2 : Char) (m1 m2 : Bool) (s1 s2 : String),
      struct_eq (Exp.CONNECTOR c1 d1 m1 s1) (Exp.CONNECTOR c2 d2 m2 s2) ↔
        c1 = c2 ∧ d1 = d2 ∧ s1 = s2) ∧
    exp_contains_ptr (some exp_nested) (some (Exp.CONNECTOR 1 '+' false "C")) = 1 ∧
    exp_contains_ptr (some exp_nested) (some (Exp.CONNECTOR 0 '+' true "C")) = 0 := by
  refine ⟨?_, ?_, fun a b => exp_compare_iff a b, ?_, by decide, by decide⟩
  · cases super with
    | none => simp [exp_contains_ptr]
    | some a =>
      cases sub with
      | none => simp [exp_contains_ptr]
      | some b =>
        simp only [exp_contains_ptr, exp_contains_iff a b]
        constructor
        · rintro ⟨x, hx, hxs⟩
          exact ⟨a, b, rfl, rfl, x, hx, hxs⟩
        · rintro ⟨a1, b1, ha, hb, x, hx, hxs⟩
          cases ha
          cases hb
          exact ⟨x, hx, hxs⟩
  · cases super with
    | none => exact Or.inl (by simp [exp_contains_ptr])
    | some a =>
      cases sub with
      | none => exact Or.inl (by simp [exp_contains_ptr])
      | some b => exact exp_contains_01 a b
  · intro c1 c2 d1 d2 m1 m2 s1 s2
    simp [struct_eq, erase_multi]

/-! ## The string set: `next_prime_up` -/

theorem lor_one_eq (n : Nat) : n ||| 1 = 2 * (n / 2) + 1 := by
  have h1 : (n ||| 1) % 2 = 1 := (Nat.or_mod_two_eq_one (a := n) (b := 1)).2 (Or.inr rfl)
  have h2 : (n ||| 1) / 2 = n / 2 := by rw [Nat.or_div_two]; simp
  omega

theorem next_prime_up_inner_spec (start : Nat) (hodd : start % 2 = 1) :
    ∀ fuel i, 3 ≤ i → i % 2 = 1 → i < start → start < i + 2 * fuel →
      (∀ d, 3 ≤ d → d < i → d % 2 = 1 → ¬ d ∣ start) →
      (start % (next_prime_up_inner start fuel i) = 0 ↔ ¬ Nat.Prime start) := by
  intro fuel
  induction fuel with
  | zero => intro i _ _ h1 h2; omega
  | succ fuel ih =>
    intro i h3 hi hlt hfuel hnd
    unfold next_prime_up_inner
    by_cases h1 : i ≤ start / i
    · rw [if_pos h1]
      have hsq : i * i ≤ start := (Nat.le_div_iff_mul_le (by omega)).1 h1
      by_cases h2 : start % i = 0
      · rw [if_pos h2]
        refine ⟨fun _ hp => ?_, fun _ => h2⟩
        have := (Nat.Prime.eq_one_or_self_of_dvd hp i (Nat.dvd_of_mod_eq_zero h2))
        omega
      · rw [if_neg h2]
        apply ih (i + 2) (by omega) (by omega) (by nlinarith) (by omega)
        intro d hd3 hdi hdodd hdvd
        by_cases hd : d < i
        · exact hnd d hd3 hd hdodd hdvd
        · have : d = i := by omega
          subst this
          exact h2 (Nat.mod_eq_zero_of_dvd hdvd)
    · rw [if_neg h1]
      have hsq : start < i * i := by
        have := (Nat.div_lt_iff_lt_mul (by omega : 0 < i)).1 (by omega : start / i < i)
        exact this
      constructor
      · intro h0 hp
        have := (Nat.Prime.eq_one_or_self_of_dvd hp i (Nat.dvd_of_mod_eq_zero h0))
        omega
      · intro hnp
        by_contra h0
        apply hnp
        rw [Nat.prime_def_le_sqrt]
        refine ⟨by omega, fun m hm2 hms hdvd => ?_⟩
        have hmm : m * m ≤ start := Nat.le_sqrt.1 hms
        have hmi : m < i := by
          by_contra hge
          have : i * i ≤ m * m := Nat.mul_le_mul (by omega) (by omega)
          omega
        rcases Nat.mod_two_eq_zero_or_one m with hev | hod
        · have h2 : 2 ∣ start := Nat.dvd_trans (Nat.dvd_of_mod_eq_zero hev) hdvd
          omega
        · exact hnd m (by omega) hmi hod hdvd

theorem next_prime_up_loop_spec :
    ∀ fuel start, start % 2 = 1 → 5 ≤ start →
      (∃ p, Nat.Prime p ∧ start ≤ p ∧ p < start + 2 * fuel) →
      Nat.Prime (next_prime_up_loop fuel start) ∧ start ≤ next_prime_up_loop fuel start ∧
        ∀ q, Nat.Prime q → start ≤ q → next_prime_up_loop fuel start ≤ q := by
  intro fuel
  induction fuel with
  | zero => rintro start _ _ ⟨p, _, h1, h2⟩; omega
  | succ fuel ih =>
    rintro start hodd h5 ⟨p, hp, hple, hplt⟩
    unfold next_prime_up_loop
    have hspec := next_prime_up_inner_spec start hodd start 3 (by omega) (by omega) (by omega)
      (by omega) (fun d h3 hd => by omega)
    by_cases h0 : start % (next_prime_up_inner start start 3) = 0
    · rw [if_pos h0]
      have hnp : ¬ Nat.Prime start := hspec.1 h0
      have hstep : ∀ q, Nat.Prime q → start ≤ q → start + 2 ≤ q := by
        intro q hq hle
        have hne : q ≠ start := fun h => hnp (h ▸ hq)
        rcases Nat.Prime.eq_two_or_odd hq with h2 | h2 <;> omega
      obtain ⟨i1, i2, i3⟩ := ih (start + 2) (by omega) (by omega)
        ⟨p, hp, hstep p hp hple, by omega⟩
      exact ⟨i1, by omega, fun q hq hle => i3 q hq (hstep q hq hle)⟩
    · rw [if_neg h0]
      have hpr : Nat.Prime start := by
        by_contra hnp
        exact h0 (hspec.2 hnp)
      exact ⟨hpr, le_refl _, fun q _ hle => hle⟩

/-- For `start ≥ 4` the result of `next_prime_up` is the least prime that is
at least `start`. -/
theorem next_prime_up_spec (n : Nat) (h : 4 ≤ n) :
    Nat.Prime (next_prime_up n) ∧ n ≤ next_prime_up n ∧
      ∀ q, Nat.Prime q → n ≤ q → next_prime_up n ≤ q := by
  unfold next_prime_up
  rw [lor_one_eq]
  obtain ⟨p, hp, h1, h2⟩ := Nat.exists_prime_lt_and_le_two_mul (2 * (n / 2) + 1) (by omega)
  obtain ⟨i1, i2, i3⟩ := next_prime_up_loop_spec (2 * (n / 2) + 1) (2 * (n / 2) + 1)
    (by omega) (by omega) ⟨p, hp, by omega, by omega⟩
  refine ⟨i1, by omega, fun q hq hle => i3 q hq ?_⟩
  rcases Nat.Prime.eq_two_or_odd hq with h2 | h2 <;> omega

/-! ## The string set: hashing and probing -/

theorem hash_string_loop_lt (size : Nat) (hs : 0 < size) :
    ∀ (sa : List Char) (accum : Nat), accum < size → hash_string_loop size sa accum < size := by
  intro sa
  induction sa with
  | nil => intro accum h; exact h
  | cons c str ih => intro accum _; exact ih _ (Nat.mod_lt _ hs)

theorem hash_string_lt (sa : List Char) (ss : String_set) (hs : 0 < ss.size) :
    hash_string sa ss < ss.size :=
  hash_string_loop_lt ss.size hs sa 0 hs

theorem stride_hash_string_loop_lt (size : Nat) (hs : 0 < size) :
    ∀ (sa : List Char) (accum : Nat), accum < size →
      stride_hash_string_loop size sa accum < size := by
  intro sa
  induction sa with
  | nil => intro accum h; exact h
  | cons c str ih => intro accum _; exact ih _ (Nat.mod_lt _ hs)

theorem stride_hash_string_range (sa : List Char) (ss : String_set) (hs : 2 ≤ ss.size) :
    0 < stride_hash_string sa ss ∧ stride_hash_string sa ss < ss.size := by
  have h := stride_hash_string_loop_lt ss.size (by omega) sa 0 (by omega)
  unfold stride_hash_string
  simp only
  split <;> omega

/-- With a prime size and a stride strictly between 0 and the size, the probe
sequence `(h + k*s) % size`, `k < size`, visits every slot. -/
theorem probe_cover (p h s : Nat) (hp : Nat.Prime p) (hs1 : 0 < s) (hs2 : s < p)
    (e : Nat) (he : e < p) : ∃ k, k < p ∧ (h + k * s) % p = e := by
  let f : Fin p → Fin p := fun k => ⟨(h + k.val * s) % p, Nat.mod_lt _ hp.pos⟩
  have hinj : Function.Injective f := by
    intro k1 k2 hk
    have h1 : (h + k1.val * s) % p = (h + k2.val * s) % p := by
      have := congrArg Fin.val hk
      simpa [f] using this
    have h2 : k1.val * s ≡ k2.val * s [MOD p] := Nat.ModEq.add_left_cancel' h h1
    have hcop : Nat.gcd p s = 1 :=
      (Nat.Prime.coprime_iff_not_dvd hp).2 (Nat.not_dvd_of_pos_of_lt hs1 hs2)
    have h3 : k1.val ≡ k2.val [MOD p] := Nat.ModEq.cancel_right_of_coprime hcop h2
    exact Fin.ext (Nat.ModEq.eq_of_lt_of_lt h3 k1.isLt k2.isLt)
  obtain ⟨k, hk⟩ := (Finite.injective_iff_surjective.1 hinj) ⟨e, he⟩
  exact ⟨k.val, k.isLt, by simpa [f] using congrArg Fin.val hk⟩

theorem find_place_loop_total (str : List Char) (ss : String_set) (s : Nat)
    (hlen : ss.table.length = ss.size) :
    ∀ fuel i, i < ss.size →
      (∃ k, k < fuel ∧ ss.table[(i + k * s) % ss.size]? = some none) →
      ∃ j, find_place_loop str ss s fuel i = some j := by
  intro fuel
  induction fuel with
  | zero => rintro i _ ⟨k, hk, _⟩; omega
  | succ fuel ih =>
    rintro i hi ⟨k, hk, hnone⟩
    unfold find_place_loop
    have hget : ∃ x, ss.table[i]? = some x := by
      rw [List.getElem?_eq_getElem (by omega)]; exact ⟨_, rfl⟩
    obtain ⟨x, hx⟩ := hget
    rw [hx]
    cases x with
    | none => exact ⟨i, rfl⟩
    | some p =>
      simp only
      split
      · exact ⟨i, rfl⟩
      · cases k with
        | zero =>
          simp only [Nat.zero_mul, Nat.add_zero, Nat.mod_eq_of_lt hi] at hnone
          rw [hx] at hnone
          cases hnone
        | succ k =>
          apply ih _ (Nat.mod_lt _ (by omega)) ⟨k, by omega, ?_⟩
          have : ((i + s) % ss.size + k * s) % ss.size = (i + (k + 1) * s) % ss.size := by
            rw [Nat.add_mod, Nat.mod_mod, ← Nat.add_mod]
            congr 1
            ring
          rw [this]
          exact hnone

theorem find_place_loop_hit (str : List Char) (ss : String_set) (s : Nat) :
    ∀ fuel i j, find_place_loop str ss s fuel i = some j →
      (ss.table[j]? = some none ∨ ∃ p, ss.table[j]? = some (some p) ∧ p.bytes = str) := by
  intro fuel
  induction fuel with
  | zero => intro i j h; simp [find_place_loop] at h
  | succ fuel ih =>
    intro i j h
    unfold find_place_loop at h
    split at h
    · cases h
    · rename_i hx
      cases h
      exact Or.inl hx
    · rename_i p hx
      split at h
      · rename_i hb
        cases h
        exact Or.inr ⟨p, hx, hb⟩
      · exact ih _ _ h

/-- Filling an empty slot keeps every search that ended at another slot. -/
theorem find_place_loop_set_ne (str : List Char) (ss ss1 : String_set) (s q : Nat)
    (np : StrPtr) (hsz : ss1.size = ss.size) (htb : ss1.table = ss.table.set q (some np))
    (hq : ss.table[q]? = some none) :
    ∀ fuel i j, find_place_loop str ss s fuel i = some j → j ≠ q →
      find_place_loop str ss1 s fuel i = some j := by
  intro fuel
  induction fuel with
  | zero => intro i j h; simp [find_place_loop] at h
  | succ fuel ih =>
    intro i j h hne
    unfold find_place_loop at h ⊢
    by_cases hiq : i = q
    · subst hiq
      rw [hq] at h
      simp only [Option.some.injEq] at h
      exact absurd h.symm hne
    · have hsame : ss1.table[i]? = ss.table[i]? := by
        rw [htb, List.getElem?_set_ne (fun h => hiq h.symm)]
      rw [hsame, hsz]
      split at h
      · cases h
      · exact h
      · split at h
        · rename_i hb; rw [if_pos hb]; exact h
        · rename_i hb; rw [if_neg hb]; exact ih _ _ h hne

/-- Filling the empty slot where the search for `str` ended with a pointer to
`str` keeps that search. -/
theorem find_place_loop_set_eq (str : List Char) (ss ss1 : String_set) (s q : Nat)
    (np : StrPtr) (hsz : ss1.size = ss.size) (htb : ss1.table = ss.table.set q (some np))
    (hq : ss.table[q]? = some none) (hnp : np.bytes = str) :
    ∀ fuel i, find_place_loop str ss s fuel i = some q →
      find_place_loop str ss1 s fuel i = some q := by
  intro fuel
  induction fuel with
  | zero => intro i h; simp [find_place_loop] at h
  | succ fuel ih =>
    intro i h
    unfold find_place_loop at h ⊢
    by_cases hiq : i = q
    · subst hiq
      have hlt : i < ss.table.length := by
        by_contra hge
        rw [List.getElem?_eq_none (by omega)] at hq
        cases hq
      rw [htb, List.getElem?_set_self hlt]
      simp [hnp]
    · have hsame : ss1.table[i]? = ss.table[i]? := by
        rw [htb, List.getElem?_set_ne (fun h => hiq h.symm)]
      rw [hsame, hsz]
      split at h
      · cases h
      · simp only [Option.some.injEq] at h
        exact absurd h hiq
      · split at h
        · simp only [Option.some.injEq] at h
          exact absurd h hiq
        · rename_i hb; rw [if_neg hb]; exact ih _ h

/-! ## The string set: the stored pointers -/

theorem filterMap_set_none {α : Type} (x : α) :
    ∀ (l : List (Option α)) (q : Nat), l[q]? = some none →
      ((l.set q (some x)).filterMap id).Perm (x :: l.filterMap id) := by
  intro l
  induction l with
  | nil => intro q h; simp at h
  | cons a t ih =>
    intro q h
    cases q with
    | zero =>
      simp only [List.getElem?_cons_zero, Option.some.injEq] at h
      subst h
      simp
    | succ q =>
      simp only [List.getElem?_cons_succ] at h
      cases a with
      | none => simpa using ih q h
      | some y =>
        simp only [List.set_cons_succ, List.filterMap_cons_some, id_eq]
        exact ((ih q h).cons y).trans (List.Perm.swap x y _)

theorem filterMap_id_length_lt {α : Type} :
    ∀ (l : List (Option α)), (l.filterMap id).length < l.length → none ∈ l := by
  intro l
  induction l with
  | nil => intro h; simp at h
  | cons a t ih =>
    intro h
    cases a with
    | none => simp
    | some y =>
      have h1 : (t.filterMap id).length < t.length := by simpa using h
      exact List.mem_cons_of_mem _ (ih h1)

theorem mem_stored_iff (ss : String_set) (p : StrPtr) :
    p ∈ stored ss ↔ ∃ j : Nat, ss.table[j]? = some (some p) := by
  unfold stored
  simp only [List.mem_filterMap, id_eq, exists_eq_right]
  exact List.mem_iff_getElem?

theorem stored_replicate (n : Nat) : (List.replicate n (none : Option StrPtr)).filterMap id = [] := by
  induction n with
  | zero => rfl
  | succ n ih => simp [List.replicate_succ]

theorem exists_empty_slot (ss : String_set) (hc : (stored ss).length < ss.table.length) :
    ∃ e, e < ss.table.length ∧ ss.table[e]? = some none := by
  have h := filterMap_id_length_lt ss.table hc
  obtain ⟨e, he, hx⟩ := List.mem_iff_getElem.1 h
  exact ⟨e, he, by rw [List.getElem?_eq_getElem he, hx]⟩

/-- In a well-formed set that is not full `find_place` returns, and the slot
is empty or holds the string looked for. -/
theorem find_place_total (ss : String_set) (h : SS_wf ss) (hc : ss.count < ss.size)
    (str : List Char) :
    ∃ j, find_place str ss = some j ∧
      (ss.table[j]? = some none ∨ ∃ p, ss.table[j]? = some (some p) ∧ p.bytes = str) := by
  have h2 : 2 ≤ ss.size := h.prime.two_le
  obtain ⟨e, he, hnone⟩ := exists_empty_slot ss (by rw [← h.cnt, h.len]; exact hc)
  obtain ⟨hs1, hs2⟩ := stride_hash_string_range str ss h2
  obtain ⟨k, hk, hke⟩ := probe_cover ss.size (hash_string str ss) (stride_hash_string str ss)
    h.prime hs1 hs2 e (by rw [← h.len]; exact he)
  obtain ⟨j, hj⟩ := find_place_loop_total str ss (stride_hash_string str ss) h.len ss.size
    (hash_string str ss) (hash_string_lt str ss (by omega)) ⟨k, hk, by rw [hke]; exact hnone⟩
  exact ⟨j, hj, find_place_loop_hit str ss _ _ _ _ hj⟩

/-- Two slots of a well-formed set that hold equal strings are the same slot. -/
theorem slots_distinct (ss : String_set) (h : SS_wf ss) (i j : Nat) (p q : StrPtr)
    (hi : ss.table[i]? = some (some p)) (hj : ss.table[j]? = some (some q))
    (hb : p.bytes = q.bytes) : i = j := by
  have h1 := h.canon i p hi
  have h2 := h.canon j q hj
  rw [hb, h2] at h1
  exact (Option.some.inj h1).symm

/-- Two stored pointers with equal strings are the same pointer. -/
theorem stored_bytes_inj (ss : String_set) (h : SS_wf ss) (p q : StrPtr)
    (hp : p ∈ stored ss) (hq : q ∈ stored ss) (hb : p.bytes = q.bytes) : p = q := by
  obtain ⟨i, hi⟩ := (mem_stored_iff ss p).1 hp
  obtain ⟨j, hj⟩ := (mem_stored_iff ss q).1 hq
  have := slots_distinct ss h i j p q hi hj hb
  subst this
  rw [hi] at hj
  exact Option.some.inj (Option.some.inj hj)

/-- Putting a pointer to a string that is not stored at the slot `find_place`
returns for it keeps the set well-formed and adds the pointer to the stored
ones. -/
theorem insert_spec (ss : String_set) (h : SS_wf ss) (hc : ss.count < ss.size) (np : StrPtr)
    (hnew : ∀ p ∈ stored ss, p.bytes ≠ np.bytes)
    (haddr : np.addr ∉ (stored ss).map StrPtr.addr) :
    ∃ q, find_place np.bytes ss = some q ∧ ss.table[q]? = some none ∧
      SS_wf { ss with table := ss.table.set q (some np), count := ss.count + 1 } ∧
      (stored { ss with table := ss.table.set q (some np), count := ss.count + 1 }).Perm
        (np :: stored ss) := by
  obtain ⟨q, hq, hhit⟩ := find_place_total ss h hc np.bytes
  have hnone : ss.table[q]? = some none := by
    rcases hhit with h1 | ⟨p, hp, hb⟩
    · exact h1
    · exact absurd hb (hnew p ((mem_stored_iff ss p).2 ⟨q, hp⟩))
  have hperm : (stored { ss with table := ss.table.set q (some np), count := ss.count + 1 }).Perm
      (np :: stored ss) := filterMap_set_none np ss.table q hnone
  refine ⟨q, hq, hnone, ?_, hperm⟩
  refine ⟨h.prime, by simp [h.len], ?_, ?_, ?_⟩
  · rw [hperm.length_eq]; simp [h.cnt]
  · intro j p hj
    simp only at hj
    by_cases hjq : j = q
    · subst hjq
      have hlt : j < ss.table.length := by
        by_contra hge
        rw [List.getElem?_eq_none (by omega)] at hnone
        cases hnone
      rw [List.getElem?_set_self hlt] at hj
      have hpn : np = p := Option.some.inj (Option.some.inj hj)
      subst hpn
      exact find_place_loop_set_eq np.bytes ss
        { ss with table := ss.table.set j (some np), count := ss.count + 1 }
        (stride_hash_string np.bytes ss) j np rfl rfl hnone rfl ss.size (hash_string np.bytes ss) hq
    · rw [List.getElem?_set_ne (fun h => hjq h.symm)] at hj
      exact find_place_loop_set_ne p.bytes ss
        { ss with table := ss.table.set q (some np), count := ss.count + 1 }
        (stride_hash_string p.bytes ss) q np rfl rfl hnone ss.size (hash_string p.bytes ss) j
        (h.canon j p hj) hjq
  · rw [(hperm.map StrPtr.addr).nodup_iff]
    simp only [List.map_cons, List.nodup_cons]
    exact ⟨haddr, h.addrs⟩

/-! ## The string set: growth and `string_set_add` -/

theorem stored_bytes_nodup (ss : String_set) (h : SS_wf ss) :
    ((stored ss).map StrPtr.bytes).Nodup :=
  List.Nodup.map_on (fun p hp q hq hb => stored_bytes_inj ss h p q hp hq hb)
    (List.Nodup.of_map _ h.addrs)

theorem grow_table_loop_spec :
    ∀ (old : List (Option StrPtr)) (ss : String_set), SS_wf ss →
      ss.count + (old.filterMap id).length < ss.size →
      ((old.filterMap id ++ stored ss).map StrPtr.bytes).Nodup →
      ((old.filterMap id ++ stored ss).map StrPtr.addr).Nodup →
      ∃ ss1, grow_table_loop old ss = some ss1 ∧ SS_wf ss1 ∧ ss1.size = ss.size ∧
        (stored ss1).Perm (old.filterMap id ++ stored ss) := by
  intro old
  induction old with
  | nil => intro ss h _ _ _; exact ⟨ss, rfl, h, rfl, by simp⟩
  | cons x old ih =>
    intro ss h hc hb ha
    cases x with
    | none =>
      have h1 := ih ss h (by simpa using hc) (by simpa using hb) (by simpa using ha)
      simpa [grow_table_loop] using h1
    | some p =>
      have hfm : (some p :: old).filterMap id = p :: old.filterMap id := rfl
      rw [hfm] at hc hb ha ⊢
      simp only [List.length_cons, List.cons_append, List.map_cons, List.nodup_cons] at hc hb ha ⊢
      have hnew : ∀ q ∈ stored ss, q.bytes ≠ p.bytes := by
        intro q hq heq
        exact hb.1 (List.mem_map.2 ⟨q, List.mem_append_right _ hq, heq⟩)
      have haddr : p.addr ∉ (stored ss).map StrPtr.addr := by
        intro hmem
        obtain ⟨q, hq, heq⟩ := List.mem_map.1 hmem
        exact ha.1 (List.mem_map.2 ⟨q, List.mem_append_right _ hq, heq⟩)
      obtain ⟨q, hfp, _, hwf1, hperm1⟩ := insert_spec ss h (by omega) p hnew haddr
      have hmid : (old.filterMap id ++
          stored { ss with table := ss.table.set q (some p), count := ss.count + 1 }).Perm
          (p :: (old.filterMap id ++ stored ss)) :=
        (hperm1.append_left _).trans List.perm_middle
      obtain ⟨ss2, h1, h2, h3, h4⟩ := ih
        { ss with table := ss.table.set q (some p), count := ss.count + 1 } hwf1
        (by simp only; omega)
        (by rw [(hmid.map StrPtr.bytes).nodup_iff]; simpa using hb)
        (by rw [(hmid.map StrPtr.addr).nodup_iff]; simpa using ha)
      refine ⟨ss2, ?_, h2, h3, h4.trans hmid⟩
      unfold grow_table_loop
      rw [hfp]
      exact h1

/-- Growth of a well-formed set returns a well-formed set of size
`next_prime_up (2 * size)` that stores the same pointers. -/
theorem grow_table_spec (ss : String_set) (h : SS_wf ss) (hc : ss.count ≤ ss.size) :
    ∃ ss2, grow_table ss = some ss2 ∧ SS_wf ss2 ∧ ss2.size = next_prime_up (2 * ss.size) ∧
      (stored ss2).Perm (stored ss) ∧ 2 * ss.size ≤ ss2.size := by
  have h2 : 2 ≤ ss.size := h.prime.two_le
  obtain ⟨hp, hle, _⟩ := next_prime_up_spec (2 * ss.size) (by omega)
  have hwf0 : SS_wf
      { size := next_prime_up (2 * ss.size), count := 0,
        table := List.replicate (next_prime_up (2 * ss.size)) none } := by
    refine ⟨hp, by simp, by simp [stored, stored_replicate], ?_, by simp [stored, stored_replicate]⟩
    intro j p hj
    have hmem : some p ∈ List.replicate (next_prime_up (2 * ss.size)) (none : Option StrPtr) :=
      List.mem_iff_getElem?.2 ⟨j, hj⟩
    have := List.eq_of_mem_replicate hmem
    cases this
  have hst0 : stored
      { size := next_prime_up (2 * ss.size), count := 0,
        table := List.replicate (next_prime_up (2 * ss.size)) (none : Option StrPtr) } = [] := by
    simp [stored, stored_replicate]
  have htake : ss.table.take ss.size = ss.table := List.take_of_length_le (by rw [h.len])
  obtain ⟨ss2, h1, h3, h4, h5⟩ := grow_table_loop_spec ss.table _ hwf0
    (by
      have := h.cnt
      unfold stored at this
      simp only
      omega)
    (by rw [hst0]; simpa [stored] using stored_bytes_nodup ss h)
    (by rw [hst0]; simpa [stored] using h.addrs)
  refine ⟨ss2, ?_, h3, h4, ?_, by rw [h4]; exact hle⟩
  · unfold grow_table
    rw [htake]
    exact h1
  · rw [hst0] at h5
    simpa [stored] using h5

/-- The behaviour of `string_set_add` on a set that satisfies the invariant:
it returns, the invariant holds again, the returned pointer is stored and
points to the string; if the string was stored the set is unchanged, and if it
was not the new block is stored next to the old pointers. -/
theorem string_set_add_spec (ss : String_set) (h : SS_inv ss) (a : Nat) (s : List Char)
    (ha : a ∉ (stored ss).map StrPtr.addr) :
    ∃ p ss1, string_set_add a s ss = some (p, ss1) ∧ SS_inv ss1 ∧ p.bytes = s ∧
      p ∈ stored ss1 ∧
      ((∃ q ∈ stored ss, q.bytes = s) → p ∈ stored ss ∧ ss1 = ss) ∧
      ((∀ q ∈ stored ss, q.bytes ≠ s) →
        p = { addr := a, bytes := s } ∧ ss1.count = ss.count + 1 ∧
        (stored ss1).Perm (p :: stored ss) ∧
        ss1.size = (if 4 * (ss.count + 1) > 3 * ss.size then next_prime_up (2 * ss.size)
          else ss.size)) := by
  obtain ⟨hwf, hload⟩ := h
  have h2 : 2 ≤ ss.size := hwf.prime.two_le
  by_cases hpres : ∃ q ∈ stored ss, q.bytes = s
  · obtain ⟨q, hq, hb⟩ := hpres
    obtain ⟨j, hj⟩ := (mem_stored_iff ss q).1 hq
    have hfp := hwf.canon j q hj
    rw [hb] at hfp
    refine ⟨q, ss, ?_, ⟨hwf, hload⟩, hb, hq, fun _ => ⟨hq, rfl⟩, fun hno => absurd hb (hno q hq)⟩
    unfold string_set_add
    rw [hfp]
    simp only [hj]
  · have hnew : ∀ q ∈ stored ss, q.bytes ≠ s := fun q hq hb => hpres ⟨q, hq, hb⟩
    obtain ⟨q, hfp, hnone, hwf1, hperm1⟩ :=
      insert_spec ss hwf (by omega) { addr := a, bytes := s } hnew ha
    by_cases hg : 4 * (ss.count + 1) > 3 * ss.size
    · obtain ⟨ss2, hgrow, hwf2, hsz2, hperm2, hle2⟩ := grow_table_spec
        { ss with table := ss.table.set q (some { addr := a, bytes := s }),
                  count := ss.count + 1 } hwf1 (by simp only; omega)
      have hcnt2 : ss2.count = ss.count + 1 := by
        rw [hwf2.cnt, hperm2.length_eq, hperm1.length_eq, hwf.cnt]
        rfl
      refine ⟨{ addr := a, bytes := s }, ss2, ?_, ⟨hwf2, ?_⟩, rfl, ?_, ?_, ?_⟩
      · unfold string_set_add
        rw [hfp]
        simp only [hnone, hg, if_true]
        rw [hgrow]
      · simp only at hle2
        omega
      · exact (hperm2.trans hperm1).mem_iff.2 (List.mem_cons_self _ _)
      · intro hex; exact absurd hex hpres
      · intro _
        refine ⟨rfl, hcnt2, hperm2.trans hperm1, ?_⟩
        rw [if_pos hg, hsz2]
    · refine ⟨{ addr := a, bytes := s },
        { ss with table := ss.table.set q (some { addr := a, bytes := s }),
                  count := ss.count + 1 }, ?_, ⟨hwf1, ?_⟩, rfl, ?_, ?_, ?_⟩
      · unfold string_set_add
        rw [hfp]
        simp only [hnone, hg, if_false]
      · simp only; omega
      · exact hperm1.mem_iff.2 (List.mem_cons_self _ _)
      · intro hex; exact absurd hex hpres
      · intro _
        exact ⟨rfl, rfl, hperm1, by rw [if_neg hg]⟩

/-! ## The string set: sequences of adds -/

theorem next_prime_up_100 : next_prime_up 100 = 101 := by decide

theorem stored_create : stored string_set_create = [] := by
  simp [stored, string_set_create, stored_replicate]

theorem SS_inv_create : SS_inv string_set_create := by
  refine ⟨⟨(next_prime_up_spec 100 (by omega)).1, by simp [string_set_create], ?_, ?_, ?_⟩, ?_⟩
  · rw [stored_create]; rfl
  · intro j p hj
    have hmem : some p ∈ List.replicate (next_prime_up 100) (none : Option StrPtr) :=
      List.mem_iff_getElem?.2 ⟨j, hj⟩
    have := List.eq_of_mem_replicate hmem
    cases this
  · rw [stored_create]; exact List.nodup_nil
  · show 4 * 0 ≤ 3 * next_prime_up 100
    omega

/-- What one returning add does to the stored pointers. -/
theorem string_set_add_stored (ss ss1 : String_set) (h : SS_inv ss) (a : Nat) (s : List Char)
    (p : StrPtr) (ha : a ∉ (stored ss).map StrPtr.addr)
    (hadd : string_set_add a s ss = some (p, ss1)) :
    SS_inv ss1 ∧ p.bytes = s ∧ (∀ x, x ∈ stored ss1 ↔ x = p ∨ x ∈ stored ss) ∧
      (p ∈ stored ss ∨ p.addr = a) := by
  obtain ⟨p1, ss2, h1, h2, h3, h4, h5, h6⟩ := string_set_add_spec ss h a s ha
  rw [hadd] at h1
  simp only [Option.some.injEq, Prod.mk.injEq] at h1
  obtain ⟨rfl, rfl⟩ := h1
  refine ⟨h2, h3, ?_, ?_⟩
  · intro x
    by_cases hpres : ∃ q ∈ stored ss, q.bytes = s
    · obtain ⟨hp, heq⟩ := h5 hpres
      rw [heq]
      constructor
      · exact fun hx => Or.inr hx
      · rintro (rfl | hx)
        · exact hp
        · exact hx
    · obtain ⟨_, _, hperm, _⟩ := h6 (fun q hq hb => hpres ⟨q, hq, hb⟩)
      rw [hperm.mem_iff, List.mem_cons]
  · by_cases hpres : ∃ q ∈ stored ss, q.bytes = s
    · exact Or.inl (h5 hpres).1
    · obtain ⟨hp, _⟩ := h6 (fun q hq hb => hpres ⟨q, hq, hb⟩)
      rw [hp]
      exact Or.inr rfl

/-- A sequence of adds keeps the invariant and the stored pointers; the stored
strings are the ones stored before and the ones added. -/
theorem Adds_spec (ss0 : String_set) (h0 : SS_inv ss0) :
    ∀ hist ss, Adds ss0 hist ss →
      SS_inv ss ∧ (∀ p ∈ stored ss0, p ∈ stored ss) ∧
        (∀ s, (∃ p ∈ stored ss, p.bytes = s) ↔ (∃ p ∈ stored ss0, p.bytes = s) ∨ s ∈ hist) := by
  intro hist ss hadds
  induction hadds with
  | refl => exact ⟨h0, fun p hp => hp, fun s => by simp⟩
  | @step hist ss1 ss2 a s p _ ha hadd ih =>
    obtain ⟨i1, i2, i3⟩ := ih
    obtain ⟨j1, j2, j3, _⟩ := string_set_add_stored ss1 ss2 i1 a s p ha hadd
    refine ⟨j1, fun x hx => (j3 x).2 (Or.inr (i2 x hx)), ?_⟩
    intro t
    constructor
    · rintro ⟨x, hx, hb⟩
      rcases (j3 x).1 hx with rfl | hx1
      · right
        rw [← hb, j2]
        exact List.mem_cons_self _ _
      · rcases (i3 t).1 ⟨x, hx1, hb⟩ with h | h
        · exact Or.inl h
        · exact Or.inr (List.mem_cons_of_mem _ h)
    · rintro (h | h)
      · obtain ⟨x, hx, hb⟩ := (i3 t).2 (Or.inl h)
        exact ⟨x, (j3 x).2 (Or.inr hx), hb⟩
      · rcases List.mem_cons.1 h with rfl | h1
        · exact ⟨p, (j3 p).2 (Or.inl rfl), j2⟩
        · obtain ⟨x, hx, hb⟩ := (i3 t).2 (Or.inr h1)
          exact ⟨x, (j3 x).2 (Or.inr hx), hb⟩

/-- After adds to a new set the stored strings are the added strings, and
`count` is the number of distinct added strings. -/
theorem Adds_create_spec (hist : List (List Char)) (ss : String_set)
    (h : Adds string_set_create hist ss) :
    SS_inv ss ∧ (∀ s, (∃ p ∈ stored ss, p.bytes = s) ↔ s ∈ hist) ∧
      ss.count = hist.dedup.length := by
  obtain ⟨i1, _, i3⟩ := Adds_spec string_set_create SS_inv_create hist ss h
  have hmem : ∀ s, (∃ p ∈ stored ss, p.bytes = s) ↔ s ∈ hist := by
    intro s
    rw [i3 s, stored_create]
    simp
  refine ⟨i1, hmem, ?_⟩
  have hperm : ((stored ss).map StrPtr.bytes).Perm hist.dedup := by
    rw [List.perm_ext_iff_of_nodup (stored_bytes_nodup ss i1.1) (List.nodup_dedup hist)]
    intro s
    rw [List.mem_dedup, ← hmem s, List.mem_map]
  rw [i1.1.cnt, ← hperm.length_eq, List.length_map]

theorem filterMap_id_length_eq {α : Type} :
    ∀ (l : List (Option α)), (l.filterMap id).length = (l.filter (fun x => x.isSome)).length := by
  intro l
  induction l with
  | nil => rfl
  | cons a t ih => cases a <;> simp [ih]

/-- In a set that satisfies the invariant `string_set_lookup` returns: the
stored pointer of the string, or `NULL` when the string is not stored. -/
theorem string_set_lookup_spec (ss : String_set) (h : SS_inv ss) (s : List Char) :
    (∀ p ∈ stored ss, p.bytes = s → string_set_lookup s ss = some (some p)) ∧
      ((∀ p ∈ stored ss, p.bytes ≠ s) → string_set_lookup s ss = some none) := by
  have h2 : 2 ≤ ss.size := h.1.prime.two_le
  constructor
  · intro p hp hb
    obtain ⟨j, hj⟩ := (mem_stored_iff ss p).1 hp
    have hfp := h.1.canon j p hj
    rw [hb] at hfp
    unfold string_set_lookup
    rw [hfp]
    exact hj
  · intro hno
    obtain ⟨j, hj, hhit⟩ := find_place_total ss h.1 (by have := h.2; omega) s
    unfold string_set_lookup
    rw [hj]
    rcases hhit with h1 | ⟨p, hp, hb⟩
    · exact h1
    · exact absurd hb (hno p ((mem_stored_iff ss p).2 ⟨j, hp⟩))

theorem grow_table_loop_size :
    ∀ (old : List (Option StrPtr)) (ss ss1 : String_set),
      grow_table_loop old ss = some ss1 → ss1.size = ss.size := by
  intro old
  induction old with
  | nil => intro ss ss1 h; cases h; rfl
  | cons x old ih =>
    intro ss ss1 h
    cases x with
    | none => exact ih ss ss1 h
    | some p =>
      unfold grow_table_loop at h
      split at h
      · cases h
      · have hsz := ih _ ss1 h
        exact hsz

theorem set_after_add_eq (a : Nat) (s : List Char) (ss ss1 : String_set) (p : StrPtr)
    (h : string_set_add a s ss = some (p, ss1)) : set_after_add a s ss = ss1 := by
  unfold set_after_add
  rw [h]

/-- Any list of strings can be added, each copy at the next address. -/
theorem Adds_add_all (ss0 : String_set) (h0 : SS_inv ss0) :
    ∀ (l : List (List Char)) (a : Nat) (hist : List (List Char)) (ss : String_set),
      Adds ss0 hist ss → (∀ x ∈ stored ss, x.addr < a) →
      Adds ss0 (l.reverse ++ hist) (add_all l a ss) := by
  intro l
  induction l with
  | nil => intro a hist ss h _; simpa [add_all] using h
  | cons s l ih =>
    intro a hist ss h hlt
    have hinv := (Adds_spec ss0 h0 hist ss h).1
    have ha : a ∉ (stored ss).map StrPtr.addr := by
      intro hmem
      obtain ⟨x, hx, hxa⟩ := List.mem_map.1 hmem
      have := hlt x hx
      omega
    obtain ⟨p, ss1, hadd, _⟩ := string_set_add_spec ss hinv a s ha
    obtain ⟨_, _, hmem, hor⟩ := string_set_add_stored ss ss1 hinv a s p ha hadd
    have hstep : Adds ss0 (s :: hist) ss1 := Adds.step h ha hadd
    have hlt1 : ∀ x ∈ stored ss1, x.addr < a + 1 := by
      intro x hx
      rcases (hmem x).1 hx with rfl | hx1
      · rcases hor with h1 | h1
        · have := hlt _ h1; omega
        · omega
      · have := hlt x hx1; omega
    have := ih (a + 1) (s :: hist) ss1 hstep hlt1
    simp only [List.reverse_cons, List.append_assoc, List.singleton_append]
    unfold add_all
    rw [set_after_add_eq a s ss ss1 p hadd]
    exact this

theorem Adds_add_all_create (l : List (List Char)) :
    Adds string_set_create l.reverse (add_all l 0 string_set_create) := by
  have := Adds_add_all string_set_create SS_inv_create l 0 [] string_set_create Adds.refl
    (by rw [stored_create]; intro x hx; cases hx)
  simpa using this

set_option maxRecDepth 1000000 in
theorem ss_75_fresh : 75 ∉ (stored ss_75).map StrPtr.addr := by decide

set_option maxRecDepth 1000000 in
theorem ss_75_size : ss_75.size = 101 ∧ ss_75.count = 75 := by decide

set_option maxRecDepth 1000000 in
theorem ss_75_add_size : (set_after_add 75 ['s'] ss_75).size = 211 := by decide

set_option maxRecDepth 1000000 in
theorem ss_76_size : ss_76.count = 76 ∧ ss_76.size = 211 := by decide

/-! ## The string set: the claims -/

/-- C22, interning gives pointer identity: on a set reached from a new set by
adds, a call of `string_set_add` with `s1` and a later call with `s2`, with any
number of returning adds (and so any growth) between them, return pointers
with the same address exactly when `s1` and `s2` are equal byte lists; the
pointers are then the same pointer, and each points to its string. -/
theorem C22_intern_identity (hist0 hist : List (List Char)) (ss ss1 ss2 ss3 : String_set)
    (a1 a2 : Nat) (s1 s2 : List Char) (p1 p2 : StrPtr)
    (h0 : Adds string_set_create hist0 ss)
    (ha1 : a1 ∉ (stored ss).map StrPtr.addr)
    (h1 : string_set_add a1 s1 ss = some (p1, ss1))
    (hmid : Adds ss1 hist ss2)
    (ha2 : a2 ∉ (stored ss2).map StrPtr.addr)
    (h2 : string_set_add a2 s2 ss2 = some (p2, ss3)) :
    (p1.addr = p2.addr ↔ s1 = s2) ∧ (p1 = p2 ↔ s1 = s2) ∧ p1.bytes = s1 ∧ p2.bytes = s2 := by
  have hinv := (Adds_create_spec hist0 ss h0).1
  obtain ⟨i1, b1, m1, _⟩ := string_set_add_stored ss ss1 hinv a1 s1 p1 ha1 h1
  obtain ⟨i2, keep, _⟩ := Adds_spec ss1 i1 hist ss2 hmid
  obtain ⟨i3, b2, m3, _⟩ := string_set_add_stored ss2 ss3 i2 a2 s2 p2 ha2 h2
  have hp1 : p1 ∈ stored ss3 := (m3 p1).2 (Or.inr (keep p1 ((m1 p1).2 (Or.inl rfl))))
  have hp2 : p2 ∈ stored ss3 := (m3 p2).2 (Or.inl rfl)
  have hpp : p1 = p2 ↔ s1 = s2 := by
    constructor
    · intro h; rw [← b1, ← b2, h]
    · intro h
      exact stored_bytes_inj ss3 i3.1 p1 p2 hp1 hp2 (by rw [b1, b2, h])
  refine ⟨?_, hpp, b1, b2⟩
  constructor
  · intro h
    exact hpp.1 (List.inj_on_of_nodup_map i3.1.addrs hp1 hp2 h)
  · intro h
    rw [hpp.2 h]

/-- Witness for C22: `"S"` is added to a new set, then `"MVp"`, then `"S"`
again; the first and the last call return the same pointer. -/
theorem C22_intern_identity_witness :
    string_set_add 0 ['S'] string_set_create = some (⟨0, ['S']⟩, ss_S) ∧
    Adds ss_S [['M', 'V', 'p']] ss_S_MVp ∧
    string_set_add 2 ['S'] ss_S_MVp = some (⟨0, ['S']⟩, ss_S_MVp) ∧
    (((⟨0, ['S']⟩ : StrPtr).addr = (⟨0, ['S']⟩ : StrPtr).addr ↔ ['S'] = ['S']) ∧
      ((⟨0, ['S']⟩ : StrPtr) = ⟨0, ['S']⟩ ↔ ['S'] = ['S']) ∧
      (⟨0, ['S']⟩ : StrPtr).bytes = ['S'] ∧ (⟨0, ['S']⟩ : StrPtr).bytes = ['S']) :=
  have hmid : Adds ss_S [['M', 'V', 'p']] ss_S_MVp :=
    Adds.step (a := 1) (p := ⟨1, ['M', 'V', 'p']⟩) Adds.refl (by decide) (by rfl)
  ⟨by rfl, hmid, by rfl,
    C22_intern_identity [] [['M', 'V', 'p']] string_set_create ss_S ss_S_MVp ss_S_MVp 0 2
      ['S'] ['S'] ⟨0, ['S']⟩ ⟨0, ['S']⟩ Adds.refl (by decide) (by rfl) hmid (by decide) (by rfl)⟩

/-- C23, round trip: on a set reached from a new set by adds,
`string_set_add` returns, and `string_set_lookup` of the same string on the
resulting set returns the same non-null pointer, whether or not the add made
the table grow. -/
theorem C23_round_trip (hist : List (List Char)) (ss : String_set) (a : Nat) (s : List Char)
    (h0 : Adds string_set_create hist ss) (ha : a ∉ (stored ss).map StrPtr.addr) :
    ∃ p ss1, string_set_add a s ss = some (p, ss1) ∧
      string_set_lookup s ss1 = some (some p) ∧ p.bytes = s := by
  have hinv := (Adds_create_spec hist ss h0).1
  obtain ⟨p, ss1, hadd, i1, b1, hp, _⟩ := string_set_add_spec ss hinv a s ha
  exact ⟨p, ss1, hadd, (string_set_lookup_spec ss1 i1 s).1 p hp b1, b1⟩

/-- Witness for C23: the 76th string added to a new set makes the table grow
from 101 to 211 slots, and the lookup returns the pointer of the add. -/
theorem C23_round_trip_witness :
    Adds string_set_create (strs76.take 75).reverse ss_75 ∧
    75 ∉ (stored ss_75).map StrPtr.addr ∧
    ss_75.size = 101 ∧ (set_after_add 75 ['s'] ss_75).size = 211 ∧
    ∃ p ss1, string_set_add 75 ['s'] ss_75 = some (p, ss1) ∧
      string_set_lookup ['s'] ss1 = some (some p) ∧ p.bytes = ['s'] :=
  ⟨Adds_add_all_create _, ss_75_fresh, ss_75_size.1, ss_75_add_size,
    C23_round_trip (strs76.take 75).reverse ss_75 75 ['s'] (Adds_add_all_create _) ss_75_fresh⟩

/-- C24, add semantics and count: on a set reached from a new set by adds of
the strings `hist`, `count` is the number of distinct strings of `hist`, a
string is stored exactly when it is in `hist`, and `string_set_add` returns a
pointer to the string: the stored pointer with the set unchanged when the
string was added before, and otherwise the new copy, stored next to the old
pointers, with `count` one more. -/
theorem C24_add_semantics (hist : List (List Char)) (ss : String_set) (a : Nat) (s : List Char)
    (h0 : Adds string_set_create hist ss) (ha : a ∉ (stored ss).map StrPtr.addr) :
    ss.count = hist.dedup.length ∧ ((∃ q ∈ stored ss, q.bytes = s) ↔ s ∈ hist) ∧
    ∃ p ss1, string_set_add a s ss = some (p, ss1) ∧ p.bytes = s ∧ p ∈ stored ss1 ∧
      (s ∈ hist → p ∈ stored ss ∧ ss1 = ss) ∧
      (s ∉ hist → p = { addr := a, bytes := s } ∧ ss1.count = ss.count + 1 ∧
        (stored ss1).Perm (p :: stored ss)) ∧
      ss1.count = (s :: hist).dedup.length := by
  obtain ⟨hinv, hmem, hcnt⟩ := Adds_create_spec hist ss h0
  obtain ⟨p, ss1, hadd, _, b1, hp, hpres, habs⟩ := string_set_add_spec ss hinv a s ha
  refine ⟨hcnt, hmem s, p, ss1, hadd, b1, hp, ?_, ?_, ?_⟩
  · intro hs
    exact hpres ((hmem s).2 hs)
  · intro hs
    obtain ⟨e1, e2, e3, _⟩ := habs (fun q hq hb => hs ((hmem s).1 ⟨q, hq, hb⟩))
    exact ⟨e1, e2, e3⟩
  · exact (Adds_create_spec (s :: hist) ss1 (Adds.step h0 ha hadd)).2.2

/-- Witness for C24: after `"S"` and `"S"` were added to a new set, `"MVp"` is
added; the count is 1 before and 2 after. -/
theorem C24_add_semantics_witness :
    Adds string_set_create [['S'], ['S']] ss_S ∧ 2 ∉ (stored ss_S).map StrPtr.addr ∧
    ss_S.count = 1 ∧
    string_set_add 2 ['M', 'V', 'p'] ss_S = some (⟨2, ['M', 'V', 'p']⟩,
      set_after_add 2 ['M', 'V', 'p'] ss_S) ∧
    (set_after_add 2 ['M', 'V', 'p'] ss_S).count = 2 ∧
    (ss_S.count = [['S'], ['S']].dedup.length ∧
      ((∃ q ∈ stored ss_S, q.bytes = ['M', 'V', 'p']) ↔ ['M', 'V', 'p'] ∈ [['S'], ['S']]) ∧
      ∃ p ss1, string_set_add 2 ['M', 'V', 'p'] ss_S = some (p, ss1) ∧
        p.bytes = ['M', 'V', 'p'] ∧ p ∈ stored ss1 ∧
        (['M', 'V', 'p'] ∈ [['S'], ['S']] → p ∈ stored ss_S ∧ ss1 = ss_S) ∧
        (['M', 'V', 'p'] ∉ [['S'], ['S']] → p = { addr := 2, bytes := ['M', 'V', 'p'] } ∧
          ss1.count = ss_S.count + 1 ∧ (stored ss1).Perm (p :: stored ss_S)) ∧
        ss1.count = (['M', 'V', 'p'] :: [['S'], ['S']]).dedup.length) :=
  have hadds : Adds string_set_create [['S'], ['S']] ss_S :=
    Adds.step (a := 1) (p := ⟨0, ['S']⟩)
      (Adds.step (a := 0) (p := ⟨0, ['S']⟩) Adds.refl (by decide) (by rfl)) (by decide) (by rfl)
  ⟨hadds, by decide, by decide, by rfl, by decide,
    C24_add_semantics [['S'], ['S']] ss_S 2 ['M', 'V', 'p'] hadds (by decide)⟩

/-- C25, lookup of an absent string: on a set reached from a new set by adds
of the strings `hist`, `string_set_lookup` returns; the result is `NULL`
exactly when the string is not in `hist`, and a non-null result is the stored
pointer of the string.  The lookup is a function of the set and returns only
the pointer: the set is not changed. -/
theorem C25_lookup_absent (hist : List (List Char)) (ss : String_set) (s : List Char)
    (h0 : Adds string_set_create hist ss) :
    (string_set_lookup s ss = some none ↔ s ∉ hist) ∧
    (∃ r, string_set_lookup s ss = some r) ∧
    (∀ p, string_set_lookup s ss = some (some p) → p ∈ stored ss ∧ p.bytes = s) := by
  obtain ⟨hinv, hmem, _⟩ := Adds_create_spec hist ss h0
  obtain ⟨l1, l2⟩ := string_set_lookup_spec ss hinv s
  by_cases hs : s ∈ hist
  · obtain ⟨q, hq, hb⟩ := (hmem s).2 hs
    have hl := l1 q hq hb
    refine ⟨?_, ⟨_, hl⟩, ?_⟩
    · rw [hl]
      constructor
      · intro h; cases h
      · intro h; exact absurd hs h
    · intro p hp
      rw [hl] at hp
      cases hp
      exact ⟨hq, hb⟩
  · have hl := l2 (fun q hq hb => hs ((hmem s).1 ⟨q, hq, hb⟩))
    refine ⟨?_, ⟨_, hl⟩, ?_⟩
    · rw [hl]
      exact ⟨fun _ => hs, fun _ => rfl⟩
    · intro p hp
      rw [hl] at hp
      cases hp

/-- Witness for C25: after `"S"` was added to a new set, the lookup of `"MVp"`
returns `NULL` and the lookup of `"S"` returns the stored pointer. -/
theorem C25_lookup_absent_witness :
    Adds string_set_create [['S']] ss_S ∧
    string_set_lookup ['M', 'V', 'p'] ss_S = some none ∧
    string_set_lookup ['S'] ss_S = some (some ⟨0, ['S']⟩) ∧
    ((string_set_lookup ['M', 'V', 'p'] ss_S = some none ↔ ['M', 'V', 'p'] ∉ [['S']]) ∧
      (∃ r, string_set_lookup ['M', 'V', 'p'] ss_S = some r) ∧
      (∀ p, string_set_lookup ['M', 'V', 'p'] ss_S = some (some p) →
        p ∈ stored ss_S ∧ p.bytes = ['M', 'V', 'p'])) :=
  have hadds : Adds string_set_create [['S']] ss_S :=
    Adds.step (a := 0) (p := ⟨0, ['S']⟩) Adds.refl (by decide) (by rfl)
  ⟨hadds, by rfl, by rfl, C25_lookup_absent [['S']] ss_S ['M', 'V', 'p'] hadds⟩

/-- C26, prime size: the size of a new set is 101 (`next_prime_up(100)`); the
size of every set reached from it by adds is prime; an add leaves the size
unchanged unless the string is new and `4 * (count + 1) > 3 * size`, and the
size is then `next_prime_up (2 * size)`; the set that `grow_table` returns has
the size `next_prime_up (2 * old size)`. -/
theorem C26_prime_size (hist : List (List Char)) (ss ss1 : String_set) (a : Nat)
    (s : List Char) (p : StrPtr)
    (h0 : Adds string_set_create hist ss) (ha : a ∉ (stored ss).map StrPtr.addr)
    (h1 : string_set_add a s ss = some (p, ss1)) :
    string_set_create.size = 101 ∧ Nat.Prime string_set_create.size ∧
    Nat.Prime ss.size ∧ Nat.Prime ss1.size ∧
    ss1.size = (if s ∉ hist ∧ 4 * (ss.count + 1) > 3 * ss.size
      then next_prime_up (2 * ss.size) else ss.size) ∧
    (∀ g g2, grow_table g = some g2 → g2.size = next_prime_up (2 * g.size)) := by
  obtain ⟨hinv, hmem, _⟩ := Adds_create_spec hist ss h0
  obtain ⟨q, ss2, hadd, i1, _, _, hpres, habs⟩ := string_set_add_spec ss hinv a s ha
  rw [h1] at hadd
  simp only [Option.some.injEq, Prod.mk.injEq] at hadd
  obtain ⟨rfl, rfl⟩ := hadd
  refine ⟨next_prime_up_100, SS_inv_create.1.prime, hinv.1.prime, i1.1.prime, ?_, ?_⟩
  · by_cases hs : s ∈ hist
    · rw [(hpres ((hmem s).2 hs)).2]
      simp [hs]
    · obtain ⟨_, _, _, hsz⟩ := habs (fun q hq hb => hs ((hmem s).1 ⟨q, hq, hb⟩))
      rw [hsz]
      simp [hs]
  · intro g g2 hg
    unfold grow_table at hg
    exact grow_table_loop_size _ _ _ hg

/-- Witness for C26: the 76th string added to a new set makes the table grow
from 101 to 211 slots. -/
theorem C26_prime_size_witness :
    Adds string_set_create (strs76.take 75).reverse ss_75 ∧
    75 ∉ (stored ss_75).map StrPtr.addr ∧
    ss_75.size = 101 ∧ ss_75.count = 75 ∧ (set_after_add 75 ['s'] ss_75).size = 211 ∧
    ∃ p, string_set_add 75 ['s'] ss_75 = some (p, set_after_add 75 ['s'] ss_75) ∧
      (string_set_create.size = 101 ∧ Nat.Prime string_set_create.size ∧
        Nat.Prime ss_75.size ∧ Nat.Prime (set_after_add 75 ['s'] ss_75).size ∧
        (set_after_add 75 ['s'] ss_75).size =
          (if ['s'] ∉ (strs76.take 75).reverse ∧ 4 * (ss_75.count + 1) > 3 * ss_75.size
            then next_prime_up (2 * ss_75.size) else ss_75.size) ∧
        (∀ g g2, grow_table g = some g2 → g2.size = next_prime_up (2 * g.size))) := by
  obtain ⟨p, ss1, hadd, _⟩ := string_set_add_spec ss_75
    (Adds_create_spec _ ss_75 (Adds_add_all_create _)).1 75 ['s'] ss_75_fresh
  have heq := set_after_add_eq 75 ['s'] ss_75 ss1 p hadd
  rw [← heq] at hadd
  exact ⟨Adds_add_all_create _, ss_75_fresh, ss_75_size.1, ss_75_size.2, ss_75_add_size, p, hadd,
    C26_prime_size (strs76.take 75).reverse ss_75 (set_after_add 75 ['s'] ss_75) 75 ['s'] p
      (Adds_add_all_create _) ss_75_fresh hadd⟩

/-- C30, load factor: in every set reached from a new set by adds,
`4 * count ≤ 3 * size`, the table has `size` slots, `count` is the number of
non-empty slots, at least one slot is empty, and no two slots hold equal
strings. -/
theorem C30_load_factor (hist : List (List Char)) (ss : String_set)
    (h0 : Adds string_set_create hist ss) :
    4 * ss.count ≤ 3 * ss.size ∧ ss.table.length = ss.size ∧
    ss.count = (ss.table.filter (fun x => x.isSome)).length ∧
    (∃ j, j < ss.size ∧ ss.table[j]? = some none) ∧
    (∀ (i j : Nat) (p q : StrPtr), ss.table[i]? = some (some p) →
      ss.table[j]? = some (some q) → p.bytes = q.bytes → i = j) := by
  obtain ⟨hinv, _, _⟩ := Adds_create_spec hist ss h0
  have h2 : 2 ≤ ss.size := hinv.1.prime.two_le
  refine ⟨hinv.2, hinv.1.len, ?_, ?_, ?_⟩
  · rw [hinv.1.cnt]
    exact filterMap_id_length_eq ss.table
  · obtain ⟨e, he, hnone⟩ := exists_empty_slot ss
      (by rw [← hinv.1.cnt, hinv.1.len]; have := hinv.2; omega)
    exact ⟨e, by rw [← hinv.1.len]; exact he, hnone⟩
  · intro i j p q hi hj hb
    exact slots_distinct ss hinv.1 i j p q hi hj hb

/-- Witness for C30: the set after the 76 strings of `strs76` were added to a
new set (the last add made the table grow) has 76 of its 211 slots filled. -/
theorem C30_load_factor_witness :
    Adds string_set_create strs76.reverse ss_76 ∧ ss_76.count = 76 ∧ ss_76.size = 211 ∧
    (4 * ss_76.count ≤ 3 * ss_76.size ∧ ss_76.table.length = ss_76.size ∧
      ss_76.count = (ss_76.table.filter (fun x => x.isSome)).length ∧
      (∃ j, j < ss_76.size ∧ ss_76.table[j]? = some none) ∧
      (∀ (i j : Nat) (p q : StrPtr), ss_76.table[i]? = some (some p) →
        ss_76.table[j]? = some (some q) → p.bytes = q.bytes → i = j)) :=
  ⟨Adds_add_all_create _, ss_76_size.1, ss_76_size.2,
    C30_load_factor strs76.reverse ss_76 (Adds_add_all_create _)⟩

/-! ## The string set: growth -/

/-- The add of a string that is not stored: the pointer is put at the empty
slot `find_place` returns; when that makes `4 * count > 3 * size` the result
is the grown table of the set in the middle, otherwise the set in the middle
itself. -/
theorem string_set_add_new (ss : String_set) (h : SS_inv ss) (a : Nat) (s : List Char)
    (ha : a ∉ (stored ss).map StrPtr.addr) (hnew : ∀ q ∈ stored ss, q.bytes ≠ s) :
    ∃ q, find_place s ss = some q ∧ ss.table[q]? = some none ∧
      SS_wf (insert_at ss q ⟨a, s⟩) ∧ (stored (insert_at ss q ⟨a, s⟩)).Perm (⟨a, s⟩ :: stored ss) ∧
      (4 * (ss.count + 1) > 3 * ss.size →
        ∃ ss1, grow_table (insert_at ss q ⟨a, s⟩) = some ss1 ∧
          string_set_add a s ss = some (⟨a, s⟩, ss1) ∧ SS_wf ss1 ∧
          ss1.size = next_prime_up (2 * ss.size) ∧ 2 * ss.size ≤ ss1.size ∧
          (stored ss1).Perm (stored (insert_at ss q ⟨a, s⟩)) ∧
          ss1.count = (insert_at ss q ⟨a, s⟩).count) ∧
      (¬ 4 * (ss.count + 1) > 3 * ss.size →
        string_set_add a s ss = some (⟨a, s⟩, insert_at ss q ⟨a, s⟩)) := by
  obtain ⟨hwf, hload⟩ := h
  have h2 : 2 ≤ ss.size := hwf.prime.two_le
  obtain ⟨q, hfp, hnone, hwf1, hperm1⟩ :=
    insert_spec ss hwf (by omega) { addr := a, bytes := s } hnew ha
  refine ⟨q, hfp, hnone, hwf1, hperm1, ?_, ?_⟩
  · intro hg
    obtain ⟨ss2, hgrow, hwf2, hsz2, hperm2, hle2⟩ := grow_table_spec
      (insert_at ss q ⟨a, s⟩) hwf1 (by simp only [insert_at]; omega)
    refine ⟨ss2, hgrow, ?_, hwf2, hsz2, hle2, hperm2, ?_⟩
    · unfold string_set_add
      rw [hfp]
      simp only [hnone, hg, if_true]
      unfold insert_at at hgrow
      rw [hgrow]
    · rw [hwf2.cnt, hperm2.length_eq]
      exact hwf1.cnt.symm
  · intro hg
    unfold string_set_add
    rw [hfp]
    simp only [hnone, hg, if_false]
    rfl

/-- C31, growth: on a set reached from a new set by adds, an add of a stored
string returns with the set (and so the size) unchanged; an add of a new
string puts the copy at the empty slot `find_place` returns, and when that
makes `4 * count > 3 * size` the result is the table rebuilt by `grow_table`,
of size `next_prime_up (2 * old size)`, at least double, with the same stored
pointers (a permutation without repetition of those before the growth) and
the same count; when it does not, the result is the set after the insertion,
of unchanged size. -/
theorem C31_growth (hist : List (List Char)) (ss : String_set) (a : Nat) (s : List Char)
    (h0 : Adds string_set_create hist ss) (ha : a ∉ (stored ss).map StrPtr.addr) :
    (s ∈ hist → ∃ p, string_set_add a s ss = some (p, ss)) ∧
    (s ∉ hist → ∃ q, find_place s ss = some q ∧ ss.table[q]? = some none ∧
      (4 * (insert_at ss q ⟨a, s⟩).count > 3 * (insert_at ss q ⟨a, s⟩).size →
        ∃ ss1, grow_table (insert_at ss q ⟨a, s⟩) = some ss1 ∧
          string_set_add a s ss = some (⟨a, s⟩, ss1) ∧
          ss1.size = next_prime_up (2 * ss.size) ∧ 2 * ss.size ≤ ss1.size ∧
          (stored ss1).Perm (stored (insert_at ss q ⟨a, s⟩)) ∧ (stored ss1).Nodup ∧
          ss1.count = (insert_at ss q ⟨a, s⟩).count) ∧
      (¬ 4 * (insert_at ss q ⟨a, s⟩).count > 3 * (insert_at ss q ⟨a, s⟩).size →
        string_set_add a s ss = some (⟨a, s⟩, insert_at ss q ⟨a, s⟩) ∧
        (insert_at ss q ⟨a, s⟩).size = ss.size)) := by
  obtain ⟨hinv, hmem, _⟩ := Adds_create_spec hist ss h0
  constructor
  · intro hs
    obtain ⟨p, ss1, hadd, _, _, _, hpres, _⟩ := string_set_add_spec ss hinv a s ha
    have := (hpres ((hmem s).2 hs)).2
    subst this
    exact ⟨p, hadd⟩
  · intro hs
    obtain ⟨q, hfp, hnone, _, _, hgrow, hkeep⟩ := string_set_add_new ss hinv a s ha
      (fun q hq hb => hs ((hmem s).1 ⟨q, hq, hb⟩))
    refine ⟨q, hfp, hnone, ?_, ?_⟩
    · intro hg
      obtain ⟨ss1, g1, g2, g3, g4, g5, g6, g7⟩ := hgrow hg
      exact ⟨ss1, g1, g2, g4, g5, g6, List.Nodup.of_map _ g3.addrs, g7⟩
    · intro hg
      exact ⟨hkeep hg, rfl⟩

/-- Witness for C31: the 76th string added to a new set (75 of 101 slots are
filled before it). -/
theorem C31_growth_witness :
    Adds string_set_create (strs76.take 75).reverse ss_75 ∧
    75 ∉ (stored ss_75).map StrPtr.addr ∧ ss_75.size = 101 ∧ ss_75.count = 75 ∧
    ((['s'] ∈ (strs76.take 75).reverse → ∃ p, string_set_add 75 ['s'] ss_75 = some (p, ss_75)) ∧
    (['s'] ∉ (strs76.take 75).reverse →
      ∃ q, find_place ['s'] ss_75 = some q ∧ ss_75.table[q]? = some none ∧
      (4 * (insert_at ss_75 q ⟨75, ['s']⟩).count > 3 * (insert_at ss_75 q ⟨75, ['s']⟩).size →
        ∃ ss1, grow_table (insert_at ss_75 q ⟨75, ['s']⟩) = some ss1 ∧
          string_set_add 75 ['s'] ss_75 = some (⟨75, ['s']⟩, ss1) ∧
          ss1.size = next_prime_up (2 * ss_75.size) ∧ 2 * ss_75.size ≤ ss1.size ∧
          (stored ss1).Perm (stored (insert_at ss_75 q ⟨75, ['s']⟩)) ∧ (stored ss1).Nodup ∧
          ss1.count = (insert_at ss_75 q ⟨75, ['s']⟩).count) ∧
      (¬ 4 * (insert_at ss_75 q ⟨75, ['s']⟩).count > 3 * (insert_at ss_75 q ⟨75, ['s']⟩).size →
        string_set_add 75 ['s'] ss_75 = some (⟨75, ['s']⟩, insert_at ss_75 q ⟨75, ['s']⟩) ∧
        (insert_at ss_75 q ⟨75, ['s']⟩).size = ss_75.size))) :=
  ⟨Adds_add_all_create _, ss_75_fresh, ss_75_size.1, ss_75_size.2,
    C31_growth (strs76.take 75).reverse ss_75 75 ['s'] (Adds_add_all_create _) ss_75_fresh⟩

/-! ## The string set: the probe sequence -/

theorem probe_inj (p h s : Nat) (hp : Nat.Prime p) (hs1 : 0 < s) (hs2 : s < p)
    (k1 k2 : Nat) (hk1 : k1 < p) (hk2 : k2 < p)
    (heq : (h + k1 * s) % p = (h + k2 * s) % p) : k1 = k2 := by
  have h2 : k1 * s ≡ k2 * s [MOD p] := Nat.ModEq.add_left_cancel' h heq
  have hcop : Nat.gcd p s = 1 :=
    (Nat.Prime.coprime_iff_not_dvd hp).2 (Nat.not_dvd_of_pos_of_lt hs1 hs2)
  exact Nat.ModEq.eq_of_lt_of_lt (Nat.ModEq.cancel_right_of_coprime hcop h2) hk1 hk2

/-- The slot reached after `k` steps `i = (i + s) % size` from `h`. -/
theorem probe_iterate (size h s : Nat) (hh : h < size) :
    ∀ k, Nat.iterate (fun i => (i + s) % size) k h = (h + k * s) % size := by
  intro k
  induction k with
  | zero => simp [Nat.mod_eq_of_lt hh]
  | succ k ih =>
    rw [Function.iterate_succ_apply', ih, Nat.add_mod, Nat.mod_mod, ← Nat.add_mod]
    congr 1
    ring

/-- C32, probe coverage: for a set of prime size and every string, the stride
is in `[1, size - 1]` and the hash in `[0, size - 1]`; the slot that
`find_place` reaches after `k` steps `i = (i + s) % size` from the hash is
`(h + k * s) % size`, and these slots for `k = 0 .. size - 1` are a
permutation of all slots: every slot is visited exactly once. -/
theorem C32_probe_coverage (ss : String_set) (str : List Char) (hp : Nat.Prime ss.size) :
    1 ≤ stride_hash_string str ss ∧ stride_hash_string str ss ≤ ss.size - 1 ∧
    hash_string str ss < ss.size ∧
    find_place str ss
      = find_place_loop str ss (stride_hash_string str ss) ss.size (hash_string str ss) ∧
    (∀ k, Nat.iterate (fun i => (i + stride_hash_string str ss) % ss.size) k (hash_string str ss)
      = (hash_string str ss + k * stride_hash_string str ss) % ss.size) ∧
    ((List.range ss.size).map
      (fun k => (hash_string str ss + k * stride_hash_string str ss) % ss.size)).Perm
        (List.range ss.size) ∧
    (∀ e, e < ss.size → ∃! k, k < ss.size ∧
      (hash_string str ss + k * stride_hash_string str ss) % ss.size = e) := by
  have h2 : 2 ≤ ss.size := hp.two_le
  obtain ⟨hs1, hs2⟩ := stride_hash_string_range str ss h2
  have hh := hash_string_lt str ss (by omega)
  refine ⟨hs1, by omega, hh, rfl, probe_iterate _ _ _ hh, ?_, ?_⟩
  · rw [List.perm_ext_iff_of_nodup ?_ (List.nodup_range _)]
    · intro e
      rw [List.mem_map, List.mem_range]
      constructor
      · rintro ⟨k, _, rfl⟩
        exact Nat.mod_lt _ (by omega)
      · intro he
        obtain ⟨k, hk, hke⟩ := probe_cover ss.size (hash_string str ss)
          (stride_hash_string str ss) hp hs1 hs2 e he
        exact ⟨k, List.mem_range.2 hk, hke⟩
    · apply List.Nodup.map_on ?_ (List.nodup_range _)
      intro k1 hk1 k2 hk2 heq
      exact probe_inj ss.size _ _ hp hs1 hs2 k1 k2 (List.mem_range.1 hk1)
        (List.mem_range.1 hk2) heq
  · intro e he
    obtain ⟨k, hk, hke⟩ := probe_cover ss.size (hash_string str ss)
      (stride_hash_string str ss) hp hs1 hs2 e he
    refine ⟨k, ⟨hk, hke⟩, ?_⟩
    rintro k2 ⟨hk2, hke2⟩
    exact probe_inj ss.size _ _ hp hs1 hs2 k2 k hk2 hk (by rw [hke, hke2])

/-- Witness for C32: the string `"S"` in a new set (of size 101). -/
theorem C32_probe_coverage_witness :
    Nat.Prime string_set_create.size ∧
    (1 ≤ stride_hash_string ['S'] string_set_create ∧
    stride_hash_string ['S'] string_set_create ≤ string_set_create.size - 1 ∧
    hash_string ['S'] string_set_create < string_set_create.size ∧
    find_place ['S'] string_set_create
      = find_place_loop ['S'] string_set_create (stride_hash_string ['S'] string_set_create)
          string_set_create.size (hash_string ['S'] string_set_create) ∧
    (∀ k, Nat.iterate
        (fun i => (i + stride_hash_string ['S'] string_set_create) % string_set_create.size) k
        (hash_string ['S'] string_set_create)
      = (hash_string ['S'] string_set_create + k * stride_hash_string ['S'] string_set_create)
          % string_set_create.size) ∧
    ((List.range string_set_create.size).map
      (fun k => (hash_string ['S'] string_set_create
        + k * stride_hash_string ['S'] string_set_create) % string_set_create.size)).Perm
        (List.range string_set_create.size) ∧
    (∀ e, e < string_set_create.size → ∃! k, k < string_set_create.size ∧
      (hash_string ['S'] string_set_create + k * stride_hash_string ['S'] string_set_create)
        % string_set_create.size = e)) :=
  ⟨SS_inv_create.1.prime, C32_probe_coverage string_set_create ['S'] SS_inv_create.1.prime⟩

/-! ## The string set: the hash formulas -/

theorem hash_loop_formula (base size : Nat) (hpos : 0 < size)
    (hfit : base * size + 255 < 4294967296 + base) (f : List Char → Nat → Nat)
    (hnil : ∀ accum, f [] accum = accum)
    (hcons : ∀ c str accum,
      f (c :: str) accum = f str (((base * accum + c.toNat) % 4294967296) % size)) :
    ∀ (s : List Char) (accum : Nat), accum < size → (∀ c ∈ s, c.toNat < 256) →
      f s accum % size = (accum * base ^ s.length + hash_formula base s) % size := by
  intro s
  induction s with
  | nil => intro accum _ _; simp [hnil, hash_formula]
  | cons c str ih =>
    intro accum hacc hbytes
    have hc : c.toNat < 256 := hbytes c (List.mem_cons_self _ _)
    have hnowrap : base * accum + c.toNat < 4294967296 := by
      have h1 : base * (accum + 1) ≤ base * size := Nat.mul_le_mul_left _ hacc
      have h2 : base * (accum + 1) = base * accum + base := by ring
      rw [h2] at h1
      omega
    rw [hcons, Nat.mod_eq_of_lt hnowrap,
      ih _ (Nat.mod_lt _ hpos) (fun x hx => hbytes x (List.mem_cons_of_mem _ hx))]
    have hmod : (base * accum + c.toNat) % size * base ^ str.length + hash_formula base str
        ≡ (base * accum + c.toNat) * base ^ str.length + hash_formula base str [MOD size] :=
      ((Nat.mod_modEq _ _).mul_right _).add_right _
    rw [hmod]
    congr 1
    simp only [hash_formula, List.length_cons, pow_succ]
    ring

/-- C33, hash formulas: for a size with `256 * size` below `2^32` and a byte
string `b1 .. bn`, `hash_string` is `(b1 * 256^(n-1) + ... + bn) % size` and
`stride_hash_string` is `(b1 * 17^(n-1) + ... + bn) % size`, replaced by 1
when that is 0; the empty string has hash 0 and stride 1. -/
theorem C33_hash_formulas (ss : String_set) (s : List Char) (hpos : 0 < ss.size)
    (hfit : 256 * ss.size < 4294967296) (hbytes : ∀ c ∈ s, c.toNat < 256) :
    hash_string s ss = hash_formula 256 s % ss.size ∧
    stride_hash_string s ss
      = (if hash_formula 17 s % ss.size = 0 then 1 else hash_formula 17 s % ss.size) ∧
    hash_string [] ss = 0 ∧ stride_hash_string [] ss = 1 := by
  have h1 := hash_loop_formula 256 ss.size hpos (by omega)
    (hash_string_loop ss.size) (fun _ => rfl) (fun _ _ _ => rfl) s 0 hpos hbytes
  have h2 := hash_loop_formula 17 ss.size hpos (by omega)
    (stride_hash_string_loop ss.size) (fun _ => rfl) (fun _ _ _ => rfl) s 0 hpos hbytes
  have l1 := hash_string_loop_lt ss.size hpos s 0 hpos
  have l2 := stride_hash_string_loop_lt ss.size hpos s 0 hpos
  rw [Nat.mod_eq_of_lt l1] at h1
  rw [Nat.mod_eq_of_lt l2] at h2
  simp only [Nat.zero_mul, Nat.zero_add] at h1 h2
  refine ⟨h1, ?_, rfl, rfl⟩
  unfold stride_hash_string
  simp only [h2]

/-- Witness for C33: the string `"MVp"` in a new set (of size 101) has hash
`(77 * 256^2 + 86 * 256 + 112) % 101 = 18` and stride
`(77 * 17^2 + 86 * 17 + 112) % 101 = 92`. -/
theorem C33_hash_formulas_witness :
    0 < string_set_create.size ∧ 256 * string_set_create.size < 4294967296 ∧
    (∀ c ∈ ['M', 'V', 'p'], c.toNat < 256) ∧
    hash_formula 256 ['M', 'V', 'p'] = 77 * 256 ^ 2 + 86 * 256 + 112 ∧
    hash_string ['M', 'V', 'p'] string_set_create = 18 ∧
    stride_hash_string ['M', 'V', 'p'] string_set_create = 92 ∧
    (hash_string ['M', 'V', 'p'] string_set_create
      = hash_formula 256 ['M', 'V', 'p'] % string_set_create.size ∧
    stride_hash_string ['M', 'V', 'p'] string_set_create
      = (if hash_formula 17 ['M', 'V', 'p'] % string_set_create.size = 0 then 1
          else hash_formula 17 ['M', 'V', 'p'] % string_set_create.size) ∧
    hash_string [] string_set_create = 0 ∧ stride_hash_string [] string_set_create = 1) :=
  ⟨by decide, by decide, by decide, by decide, by decide, by decide,
    C33_hash_formulas string_set_create ['M', 'V', 'p'] (by decide) (by decide) (by decide)⟩

/-! ## The string set: `next_prime_up` on all inputs -/

/-- The arguments 2 and 3, which the code never passes, give 5: the input is
made odd first (`start | 1`), and for 3 the inner loop is left at once with
`i = 3`, so the test `start % i == 0` after the loop holds. -/
theorem next_prime_up_small : next_prime_up 2 = 5 ∧ next_prime_up 3 = 5 := by
  constructor <;> decide

/-- The slot `find_place_loop` returns is the first slot of the probe
sequence that is empty or holds `str`. -/
theorem find_place_loop_first (str : List Char) (ss : String_set) (s : Nat) :
    ∀ fuel i j, i < ss.size → find_place_loop str ss s fuel i = some j →
      ∃ k, k < fuel ∧ j = (i + k * s) % ss.size ∧
        ∀ k1, k1 < k → ∃ p, ss.table[(i + k1 * s) % ss.size]? = some (some p) ∧ p.bytes ≠ str := by
  intro fuel
  induction fuel with
  | zero => intro i j _ h; simp [find_place_loop] at h
  | succ fuel ih =>
    intro i j hi h
    unfold find_place_loop at h
    split at h
    · cases h
    · cases h
      exact ⟨0, by omega, by simp [Nat.mod_eq_of_lt hi], fun k1 hk1 => by omega⟩
    · rename_i p hx
      split at h
      · cases h
        exact ⟨0, by omega, by simp [Nat.mod_eq_of_lt hi], fun k1 hk1 => by omega⟩
      · rename_i hb
        obtain ⟨k, hk, hj, hbefore⟩ := ih _ _ (Nat.mod_lt _ (by omega)) h
        have hidx : ∀ m, ((i + s) % ss.size + m * s) % ss.size = (i + (m + 1) * s) % ss.size := by
          intro m
          rw [Nat.add_mod, Nat.mod_mod, ← Nat.add_mod]
          congr 1
          ring
        refine ⟨k + 1, by omega, by rw [hj, hidx], ?_⟩
        intro k1 hk1
        cases k1 with
        | zero =>
          simp only [Nat.zero_mul, Nat.add_zero, Nat.mod_eq_of_lt hi]
          exact ⟨p, hx, hb⟩
        | succ m =>
          rw [← hidx]
          exact hbefore m (by omega)

/-- A larger bound on the number of probes does not change a result. -/
theorem find_place_loop_fuel (str : List Char) (ss : String_set) (s : Nat) :
    ∀ fuel i j n, find_place_loop str ss s fuel i = some j →
      find_place_loop str ss s (fuel + n) i = some j := by
  intro fuel
  induction fuel with
  | zero => intro i j n h; simp [find_place_loop] at h
  | succ fuel ih =>
    intro i j n h
    rw [show fuel + 1 + n = (fuel + n) + 1 by omega]
    unfold find_place_loop at h ⊢
    split at h
    · cases h
    · exact h
    · split at h
      · rename_i hb; rw [if_pos hb]; exact h
      · rename_i hb; rw [if_neg hb]; exact ih _ _ n h

/-- C35, `find_place` terminates: in a set of prime size whose table has
`size` slots, one of them empty, `find_place` returns within `size` probes (and
returns the same with any larger bound on the probes); the slot returned is in
`[0, size)`, is empty or holds `str`, and is the first such slot of the probe
sequence: every slot probed before it holds a string different from `str`. -/
theorem C35_find_place_terminates (ss : String_set) (str : List Char)
    (hp : Nat.Prime ss.size) (hlen : ss.table.length = ss.size)
    (hempty : ∃ e, e < ss.size ∧ ss.table[e]? = some none) :
    ∃ i, find_place str ss = some i ∧ i < ss.size ∧
      (ss.table[i]? = some none ∨ ∃ p, ss.table[i]? = some (some p) ∧ p.bytes = str) ∧
      (∀ n, find_place_loop str ss (stride_hash_string str ss) (ss.size + n)
        (hash_string str ss) = some i) ∧
      ∃ k, k < ss.size ∧
        i = (hash_string str ss + k * stride_hash_string str ss) % ss.size ∧
        ∀ k1, k1 < k → ∃ p,
          ss.table[(hash_string str ss + k1 * stride_hash_string str ss) % ss.size]?
            = some (some p) ∧ p.bytes ≠ str := by
  have h2 : 2 ≤ ss.size := hp.two_le
  obtain ⟨e, he, hnone⟩ := hempty
  obtain ⟨hs1, hs2⟩ := stride_hash_string_range str ss h2
  have hh := hash_string_lt str ss (by omega)
  obtain ⟨k, hk, hke⟩ := probe_cover ss.size (hash_string str ss) (stride_hash_string str ss)
    hp hs1 hs2 e he
  obtain ⟨i, hi⟩ := find_place_loop_total str ss (stride_hash_string str ss) hlen ss.size
    (hash_string str ss) hh ⟨k, hk, by rw [hke]; exact hnone⟩
  obtain ⟨k0, hk0, hik, hbefore⟩ := find_place_loop_first str ss _ _ _ _ hh hi
  refine ⟨i, hi, by rw [hik]; exact Nat.mod_lt _ (by omega),
    find_place_loop_hit str ss _ _ _ _ hi, fun n => find_place_loop_fuel str ss _ _ _ _ n hi,
    k0, hk0, hik, hbefore⟩

/-- Witness for C35: the search for `"MVp"` in the set that holds `"S"`. -/
theorem C35_find_place_terminates_witness :
    Nat.Prime ss_S.size ∧ ss_S.table.length = ss_S.size ∧
    (∃ e, e < ss_S.size ∧ ss_S.table[e]? = some none) ∧
    find_place ['M', 'V', 'p'] ss_S = some 18 ∧
    ∃ i, find_place ['M', 'V', 'p'] ss_S = some i ∧ i < ss_S.size ∧
      (ss_S.table[i]? = some none ∨
        ∃ p, ss_S.table[i]? = some (some p) ∧ p.bytes = ['M', 'V', 'p']) ∧
      (∀ n, find_place_loop ['M', 'V', 'p'] ss_S (stride_hash_string ['M', 'V', 'p'] ss_S)
        (ss_S.size + n) (hash_string ['M', 'V', 'p'] ss_S) = some i) ∧
      ∃ k, k < ss_S.size ∧
        i = (hash_string ['M', 'V', 'p'] ss_S
          + k * stride_hash_string ['M', 'V', 'p'] ss_S) % ss_S.size ∧
        ∀ k1, k1 < k → ∃ p,
          ss_S.table[(hash_string ['M', 'V', 'p'] ss_S
            + k1 * stride_hash_string ['M', 'V', 'p'] ss_S) % ss_S.size]?
            = some (some p) ∧ p.bytes ≠ ['M', 'V', 'p'] :=
  have hwf : SS_wf ss_S :=
    (Adds_create_spec [['S']] ss_S
      (Adds.step (a := 0) (p := ⟨0, ['S']⟩) Adds.refl (by decide) (by rfl))).1.1
  ⟨hwf.prime, hwf.len, ⟨0, by decide, by decide⟩, by decide,
    C35_find_place_terminates ss_S ['M', 'V', 'p'] hwf.prime hwf.len
      ⟨0, by decide, by decide⟩⟩

/-! ## Clause costs: bounds on maxcost -/

mutual
theorem expansion_maxcost_le_cost (e : Exp) :
    ∀ a ∈ expansion e, 0 ≤ a.maxcost ∧ a.maxcost ≤ a.cost := by
  cases e with
  | CONNECTOR cost dir multi string =>
    intro a ha
    simp only [expansion, List.mem_singleton] at ha
    subst ha
    simp only [add_cost]
    omega
  | AND cost l =>
    intro a ha
    rw [expansion] at ha
    obtain ⟨b, hb, rfl⟩ := List.mem_map.1 ha
    have := expansion_and_maxcost_le_cost l b hb
    simp only [add_cost]
    omega
  | OR cost l =>
    intro a ha
    rw [expansion] at ha
    obtain ⟨b, hb, rfl⟩ := List.mem_map.1 ha
    have := expansion_or_maxcost_le_cost l b hb
    simp only [add_cost]
    omega
  | no_type cost l => intro a ha; simp [expansion] at ha
theorem expansion_and_maxcost_le_cost (l : E_list) :
    ∀ a ∈ expansion_and l, 0 ≤ a.maxcost ∧ a.maxcost ≤ a.cost := by
  cases l with
  | nil =>
    intro a ha
    simp only [expansion_and, List.mem_singleton] at ha
    subst ha
    exact ⟨le_refl _, le_refl _⟩
  | cons e next =>
    intro a ha
    simp only [expansion_and, List.mem_flatMap, List.mem_map] at ha
    obtain ⟨c3, h3, c4, h4, rfl⟩ := ha
    have i3 := expansion_maxcost_le_cost e c3 h3
    have i4 := expansion_and_maxcost_le_cost next c4 h4
    simp only [and_clause]
    refine ⟨le_trans i3.1 (le_max_left _ _), max_le ?_ ?_⟩ <;> omega
theorem expansion_or_maxcost_le_cost (l : E_list) :
    ∀ a ∈ expansion_or l, 0 ≤ a.maxcost ∧ a.maxcost ≤ a.cost := by
  cases l with
  | nil => intro a ha; simp [expansion_or] at ha
  | cons e next =>
    intro a ha
    simp only [expansion_or, List.mem_append] at ha
    rcases ha with h | h
    · exact expansion_maxcost_le_cost e a h
    · exact expansion_or_maxcost_le_cost next a h
end

/-- C36, bounds on maxcost: every clause `build_clause` returns has
`0 ≤ maxcost ≤ cost` (the node costs are natural numbers), with
`maxcost = cost` when no AND node of the expression has more than one child;
and a disjunct kept by `build_disjunct` with cutoff `k` may cost more than
`k`: for `([A+] & [[B+]])` and cutoff 2 the one disjunct is kept and has
cost 3. -/
theorem C36_maxcost_bounds (e : Exp) (k : Int) (cl : List Clause)
    (h : build_clause e k = Except.ok cl) :
    (∀ C ∈ cl, 0 ≤ C.maxcost ∧ C.maxcost ≤ C.cost) ∧
    (and_at_most_one e = true → ∀ C ∈ cl, C.maxcost = C.cost) ∧
    (∃ (cl2 : List Clause) (d : Disjunct),
      build_clause exp_and_costs 2 = Except.ok cl2 ∧
      build_disjunct consts0 cl2 "w" 2 = [d] ∧ d.cost = 3 ∧ (2 : Int) < d.cost) := by
  have hwt : well_typed e = true := by
    by_contra hne
    obtain ⟨msg, hm⟩ := build_clause_error e k (by simpa using hne)
    rw [hm] at h
    cases h
  obtain ⟨cl1, h1, h2⟩ := build_clause_perm e k hwt
  rw [h] at h1
  cases h1
  refine ⟨fun C hC => expansion_maxcost_le_cost e C (h2.mem_iff.1 hC),
    fun hand C hC => expansion_maxcost_eq_cost e hand C (h2.mem_iff.1 hC), ?_⟩
  exact ⟨_, _, rfl, rfl, rfl, by decide⟩

/-- Witness for C36 on the expression `([A+] & [[B+]])`: the one clause has
cost 3 and maxcost 2. -/
theorem C36_maxcost_bounds_witness :
    build_clause exp_and_costs 2
      = Except.ok [{ cost := 3, maxcost := 2,
                     c := [{ multi := false, dir := '+', string := "A" },
                           { multi := false, dir := '+', string := "B" }] }] ∧
    ((∀ C ∈ [({ cost := 3, maxcost := 2,
                c := [{ multi := false, dir := '+', string := "A" },
                      { multi := false, dir := '+', string := "B" }] } : Clause)],
        0 ≤ C.maxcost ∧ C.maxcost ≤ C.cost) ∧
    (and_at_most_one exp_and_costs = true →
      ∀ C ∈ [({ cost := 3, maxcost := 2,
                c := [{ multi := false, dir := '+', string := "A" },
                      { multi := false, dir := '+', string := "B" }] } : Clause)],
        C.maxcost = C.cost) ∧
    (∃ (cl2 : List Clause) (d : Disjunct),
      build_clause exp_and_costs 2 = Except.ok cl2 ∧
      build_disjunct consts0 cl2 "w" 2 = [d] ∧ d.cost = 3 ∧ (2 : Int) < d.cost)) :=
  ⟨by rfl, C36_maxcost_bounds exp_and_costs 2 _ (by rfl)⟩

/-! ## The fast matcher: the bucket index is in range -/

theorem table_get_in_range (H : HashConsts) (c : Connector) (size : Int) (k : Nat)
    (hsize : size = (2 : Int) ^ k) (t : List (List Match_node)) (hlen : t.length = 2 ^ k) :
    0 ≤ Int.land (fast_match_hash H c) (size - 1) ∧
    Int.land (fast_match_hash H c) (size - 1) < size ∧
    (Int.land (fast_match_hash H c) (size - 1)).toNat < t.length ∧
    ∃ b, table_get t (Int.land (fast_match_hash H c) (size - 1)) = some b := by
  obtain ⟨h1, h2⟩ := table_index_lt H c size k hsize (2 ^ k) rfl
  have h3 : Int.land (fast_match_hash H c) (size - 1) < size := by
    rw [hsize]; exact land_mask_lt _ k
  refine ⟨h1, h3, by rw [hlen]; exact h2, ?_⟩
  unfold table_get
  rw [if_pos h1, List.getElem?_eq_getElem (by rw [hlen]; exact h2)]
  exact ⟨_, rfl⟩

/-- C37, bucket index in range: `init_fast_matcher` returns (no table access of
`put_into_match_table` is out of bounds), and for every word of the sentence
the two table sizes are powers of two, the tables have that many slots, and
for every connector `c`, whatever its hash (the hash constants are arbitrary,
so it may be negative or may have wrapped), the index
`fast_match_hash(c) & (size - 1)` is in `[0, size)` and the bucket read by
`form_match_list` exists; for every integer `h`, negative ones included, the
masked value `h & (2^k - 1)` is in `[0, 2^k)`. -/
theorem C37_bucket_index_in_range (H : HashConsts) (sent : Sentence) (st : Matcher) :
    (∃ st1, init_fast_matcher H sent st = some st1 ∧
      ∀ (w : Nat) (wd : Word), sent.word[w]? = some wd →
        ∃ (lsize rsize : Int) (lt rt : List (List Match_node)) (kl kr : Nat),
          st1.l_table_size[w]? = some lsize ∧ st1.r_table_size[w]? = some rsize ∧
          st1.l_table[w]? = some lt ∧ st1.r_table[w]? = some rt ∧
          lsize = (2 : Int) ^ kl ∧ rsize = (2 : Int) ^ kr ∧ 1 ≤ lsize ∧ 1 ≤ rsize ∧
          lt.length = lsize.toNat ∧ rt.length = rsize.toNat ∧
          ∀ c : Connector,
            0 ≤ Int.land (fast_match_hash H c) (lsize - 1) ∧
            Int.land (fast_match_hash H c) (lsize - 1) < lsize ∧
            (Int.land (fast_match_hash H c) (lsize - 1)).toNat < lt.length ∧
            0 ≤ Int.land (fast_match_hash H c) (rsize - 1) ∧
            Int.land (fast_match_hash H c) (rsize - 1) < rsize ∧
            (Int.land (fast_match_hash H c) (rsize - 1)).toNat < rt.length ∧
            (∃ b, bucket_for H st1.l_table_size st1.l_table w (some c) = some b) ∧
            (∃ b, bucket_for H st1.r_table_size st1.r_table w (some c) = some b)) ∧
    (∀ (h : Int) (k : Nat),
      0 ≤ Int.land h ((2 : Int) ^ k - 1) ∧ Int.land h ((2 : Int) ^ k - 1) < (2 : Int) ^ k) := by
  refine ⟨?_, fun h k => ⟨land_mask_nonneg h k, land_mask_lt h k⟩⟩
  obtain ⟨st1, h1, _, _, h2⟩ := init_fast_matcher_ok H sent st
  refine ⟨st1, h1, fun w wd hw => ?_⟩
  obtain ⟨wt, h3, h4, h5, h6, hl, hr, hll, hrl, _⟩ := h2 w wd hw
  obtain ⟨kl, hkl, _, _⟩ := next_power_of_two_up_spec (left_disjunct_list_length wd.d)
  obtain ⟨kr, hkr, _, _⟩ := next_power_of_two_up_spec (right_disjunct_list_length wd.d)
  have hls : wt.l_size = (2 : Int) ^ kl := hl.trans hkl
  have hrs : wt.r_size = (2 : Int) ^ kr := hr.trans hkr
  have hllen : wt.l_table.length = 2 ^ kl := by rw [hll, hls, two_pow_toNat]
  have hrlen : wt.r_table.length = 2 ^ kr := by rw [hrl, hrs, two_pow_toNat]
  refine ⟨wt.l_size, wt.r_size, wt.l_table, wt.r_table, kl, kr, h3, h4, h5, h6, hls, hrs,
    ?_, ?_, hll, hrl, fun c => ?_⟩
  · rw [hls]; exact one_le_pow₀ (by decide)
  · rw [hrs]; exact one_le_pow₀ (by decide)
  · obtain ⟨a1, a2, a3, a4⟩ := table_get_in_range H c wt.l_size kl hls wt.l_table hllen
    obtain ⟨b1, b2, b3, b4⟩ := table_get_in_range H c wt.r_size kr hrs wt.r_table hrlen
    refine ⟨a1, a2, a3, b1, b2, b3, ?_, ?_⟩
    · simp only [bucket_for, h3, h5]
      exact a4
    · simp only [bucket_for, h4, h6]
      exact b4

/-! ## The match nodes in memory: lists -/

theorem set_cell_eq (cells : Nat → Option Cell) (a : Nat) (c : Cell) :
    set_cell cells a c a = some c := by
  simp [set_cell]

theorem set_cell_ne (cells : Nat → Option Cell) (a b : Nat) (c : Cell) (h : b ≠ a) :
    set_cell cells a c b = cells b := by
  simp [set_cell, h]

theorem is_list_nil (cells : Nat → Option Cell) (p : Option Nat) :
    is_list cells p [] = true ↔ p = none := by
  cases p <;> simp [is_list]

theorem is_list_cons (cells : Nat → Option Cell) (p : Option Nat) (a : Nat) (d : DisjunctPtr)
    (rest : List (Nat × DisjunctPtr)) :
    is_list cells p ((a, d) :: rest) = true ↔
      p = some a ∧ ∃ nx, cells a = some { d := d, next := nx } ∧ is_list cells nx rest = true := by
  cases p with
  | none => simp [is_list]
  | some b =>
    simp only [is_list, Option.some.injEq]
    constructor
    · intro h
      split at h
      · rename_i c hc
        simp only [Bool.and_eq_true, decide_eq_true_eq] at h
        obtain ⟨⟨h1, h2⟩, h3⟩ := h
        subst h1
        refine ⟨rfl, c.next, ?_, h3⟩
        rw [hc, ← h2]
      · cases h
    · rintro ⟨rfl, nx, hc, h3⟩
      rw [hc]
      simp [h3]

theorem is_list_congr (cells cells1 : Nat → Option Cell) :
    ∀ (l : List (Nat × DisjunctPtr)) (p : Option Nat),
      (∀ a ∈ addrs l, cells1 a = cells a) → is_list cells p l = true →
      is_list cells1 p l = true := by
  intro l
  induction l with
  | nil => intro p _ h; rw [is_list_nil] at h ⊢; exact h
  | cons x rest ih =>
    intro p hsame h
    obtain ⟨a, d⟩ := x
    rw [is_list_cons] at h ⊢
    obtain ⟨hp, nx, hc, hrest⟩ := h
    refine ⟨hp, nx, ?_, ih nx (fun b hb => hsame b (List.mem_cons_of_mem _ hb)) hrest⟩
    rw [hsame a (List.mem_cons_self _ _), hc]

theorem is_list_set_cell (cells : Nat → Option Cell) (a : Nat) (c : Cell)
    (l : List (Nat × DisjunctPtr)) (p : Option Nat) (ha : a ∉ addrs l)
    (h : is_list cells p l = true) : is_list (set_cell cells a c) p l = true :=
  is_list_congr cells _ l p
    (fun b hb => set_cell_ne cells a b c (fun hba => ha (hba ▸ hb))) h

theorem addrs_cons (x : Nat × DisjunctPtr) (l : List (Nat × DisjunctPtr)) :
    addrs (x :: l) = x.1 :: addrs l := rfl

theorem addrs_append (l1 l2 : List (Nat × DisjunctPtr)) :
    addrs (l1 ++ l2) = addrs l1 ++ addrs l2 := by
  simp [addrs]

theorem nodes_cons (x : Nat × DisjunctPtr) (l : List (Nat × DisjunctPtr)) :
    nodes (x :: l) = { d := x.2 } :: nodes l := rfl

theorem nodes_append (l1 l2 : List (Nat × DisjunctPtr)) :
    nodes (l1 ++ l2) = nodes l1 ++ nodes l2 := by
  simp [nodes]

/-- The function `get_match_node` on a well-formed free list: the cell it
returns is one of the pool and leaves the pool. -/
theorem h_get_match_node_spec (st : Heap_matcher) (fl : List (Nat × DisjunctPtr))
    (h : pool_ok st fl) :
    ∃ my st1 fl1, h_get_match_node st = some (my, st1) ∧ pool_ok st1 fl1 ∧
      in_pool st fl my ∧ (∀ a, in_pool st1 fl1 a ↔ (in_pool st fl a ∧ a ≠ my)) ∧
      (∀ a, a ≠ my → st1.cells a = st.cells a) ∧
      st1.match_cost = st.match_cost ∧ same_tables st st1 := by
  obtain ⟨hl, hnd, hlt⟩ := h
  cases fl with
  | nil =>
    rw [is_list_nil] at hl
    refine ⟨st.brk,
      { st with cells := set_cell st.cells st.brk { d := xalloc_Match_node.d, next := none }
                brk := st.brk + 1 }, [], by simp [h_get_match_node, hl], ?_,
      Or.inr (le_refl _), ?_, ?_, rfl, ⟨rfl, rfl, rfl, rfl⟩⟩
    · refine ⟨?_, List.nodup_nil, fun a ha => by simp [addrs] at ha⟩
      rw [is_list_nil]
      exact hl
    · intro a
      simp only [in_pool, addrs, List.map_nil, List.not_mem_nil, false_or]
      omega
    · intro a ha
      exact set_cell_ne _ _ _ _ ha
  | cons x fl1 =>
    obtain ⟨m, d⟩ := x
    rw [is_list_cons] at hl
    obtain ⟨hp, nx, hc, hrest⟩ := hl
    rw [addrs_cons, List.nodup_cons] at hnd
    have hm : m < st.brk := hlt m (List.mem_cons_self _ _)
    refine ⟨m, { st with mn_free_list := nx }, fl1, by simp [h_get_match_node, hp, hc],
      ⟨hrest, hnd.2, fun a ha => hlt a (List.mem_cons_of_mem _ ha)⟩,
      Or.inl (List.mem_cons_self _ _), ?_, fun _ _ => rfl, rfl, ⟨rfl, rfl, rfl, rfl⟩⟩
    intro a
    simp only [in_pool, addrs_cons, List.mem_cons]
    constructor
    · rintro (h1 | h1)
      · exact ⟨Or.inl (Or.inr h1), fun hab => hnd.1 (hab ▸ h1)⟩
      · exact ⟨Or.inr h1, by omega⟩
    · rintro ⟨(h1 | h1) | h1, h2⟩
      · exact absurd h1 h2
      · exact Or.inl h1
      · exact Or.inr h1

/-! ## The match nodes in memory: the loops of `form_match_list` -/

/-- A copy loop of `form_match_list` on memory lists: it returns, the new
list consists of cells of the pool in front of the old `front`, it holds the
disjuncts of the bucket up to the break in reverse order, and no cell outside
the pool is written. -/
theorem h_copy_loop_spec (stop : DisjunctPtr → Option Bool) (keep : Match_node → Bool) :
    ∀ (B : List (Nat × DisjunctPtr)) (fuel : Nat) (mx front : Option Nat) (st : Heap_matcher)
      (Fr fl : List (Nat × DisjunctPtr)),
      pool_ok st fl → is_list st.cells mx B = true → is_list st.cells front Fr = true →
      (addrs Fr).Nodup → (∀ a ∈ addrs B, ¬ in_pool st fl a) →
      (∀ a ∈ addrs Fr, ¬ in_pool st fl a) →
      (∀ x ∈ B, stop x.2 = some (!keep { d := x.2 })) → B.length < fuel →
      ∃ front1 st1 Fr1 fl1, h_copy_loop stop fuel mx front st = some (front1, st1) ∧
        pool_ok st1 fl1 ∧ is_list st1.cells front1 Fr1 = true ∧ (addrs Fr1).Nodup ∧
        (∀ a ∈ addrs Fr1, ¬ in_pool st1 fl1 a) ∧
        (∀ a ∈ addrs Fr1, a ∈ addrs Fr ∨ in_pool st fl a) ∧
        (∀ a, in_pool st1 fl1 a → in_pool st fl a) ∧
        (∀ a, ¬ in_pool st fl a → st1.cells a = st.cells a) ∧
        nodes Fr1 = ((nodes B).takeWhile keep).reverse ++ nodes Fr ∧
        st1.match_cost = st.match_cost ∧ same_tables st st1 := by
  intro B
  induction B with
  | nil =>
    intro fuel mx front st Fr fl hp hB hFr hnd _ hFrp _ hfuel
    rw [is_list_nil] at hB
    subst hB
    obtain ⟨f, rfl⟩ : ∃ f, fuel = f + 1 := ⟨fuel - 1, by simp at hfuel; omega⟩
    exact ⟨front, st, Fr, fl, rfl, hp, hFr, hnd, hFrp, fun a ha => Or.inl ha, fun a ha => ha,
      fun a _ => rfl, by simp [nodes], rfl, ⟨rfl, rfl, rfl, rfl⟩⟩
  | cons x B ih =>
    intro fuel mx front st Fr fl hp hB hFr hnd hBp hFrp hstop hfuel
    obtain ⟨a, d⟩ := x
    rw [is_list_cons] at hB
    obtain ⟨rfl, nx, hc, hrest⟩ := hB
    obtain ⟨f, rfl⟩ : ∃ f, fuel = f + 1 := ⟨fuel - 1, by simp at hfuel; omega⟩
    have hs := hstop (a, d) (List.mem_cons_self _ _)
    simp only at hs
    cases hk : keep { d := d } with
    | false =>
      rw [hk] at hs
      refine ⟨front, st, Fr, fl, by simp [h_copy_loop, hc, hs], hp, hFr, hnd, hFrp,
        fun a ha => Or.inl ha, fun a ha => ha, fun a _ => rfl, ?_, rfl, ⟨rfl, rfl, rfl, rfl⟩⟩
      simp [nodes_cons, List.takeWhile_cons, hk]
    | true =>
      rw [hk] at hs
      obtain ⟨my, st1, fl1, hget, hp1, hin, hpool, hcells, hmc, htab⟩ :=
        h_get_match_node_spec st fl hp
      have hane : a ≠ my := fun h => hBp a (List.mem_cons_self _ _) (h ▸ hin)
      have hc1 : st1.cells a = some { d := d, next := nx } := by rw [hcells a hane, hc]
      have hc2 : set_cell st1.cells my { d := d, next := front } a
          = some { d := d, next := nx } := by rw [set_cell_ne _ _ _ _ hane, hc1]
      have hFrmy : my ∉ addrs Fr := fun h => hFrp my h hin
      have hBmy : my ∉ addrs B := fun h => hBp my (List.mem_cons_of_mem _ h) hin
      have hsame : ∀ (l : List (Nat × DisjunctPtr)) (p : Option Nat), my ∉ addrs l →
          (∀ b ∈ addrs l, b ≠ my → st1.cells b = st.cells b) →
          is_list st.cells p l = true →
          is_list (set_cell st1.cells my { d := d, next := front }) p l = true := by
        intro l p hmy hl hlist
        apply is_list_congr st.cells _ l p ?_ hlist
        intro b hb
        have hbm : b ≠ my := fun h => hmy (h ▸ hb)
        rw [set_cell_ne _ _ _ _ hbm, hl b hb hbm]
      have hp2 : pool_ok { st1 with cells := set_cell st1.cells my { d := d, next := front } }
          fl1 := by
        obtain ⟨q1, q2, q3⟩ := hp1
        refine ⟨is_list_set_cell _ _ _ _ _ ?_ q1, q2, q3⟩
        intro hmem
        exact ((hpool my).1 (Or.inl hmem)).2 rfl
      obtain ⟨front1, st3, Fr1, fl3, e1, e2, e3, e4, e5, e6, e7, e8, e9, e10, e11⟩ :=
        ih f nx (some my)
          { st1 with cells := set_cell st1.cells my { d := d, next := front } }
          ((my, d) :: Fr) fl1 hp2
          (hsame B nx hBmy (fun b _ hb => hcells b hb) hrest)
          (by
            rw [is_list_cons]
            exact ⟨rfl, front, set_cell_eq _ _ _,
              hsame Fr front hFrmy (fun b _ hb => hcells b hb) hFr⟩)
          (by rw [addrs_cons]; exact List.nodup_cons.2 ⟨hFrmy, hnd⟩)
          (fun b hb hpb => hBp b (List.mem_cons_of_mem _ hb) ((hpool b).1 hpb).1)
          (by
            intro b hb hpb
            rw [addrs_cons, List.mem_cons] at hb
            rcases hb with rfl | hb
            · exact ((hpool _).1 hpb).2 rfl
            · exact hFrp b hb ((hpool b).1 hpb).1)
          (fun x hx => hstop x (List.mem_cons_of_mem _ hx))
          (by simp only [List.length_cons] at hfuel; omega)
      refine ⟨front1, st3, Fr1, fl3, ?_, e2, e3, e4, e5, ?_, ?_, ?_, ?_, ?_, ?_⟩
      · simp only [h_copy_loop, hc, hs, hget, hc1, hc2]
        exact e1
      · intro b hb
        rcases e6 b hb with h1 | h1
        · rw [addrs_cons, List.mem_cons] at h1
          rcases h1 with rfl | h1
          · exact Or.inr hin
          · exact Or.inl h1
        · exact Or.inr ((hpool b).1 h1).1
      · exact fun b hb => ((hpool b).1 (e7 b hb)).1
      · intro b hb
        have hbm : b ≠ my := fun h => hb (h ▸ hin)
        rw [e8 b (fun h => hb ((hpool b).1 h).1)]
        show set_cell st1.cells my _ b = st.cells b
        rw [set_cell_ne _ _ _ _ hbm, hcells b hbm]
      · rw [e9]
        simp [nodes_cons, List.takeWhile_cons, hk]
      · rw [e10]; exact hmc
      · obtain ⟨t1, t2, t3, t4⟩ := e11
        obtain ⟨u1, u2, u3, u4⟩ := htab
        exact ⟨t1.trans u1, t2.trans u2, t3.trans u3, t4.trans u4⟩

theorem h_scan_ml_spec (d : DisjunctPtr) (cells : Nat → Option Cell) :
    ∀ (Ml : List (Nat × DisjunctPtr)) (fuel : Nat) (my : Option Nat) (cost : Int),
      is_list cells my Ml = true → Ml.length < fuel →
      h_scan_ml d cells fuel my cost = some (scan_ml { d := d } (nodes Ml) cost) := by
  intro Ml
  induction Ml with
  | nil =>
    intro fuel my cost h hfuel
    rw [is_list_nil] at h
    subst h
    obtain ⟨f, rfl⟩ : ∃ f, fuel = f + 1 := ⟨fuel - 1, by simp at hfuel; omega⟩
    rfl
  | cons x Ml ih =>
    intro fuel my cost h hfuel
    obtain ⟨a, dy⟩ := x
    rw [is_list_cons] at h
    obtain ⟨rfl, nx, hc, hrest⟩ := h
    obtain ⟨f, rfl⟩ : ∃ f, fuel = f + 1 := ⟨fuel - 1, by simp at hfuel; omega⟩
    simp only [h_scan_ml, hc, nodes_cons, scan_ml]
    by_cases hd : d.addr = dy.addr
    · simp [hd]
    · simp only [hd, if_false]
      exact ih f nx (cost + 1) hrest (by simp only [List.length_cons] at hfuel; omega)

/-- The duplicate elimination on memory lists: it returns, the cells of `mr`
are shared out between the two result lists, the results are those of the
list model, and only cells of `mr` are written. -/
theorem h_eliminate_duplicates_spec (ml : Option Nat) (Ml : List (Nat × DisjunctPtr))
    (fuel_in : Nat) (hin : Ml.length < fuel_in) :
    ∀ (Mr : List (Nat × DisjunctPtr)) (fuel : Nat) (mx front free_later : Option Nat)
      (st : Heap_matcher) (Fr FL : List (Nat × DisjunctPtr)),
      is_list st.cells ml Ml = true → is_list st.cells mx Mr = true →
      is_list st.cells front Fr = true → is_list st.cells free_later FL = true →
      (addrs Mr ++ (addrs Fr ++ addrs FL)).Nodup → (∀ a ∈ addrs Ml, a ∉ addrs Mr) →
      Mr.length < fuel →
      ∃ front1 fl1 st1 Fr1 FL1,
        h_eliminate_duplicates ml fuel_in fuel mx front free_later st = some (front1, fl1, st1) ∧
        is_list st1.cells front1 Fr1 = true ∧ is_list st1.cells fl1 FL1 = true ∧
        (nodes Fr1, nodes FL1, st1.match_cost)
          = eliminate_duplicates (nodes Ml) (nodes Mr) (nodes Fr) (nodes FL) st.match_cost ∧
        (addrs Fr1 ++ addrs FL1).Perm (addrs Mr ++ (addrs Fr ++ addrs FL)) ∧
        (∀ a, a ∉ addrs Mr → st1.cells a = st.cells a) ∧
        st1.mn_free_list = st.mn_free_list ∧ st1.brk = st.brk ∧ same_tables st st1 := by
  intro Mr
  induction Mr with
  | nil =>
    intro fuel mx front free_later st Fr FL _ hMr hFr hFL _ _ hfuel
    rw [is_list_nil] at hMr
    subst hMr
    obtain ⟨f, rfl⟩ : ∃ f, fuel = f + 1 := ⟨fuel - 1, by simp at hfuel; omega⟩
    exact ⟨front, free_later, st, Fr, FL, rfl, hFr, hFL, rfl, by simp [addrs], fun _ _ => rfl,
      rfl, rfl, ⟨rfl, rfl, rfl, rfl⟩⟩
  | cons x Mr ih =>
    intro fuel mx front free_later st Fr FL hMl hMr hFr hFL hnd hdisj hfuel
    obtain ⟨a, d⟩ := x
    rw [is_list_cons] at hMr
    obtain ⟨rfl, nx, hc, hrest⟩ := hMr
    obtain ⟨f, rfl⟩ : ∃ f, fuel = f + 1 := ⟨fuel - 1, by simp at hfuel; omega⟩
    have hscan := h_scan_ml_spec d st.cells Ml fuel_in ml (st.match_cost + 1) hMl hin
    rw [addrs_cons, List.cons_append, List.nodup_cons] at hnd
    obtain ⟨hanot, hnd1⟩ := hnd
    simp only [List.mem_append, not_or] at hanot
    obtain ⟨haMr, haFr, haFL⟩ := hanot
    have haMl : a ∉ addrs Ml := fun h => hdisj a h (List.mem_cons_self _ _)
    have hdisj1 : ∀ b ∈ addrs Ml, b ∉ addrs Mr :=
      fun b hb h => hdisj b hb (List.mem_cons_of_mem _ h)
    have hf1 : Mr.length < f := by simp only [List.length_cons] at hfuel; omega
    cases hfound : (scan_ml { d := d } (nodes Ml) (st.match_cost + 1)).1 with
    | true =>
      have hscan1 : h_scan_ml d st.cells fuel_in ml (st.match_cost + 1)
          = some (true, (scan_ml { d := d } (nodes Ml) (st.match_cost + 1)).2) := by
        rw [hscan, ← hfound]
      obtain ⟨front1, fl1, st1, Fr1, FL1, e1, e2, e3, e4, e5, e6, e7, e8, e9⟩ :=
        ih f nx front (some a)
          { st with match_cost := (scan_ml { d := d } (nodes Ml) (st.match_cost + 1)).2
                    cells := set_cell st.cells a { d := d, next := free_later } }
          Fr ((a, d) :: FL)
          (is_list_set_cell _ _ _ _ _ haMl hMl) (is_list_set_cell _ _ _ _ _ haMr hrest)
          (is_list_set_cell _ _ _ _ _ haFr hFr)
          (by
            rw [is_list_cons]
            exact ⟨rfl, free_later, set_cell_eq _ _ _, is_list_set_cell _ _ _ _ _ haFL hFL⟩)
          (by
            rw [addrs_cons]
            have hperm : (addrs Mr ++ (addrs Fr ++ a :: addrs FL)).Perm
                (a :: (addrs Mr ++ (addrs Fr ++ addrs FL))) := by
              rw [← List.append_assoc, ← List.append_assoc]
              exact List.perm_middle
            rw [hperm.nodup_iff, List.nodup_cons]
            exact ⟨by simp [haMr, haFr, haFL], hnd1⟩)
          hdisj1 hf1
      refine ⟨front1, fl1, st1, Fr1, FL1, ?_, e2, e3, ?_, ?_, ?_, e7, e8, e9⟩
      · simp only [h_eliminate_duplicates, hc, hscan1]
        exact e1
      · rw [e4]
        simp only [nodes_cons, eliminate_duplicates, hfound, if_true]
        rfl
      · refine e5.trans ?_
        rw [addrs_cons, addrs_cons, ← List.append_assoc, ← List.append_assoc]
        exact List.perm_middle.trans (by simp)
      · intro b hb
        rw [addrs_cons, List.mem_cons, not_or] at hb
        rw [e6 b hb.2]
        exact set_cell_ne _ _ _ _ hb.1
    | false =>
      have hscan1 : h_scan_ml d st.cells fuel_in ml (st.match_cost + 1)
          = some (false, (scan_ml { d := d } (nodes Ml) (st.match_cost + 1)).2) := by
        rw [hscan, ← hfound]
      obtain ⟨front1, fl1, st1, Fr1, FL1, e1, e2, e3, e4, e5, e6, e7, e8, e9⟩ :=
        ih f nx (some a) free_later
          { st with match_cost := (scan_ml { d := d } (nodes Ml) (st.match_cost + 1)).2
                    cells := set_cell st.cells a { d := d, next := front } }
          ((a, d) :: Fr) FL
          (is_list_set_cell _ _ _ _ _ haMl hMl) (is_list_set_cell _ _ _ _ _ haMr hrest)
          (by
            rw [is_list_cons]
            exact ⟨rfl, front, set_cell_eq _ _ _, is_list_set_cell _ _ _ _ _ haFr hFr⟩)
          (is_list_set_cell _ _ _ _ _ haFL hFL)
          (by
            rw [addrs_cons]
            have hperm : (addrs Mr ++ (a :: addrs Fr ++ addrs FL)).Perm
                (a :: (addrs Mr ++ (addrs Fr ++ addrs FL))) := by
              rw [List.cons_append]
              exact List.perm_middle
            rw [hperm.nodup_iff, List.nodup_cons]
            exact ⟨by simp [haMr, haFr, haFL], hnd1⟩)
          hdisj1 hf1
      refine ⟨front1, fl1, st1, Fr1, FL1, ?_, e2, e3, ?_, ?_, ?_, e7, e8, e9⟩
      · simp only [h_eliminate_duplicates, hc, hscan1]
        exact e1
      · rw [e4]
        simp only [nodes_cons, eliminate_duplicates, hfound, Bool.false_eq_true, if_false]
        rfl
      · refine e5.trans ?_
        rw [addrs_cons, addrs_cons, List.cons_append]
        exact List.perm_middle.trans (by simp)
      · intro b hb
        rw [addrs_cons, List.mem_cons, not_or] at hb
        rw [e6 b hb.2]
        exact set_cell_ne _ _ _ _ hb.1

/-- The function `put_match_list` on memory lists: the cells of the list are
linked in front of the free list, in reverse order. -/
theorem h_put_match_list_spec :
    ∀ (M : List (Nat × DisjunctPtr)) (fuel : Nat) (m : Option Nat) (st : Heap_matcher)
      (fl : List (Nat × DisjunctPtr)),
      is_list st.cells m M = true → is_list st.cells st.mn_free_list fl = true →
      (addrs M ++ addrs fl).Nodup → M.length < fuel →
      ∃ st1, h_put_match_list fuel m st = some st1 ∧
        is_list st1.cells st1.mn_free_list (M.reverse ++ fl) = true ∧
        (∀ a, a ∉ addrs M → st1.cells a = st.cells a) ∧
        st1.brk = st.brk ∧ st1.match_cost = st.match_cost ∧ same_tables st st1 := by
  intro M
  induction M with
  | nil =>
    intro fuel m st fl hM hfl _ hfuel
    rw [is_list_nil] at hM
    subst hM
    obtain ⟨f, rfl⟩ : ∃ f, fuel = f + 1 := ⟨fuel - 1, by simp at hfuel; omega⟩
    exact ⟨st, rfl, by simpa using hfl, fun _ _ => rfl, rfl, rfl, ⟨rfl, rfl, rfl, rfl⟩⟩
  | cons x M ih =>
    intro fuel m st fl hM hfl hnd hfuel
    obtain ⟨a, d⟩ := x
    rw [is_list_cons] at hM
    obtain ⟨rfl, nx, hc, hrest⟩ := hM
    obtain ⟨f, rfl⟩ : ∃ f, fuel = f + 1 := ⟨fuel - 1, by simp at hfuel; omega⟩
    rw [addrs_cons, List.cons_append, List.nodup_cons] at hnd
    obtain ⟨hanot, hnd1⟩ := hnd
    simp only [List.mem_append, not_or] at hanot
    obtain ⟨haM, hafl⟩ := hanot
    obtain ⟨st1, e1, e2, e3, e4, e5, e6⟩ := ih f nx
      { st with cells := set_cell st.cells a { d := d, next := st.mn_free_list }
                mn_free_list := some a }
      ((a, d) :: fl) (is_list_set_cell _ _ _ _ _ haM hrest)
      (by
        rw [is_list_cons]
        exact ⟨rfl, st.mn_free_list, set_cell_eq _ _ _, is_list_set_cell _ _ _ _ _ hafl hfl⟩)
      (by
        rw [addrs_cons]
        rw [(List.perm_middle : (addrs M ++ a :: addrs fl).Perm _).nodup_iff, List.nodup_cons]
        exact ⟨by simp [haM, hafl], hnd1⟩)
      (by simp only [List.length_cons] at hfuel; omega)
    refine ⟨st1, ?_, ?_, ?_, e4, e5, e6⟩
    · simp only [h_put_match_list, hc]
      exact e1
    · simpa using e2
    · intro b hb
      rw [addrs_cons, List.mem_cons, not_or] at hb
      rw [e3 b hb.2]
      exact set_cell_ne _ _ _ _ hb.1

theorem h_last_spec (cells : Nat → Option Cell) (Ml : List (Nat × DisjunctPtr))
    (ml : Option Nat) (hMl : is_list cells ml Ml = true) :
    ∀ (Mr : List (Nat × DisjunctPtr)) (fuel : Nat) (a : Nat) (d : DisjunctPtr),
      is_list cells (some a) ((a, d) :: Mr) = true → (addrs ((a, d) :: Mr)).Nodup →
      (∀ b ∈ addrs Ml, b ∉ addrs ((a, d) :: Mr)) → Mr.length < fuel →
      ∃ last c, h_last cells fuel a = some last ∧ cells last = some c ∧
        last ∈ addrs ((a, d) :: Mr) ∧
        is_list (set_cell cells last { c with next := ml }) (some a) ((a, d) :: Mr ++ Ml)
          = true := by
  intro Mr
  induction Mr with
  | nil =>
    intro fuel a d h _ hdisj hfuel
    rw [is_list_cons] at h
    obtain ⟨_, nx, hc, hrest⟩ := h
    rw [is_list_nil] at hrest
    subst hrest
    obtain ⟨f, rfl⟩ : ∃ f, fuel = f + 1 := ⟨fuel - 1, by simp at hfuel; omega⟩
    refine ⟨a, _, by simp [h_last, hc], hc, List.mem_cons_self _ _, ?_⟩
    rw [List.cons_append, is_list_cons]
    refine ⟨rfl, ml, set_cell_eq _ _ _, ?_⟩
    exact is_list_set_cell _ _ _ _ _ (fun hmem => hdisj a hmem (List.mem_cons_self _ _)) hMl
  | cons y Mr ih =>
    intro fuel a d h hnd hdisj hfuel
    obtain ⟨a1, d1⟩ := y
    rw [is_list_cons] at h
    obtain ⟨_, nx, hc, hrest⟩ := h
    have hnx : nx = some a1 := ((is_list_cons _ _ _ _ _).1 hrest).1
    subst hnx
    obtain ⟨f, rfl⟩ : ∃ f, fuel = f + 1 := ⟨fuel - 1, by simp at hfuel; omega⟩
    rw [addrs_cons, List.nodup_cons] at hnd
    obtain ⟨last, c, e1, e2, e3, e4⟩ := ih f a1 d1 hrest hnd.2
      (fun b hb hmem => hdisj b hb (List.mem_cons_of_mem _ hmem))
      (by simp only [List.length_cons] at hfuel; omega)
    have hla : last ≠ a := fun h => hnd.1 (h ▸ e3)
    refine ⟨last, c, by simp only [h_last, hc]; exact e1, e2, List.mem_cons_of_mem _ e3, ?_⟩
    rw [List.cons_append, is_list_cons]
    refine ⟨rfl, some a1, ?_, e4⟩
    rw [set_cell_ne _ _ _ _ (Ne.symm hla), hc]

/-- The end of `form_match_list` on memory lists: the result is the list
`mr` followed by `ml`, and only a cell of `mr` is written. -/
theorem h_catenate_spec (fuel : Nat) (mr ml : Option Nat) (st : Heap_matcher)
    (Mr Ml : List (Nat × DisjunctPtr)) (hMr : is_list st.cells mr Mr = true)
    (hMl : is_list st.cells ml Ml = true) (hnd : (addrs Mr).Nodup)
    (hdisj : ∀ b ∈ addrs Ml, b ∉ addrs Mr) (hfuel : Mr.length < fuel) :
    ∃ res st1, h_catenate fuel mr ml st = some (res, st1) ∧
      is_list st1.cells res (Mr ++ Ml) = true ∧
      (∀ a, a ∉ addrs Mr → st1.cells a = st.cells a) ∧
      st1.mn_free_list = st.mn_free_list ∧ st1.brk = st.brk ∧
      st1.match_cost = st.match_cost ∧ same_tables st st1 := by
  cases Mr with
  | nil =>
    rw [is_list_nil] at hMr
    subst hMr
    exact ⟨ml, st, rfl, by simpa using hMl, fun _ _ => rfl, rfl, rfl, rfl, ⟨rfl, rfl, rfl, rfl⟩⟩
  | cons x Mr =>
    obtain ⟨a, d⟩ := x
    have hmr : mr = some a := ((is_list_cons _ _ _ _ _).1 hMr).1
    subst hmr
    obtain ⟨last, c, e1, e2, e3, e4⟩ := h_last_spec st.cells Ml ml hMl Mr fuel a d hMr hnd hdisj
      (by simp only [List.length_cons] at hfuel; omega)
    refine ⟨some a, { st with cells := set_cell st.cells last { c with next := ml } },
      by simp [h_catenate, e1, e2], e4, ?_, rfl, rfl, rfl, ⟨rfl, rfl, rfl, rfl⟩⟩
    intro b hb
    exact set_cell_ne _ _ _ _ (fun h => hb (h ▸ e3))

/-! ## The match nodes in memory: `form_match_list` -/

theorem stop_left_keep (lw : Int) (d : DisjunctPtr) (h : d.node.left ≠ []) :
    stop_left lw d = some (!left_word_ge lw { d := d }) := by
  cases hl : d.node.left with
  | nil => exact absurd hl h
  | cons c rest =>
    simp only [stop_left, left_word_ge, hl, first_word]
    by_cases hlt : c.word < lw
    · simp [hlt]
    · simp [hlt, not_lt.1 hlt]

theorem stop_right_keep (rw : Int) (d : DisjunctPtr) (h : d.node.right ≠ []) :
    stop_right rw d = some (!right_word_le rw { d := d }) := by
  cases hl : d.node.right with
  | nil => exact absurd hl h
  | cons c rest =>
    simp only [stop_right, right_word_le, hl, first_word]
    by_cases hlt : c.word > rw
    · simp [hlt]
    · simp [hlt, not_lt.1 hlt]

theorem nodes_length (l : List (Nat × DisjunctPtr)) : (nodes l).length = l.length := by
  simp [nodes]

theorem addrs_length (l : List (Nat × DisjunctPtr)) : (addrs l).length = l.length := by
  simp [addrs]

/-- The function `form_match_list` on memory lists, for the two buckets it
reads: it returns; the result is a list of distinct cells taken from the pool,
holding the disjuncts the list model returns; the free list is well-formed
again and holds no cell of the result; no cell outside the pool of the
beginning is written, and the tables and sizes are not assigned. -/
theorem h_form_match_list_spec (H : HashConsts) (fuel : Nat) (st : Heap_matcher) (w : Nat)
    (lc : Option Connector) (lw : Int) (rc : Option Connector) (rw : Int)
    (fl : List (Nat × DisjunctPtr)) (ml0 mr0 : Option Nat) (Bl Br : List (Nat × DisjunctPtr))
    (hl : h_bucket_for H st.l_table_size st.l_table w lc = some ml0)
    (hr : h_bucket_for H st.r_table_size st.r_table w rc = some mr0)
    (hp : pool_ok st fl)
    (hBl : is_list st.cells ml0 Bl = true) (hBr : is_list st.cells mr0 Br = true)
    (hBlp : ∀ a ∈ addrs Bl, ¬ in_pool st fl a) (hBrp : ∀ a ∈ addrs Br, ¬ in_pool st fl a)
    (hld : ∀ x ∈ Bl, x.2.node.left ≠ []) (hrd : ∀ x ∈ Br, x.2.node.right ≠ [])
    (hfl : Bl.length < fuel) (hfr : Br.length < fuel) :
    ∃ res st1 R fl1, h_form_match_list H fuel st w lc lw rc rw = some (res, st1) ∧
      is_list st1.cells res R = true ∧ (addrs R).Nodup ∧
      nodes R = ((nodes Br).takeWhile (right_word_le rw)).filter
          (fun mx => !(((nodes Bl).takeWhile (left_word_ge lw)).reverse.any
            (fun my => decide (mx.d.addr = my.d.addr))))
        ++ ((nodes Bl).takeWhile (left_word_ge lw)).reverse ∧
      pool_ok st1 fl1 ∧ (∀ a ∈ addrs R, in_pool st fl a) ∧
      (∀ a ∈ addrs R, ¬ in_pool st1 fl1 a) ∧ (∀ a, in_pool st1 fl1 a → in_pool st fl a) ∧
      (∀ a, ¬ in_pool st fl a → st1.cells a = st.cells a) ∧ same_tables st st1 := by
  -- the first copy loop
  obtain ⟨ml, st1, Ml, fl1, a1, a2, a3, a4, a5, a6, a7, a8, a9, _, a11⟩ :=
    h_copy_loop_spec (stop_left lw) (left_word_ge lw) Bl fuel ml0 none st [] fl hp hBl rfl
      List.nodup_nil hBlp (fun a ha => by simp [addrs] at ha)
      (fun x hx => stop_left_keep lw x.2 (hld x hx)) hfl
  have hMlsub : ∀ a ∈ addrs Ml, in_pool st fl a := by
    intro a ha
    rcases a6 a ha with h | h
    · simp [addrs] at h
    · exact h
  have hMllen : Ml.length < fuel := by
    have h1 := congrArg List.length a9
    rw [nodes_length] at h1
    have h2 := (List.takeWhile_sublist (l := nodes Bl) (left_word_ge lw)).length_le
    rw [nodes_length] at h2
    simp only [List.length_append, List.length_reverse, nodes_length, List.length_nil] at h1
    omega
  -- the second copy loop
  have hBr1 : is_list st1.cells mr0 Br = true :=
    is_list_congr st.cells _ Br mr0 (fun a ha => a8 a (hBrp a ha)) hBr
  obtain ⟨mr, st2, Mr, fl2, b1, b2, b3, b4, b5, b6, b7, b8, b9, _, b11⟩ :=
    h_copy_loop_spec (stop_right rw) (right_word_le rw) Br fuel mr0 none st1 [] fl1 a2 hBr1 rfl
      List.nodup_nil (fun a ha h => hBrp a ha (a7 a h)) (fun a ha => by simp [addrs] at ha)
      (fun x hx => stop_right_keep rw x.2 (hrd x hx)) hfr
  have hMrsub : ∀ a ∈ addrs Mr, in_pool st1 fl1 a := by
    intro a ha
    rcases b6 a ha with h | h
    · simp [addrs] at h
    · exact h
  have hMrlen : Mr.length < fuel := by
    have h1 := congrArg List.length b9
    rw [nodes_length] at h1
    have h2 := (List.takeWhile_sublist (l := nodes Br) (right_word_le rw)).length_le
    rw [nodes_length] at h2
    simp only [List.length_append, List.length_reverse, nodes_length, List.length_nil] at h1
    omega
  have hMl2 : is_list st2.cells ml Ml = true :=
    is_list_congr st1.cells _ Ml ml (fun a ha => b8 a (a5 a ha)) a3
  have hMlMr : ∀ a ∈ addrs Ml, a ∉ addrs Mr := fun a ha h => a5 a ha (hMrsub a h)
  -- the duplicate elimination
  obtain ⟨mr1, later, st3, Mr1, FL1, c1, c2, c3, c4, c5, c6, c7, c8, c9⟩ :=
    h_eliminate_duplicates_spec ml Ml fuel hMllen Mr fuel mr none none st2 [] [] hMl2 b3 rfl rfl
      (by simpa [addrs] using b4) hMlMr hMrlen
  have c5a : (addrs Mr1 ++ addrs FL1).Perm (addrs Mr) := by simpa [addrs] using c5
  have hnd15 : (addrs Mr1 ++ addrs FL1).Nodup := c5a.nodup_iff.2 b4
  obtain ⟨hndMr1, hndFL1, hdisj15⟩ := List.nodup_append.1 hnd15
  have hMr1sub : ∀ a ∈ addrs Mr1, a ∈ addrs Mr :=
    fun a ha => c5a.mem_iff.1 (List.mem_append_left _ ha)
  have hFL1sub : ∀ a ∈ addrs FL1, a ∈ addrs Mr :=
    fun a ha => c5a.mem_iff.1 (List.mem_append_right _ ha)
  have hlen15 : Mr1.length + FL1.length = Mr.length := by
    have := c5a.length_eq
    simpa [addrs_length] using this
  have hMl3 : is_list st3.cells ml Ml = true :=
    is_list_congr st2.cells _ Ml ml (fun a ha => c6 a (hMlMr a ha)) hMl2
  have hfl2Mr : ∀ a ∈ addrs fl2, a ∉ addrs Mr := fun a ha h => b5 a h (Or.inl ha)
  have hfree3 : is_list st3.cells st3.mn_free_list fl2 = true := by
    rw [c7]
    exact is_list_congr st2.cells _ fl2 _ (fun a ha => c6 a (hfl2Mr a ha)) b2.1
  -- the cells of `free_later` go back to the free list
  obtain ⟨st4, d1, d2, d3, d4, d5, d6⟩ := h_put_match_list_spec FL1 fuel later st3 fl2 c3 hfree3
    (List.nodup_append.2 ⟨hndFL1, b2.2.1, fun a ha h => hfl2Mr a h (hFL1sub a ha)⟩)
    (by omega)
  have hMr14 : is_list st4.cells mr1 Mr1 = true :=
    is_list_congr st3.cells _ Mr1 mr1 (fun a ha => d3 a (fun h => hdisj15 ha h)) c2
  have hMl4 : is_list st4.cells ml Ml = true :=
    is_list_congr st3.cells _ Ml ml (fun a ha => d3 a (fun h => hMlMr a ha (hFL1sub a h))) hMl3
  -- the two lists are catenated
  obtain ⟨res, st5, f1, f2, f3, f4, f5, f6, f7⟩ := h_catenate_spec fuel mr1 ml st4 Mr1 Ml hMr14
    hMl4 hndMr1 (fun a ha h => hMlMr a ha (hMr1sub a h)) (by omega)
  have hbrk : st5.brk = st2.brk := by rw [f5, d4, c8]
  refine ⟨res, st5, Mr1 ++ Ml, FL1.reverse ++ fl2, ?_, f2, ?_, ?_, ⟨?_, ?_, ?_⟩, ?_, ?_, ?_, ?_, ?_⟩
  · simp only [h_form_match_list, hl, hr, a1, b1, c1, d1]
    exact f1
  · rw [addrs_append]
    exact List.nodup_append.2 ⟨hndMr1, a4, fun a ha h => hMlMr a h (hMr1sub a ha)⟩
  · have hfront := congrArg (fun t => t.1) c4
    simp only at hfront
    rw [nodes_append, hfront, eliminate_duplicates_front, a9, b9]
    simp [nodes, List.filter_reverse]
  · rw [f4]
    refine is_list_congr st4.cells _ _ _ (fun a ha => f3 a (fun h => ?_)) d2
    rw [addrs_append, List.mem_append] at ha
    rcases ha with ha | ha
    · have ha1 : a ∈ addrs FL1 := by simpa [addrs] using ha
      exact hdisj15 h ha1
    · exact hfl2Mr a ha (hMr1sub a h)
  · rw [addrs_append]
    refine List.nodup_append.2 ⟨by simpa [addrs] using hndFL1, b2.2.1, fun a ha h => ?_⟩
    have ha1 : a ∈ addrs FL1 := by simpa [addrs] using ha
    exact hfl2Mr a h (hFL1sub a ha1)
  · intro a ha
    rw [hbrk]
    rw [addrs_append, List.mem_append] at ha
    rcases ha with ha | ha
    · have ha1 : a ∈ addrs FL1 := by simpa [addrs] using ha
      have := b5 a (hFL1sub a ha1)
      simp only [in_pool, not_or, not_le] at this
      exact this.2
    · exact b2.2.2 a ha
  · intro a ha
    rw [addrs_append, List.mem_append] at ha
    rcases ha with ha | ha
    · exact a7 a (hMrsub a (hMr1sub a ha))
    · exact hMlsub a ha
  · intro a ha hpool
    have hnot2 : ¬ in_pool st2 fl2 a := by
      rw [addrs_append, List.mem_append] at ha
      rcases ha with ha | ha
      · exact b5 a (hMr1sub a ha)
      · exact fun h => a5 a ha (b7 a h)
    simp only [in_pool, not_or, not_le] at hnot2
    simp only [in_pool, addrs_append, List.mem_append] at hpool
    rcases hpool with (h | h) | h
    · have h1 : a ∈ addrs FL1 := by simpa [addrs] using h
      rw [addrs_append, List.mem_append] at ha
      rcases ha with ha | ha
      · exact hdisj15 ha h1
      · exact hMlMr a ha (hFL1sub a h1)
    · exact hnot2.1 h
    · rw [hbrk] at h
      omega
  · intro a hpool
    simp only [in_pool, addrs_append, List.mem_append] at hpool
    rcases hpool with (h | h) | h
    · have h1 : a ∈ addrs FL1 := by simpa [addrs] using h
      exact a7 a (hMrsub a (hFL1sub a h1))
    · exact a7 a (b7 a (Or.inl h))
    · rw [hbrk] at h
      exact a7 a (b7 a (Or.inr h))
  · intro a ha
    have h1 : ¬ in_pool st1 fl1 a := fun h => ha (a7 a h)
    have hMr : a ∉ addrs Mr := fun h => h1 (hMrsub a h)
    rw [f3 a (fun h => hMr (hMr1sub a h)), d3 a (fun h => hMr (hFL1sub a h)), c6 a hMr,
      b8 a h1, a8 a ha]
  · obtain ⟨t1, t2, t3, t4⟩ := a11
    obtain ⟨u1, u2, u3, u4⟩ := b11
    obtain ⟨v1, v2, v3, v4⟩ := c9
    obtain ⟨w1, w2, w3, w4⟩ := d6
    obtain ⟨x1, x2, x3, x4⟩ := f7
    exact ⟨x1.trans (w1.trans (v1.trans (u1.trans t1))),
      x2.trans (w2.trans (v2.trans (u2.trans t2))),
      x3.trans (w3.trans (v3.trans (u3.trans t3))),
      x4.trans (w4.trans (v4.trans (u4.trans t4)))⟩

/-! ## The match nodes in memory: the tables -/

theorem tables_ok_congr (cells cells1 : Nat → Option Cell) (t : List (List (Option Nat)))
    (L : List (List (List (Nat × DisjunctPtr)))) (h : tables_ok cells t L)
    (hsame : ∀ a ∈ table_addrs L, cells1 a = cells a) : tables_ok cells1 t L := by
  unfold tables_ok at h ⊢
  induction h with
  | nil => exact List.Forall₂.nil
  | @cons tw Lw t1 L1 hab _ ih =>
    refine List.Forall₂.cons ?_ (ih (fun a ha => hsame a ?_))
    · have hsame1 : ∀ a ∈ addrs Lw.flatten, cells1 a = cells a := by
        intro a ha
        apply hsame
        simp only [table_addrs, addrs, List.flatten_cons, List.flatten_append, List.map_append,
          List.mem_append] at ha ⊢
        exact Or.inl ha
      clear ih hsame
      induction hab with
      | nil => exact List.Forall₂.nil
      | @cons head B tw1 Lw1 hB _ ih1 =>
        refine List.Forall₂.cons ?_ (ih1 (fun a ha => hsame1 a ?_))
        · refine is_list_congr cells cells1 B head (fun a ha => hsame1 a ?_) hB
          simp only [addrs, List.flatten_cons, List.map_append, List.mem_append] at ha ⊢
          exact Or.inl ha
        · simp only [addrs, List.flatten_cons, List.map_append, List.mem_append] at ha ⊢
          exact Or.inr ha
    · simp only [table_addrs, addrs, List.flatten_cons, List.flatten_append, List.map_append,
        List.mem_append] at ha ⊢
      exact Or.inr ha

theorem length_le_flatten_of_mem {α : Type} (l : List α) :
    ∀ (L : List (List α)), l ∈ L → l.length ≤ L.flatten.length := by
  intro L
  induction L with
  | nil => intro h; cases h
  | cons x L ih =>
    intro h
    rw [List.flatten_cons, List.length_append]
    rcases List.mem_cons.1 h with rfl | h1
    · omega
    · have := ih h1
      omega

theorem flatten_map_flatten {α : Type} (L : List (List (List α))) :
    (L.map List.flatten).flatten = L.flatten.flatten := by
  induction L with
  | nil => rfl
  | cons y L ih => simp [List.flatten_append, ih]

/-- The bucket `h_bucket_for` returns is a list of table cells. -/
theorem bucket_of_tables (H : HashConsts) (cells : Nat → Option Cell) (sizes : List Int)
    (t : List (List (Option Nat))) (L : List (List (List (Nat × DisjunctPtr))))
    (h : tables_ok cells t L) (w : Nat) (c : Option Connector) (head : Option Nat)
    (hb : h_bucket_for H sizes t w c = some head) :
    ∃ B, is_list cells head B = true ∧ (∀ x ∈ B, x ∈ L.flatten.flatten) ∧
      B.length ≤ (table_addrs L).length := by
  cases c with
  | none =>
    simp only [h_bucket_for, Option.some.injEq] at hb
    subst hb
    exact ⟨[], rfl, fun x hx => absurd hx (List.not_mem_nil x), Nat.zero_le _⟩
  | some c1 =>
    simp only [h_bucket_for] at hb
    split at hb
    · rename_i size tw hs ht
      split at hb
      · obtain ⟨Lw, hLw, hrow⟩ := forall₂_getElem? h w tw ht
        obtain ⟨B, hB, hlist⟩ := forall₂_getElem? hrow _ head hb
        have hBmem : B ∈ Lw := List.mem_iff_getElem?.2 ⟨_, hB⟩
        have hLwmem : Lw ∈ L := List.mem_iff_getElem?.2 ⟨_, hLw⟩
        refine ⟨B, hlist, fun x hx => ?_, ?_⟩
        · exact List.mem_flatten.2 ⟨B, List.mem_flatten.2 ⟨Lw, hLwmem, hBmem⟩, hx⟩
        · have h1 := length_le_flatten_of_mem B Lw hBmem
          have h2 := length_le_flatten_of_mem Lw.flatten (L.map List.flatten)
            (List.mem_map.2 ⟨Lw, hLwmem, rfl⟩)
          rw [flatten_map_flatten] at h2
          simp only [table_addrs, addrs, List.length_map]
          omega
      · cases hb
    · cases hb

/-- Giving a list back with `put_match_list` keeps the free list well-formed
and the cells `T` (the table cells) unwritten and outside the pool. -/
theorem h_put_back_spec (fuel : Nat) (st : Heap_matcher) (res : Option Nat)
    (R fl : List (Nat × DisjunctPtr)) (T : List Nat)
    (hR : is_list st.cells res R = true) (hnd : (addrs R).Nodup) (hp : pool_ok st fl)
    (hRp : ∀ a ∈ addrs R, ¬ in_pool st fl a) (hT : ∀ a ∈ T, ¬ in_pool st fl a)
    (hRT : ∀ a ∈ addrs R, a ∉ T) (hfuel : R.length < fuel) :
    ∃ st1, h_put_match_list fuel res st = some st1 ∧ pool_ok st1 (R.reverse ++ fl) ∧
      (∀ a ∈ T, st1.cells a = st.cells a ∧ ¬ in_pool st1 (R.reverse ++ fl) a) ∧
      same_tables st st1 ∧ st1.match_cost = st.match_cost := by
  have hRfl : ∀ a ∈ addrs R, a ∉ addrs fl := fun a ha h => hRp a ha (Or.inl h)
  obtain ⟨st1, e1, e2, e3, e4, e5, e6⟩ := h_put_match_list_spec R fuel res st fl hR hp.1
    (List.nodup_append.2 ⟨hnd, hp.2.1, fun a ha h => hRfl a ha h⟩) hfuel
  have hmem : ∀ a, a ∈ addrs (R.reverse ++ fl) ↔ a ∈ addrs R ∨ a ∈ addrs fl := by
    intro a
    simp [addrs]
  refine ⟨st1, e1, ⟨e2, ?_, ?_⟩, ?_, e6, e5⟩
  · rw [addrs_append]
    refine List.nodup_append.2 ⟨?_, hp.2.1, fun a ha h => ?_⟩
    · have : addrs R.reverse = (addrs R).reverse := by simp [addrs]
      rw [this]
      exact List.nodup_reverse.2 hnd
    · exact hRfl a (by simpa [addrs] using ha) h
  · intro a ha
    rw [e4]
    rcases (hmem a).1 ha with h | h
    · have := hRp a h
      simp only [in_pool, not_or, not_le] at this
      exact this.2
    · exact hp.2.2 a h
  · intro a ha
    refine ⟨e3 a (fun h => hRT a h ha), fun hpool => ?_⟩
    have hnot := hT a ha
    simp only [in_pool, not_or, not_le] at hnot
    rcases hpool with h | h
    · rcases (hmem a).1 h with h1 | h1
      · exact hRT a h1 ha
      · exact hnot.1 h1
    · rw [e4] at h
      omega

/-- C38, query frame: in a memory where every bucket of the tables is a list
of cells, the free list is a list of distinct cells, and no table cell is in
the pool (on the free list, or not yet handed out by `xalloc`),
`form_match_list` returns with enough fuel; the table sizes and bucket
pointers are not assigned and no table cell is written, so every bucket has
the same cells in the same order; no cell outside the pool is written, the
rest of the change being the free list and `match_cost`; the returned list
consists of distinct cells none of which is a table cell, and holds the
disjuncts the list model returns; the free list is well-formed again and
holds neither a table cell nor a cell of the result. -/
theorem C38_query_frame (H : HashConsts) (fuel : Nat) (st : Heap_matcher) (w : Nat)
    (lc : Option Connector) (lw : Int) (rc : Option Connector) (rw : Int)
    (LL RL : List (List (List (Nat × DisjunctPtr)))) (fl : List (Nat × DisjunctPtr))
    (htl : tables_ok st.cells st.l_table LL) (htr : tables_ok st.cells st.r_table RL)
    (hp : pool_ok st fl)
    (hdisj : ∀ a ∈ table_addrs LL ++ table_addrs RL, ¬ in_pool st fl a)
    (hld : ∀ x ∈ LL.flatten.flatten, x.2.node.left ≠ [])
    (hrd : ∀ x ∈ RL.flatten.flatten, x.2.node.right ≠ [])
    (hl : ∃ ml0, h_bucket_for H st.l_table_size st.l_table w lc = some ml0)
    (hr : ∃ mr0, h_bucket_for H st.r_table_size st.r_table w rc = some mr0)
    (hfuel : (table_addrs LL).length + (table_addrs RL).length < fuel) :
    ∃ res st1 R fl1, h_form_match_list H fuel st w lc lw rc rw = some (res, st1) ∧
      same_tables st st1 ∧
      tables_ok st1.cells st1.l_table LL ∧ tables_ok st1.cells st1.r_table RL ∧
      (∀ a ∈ table_addrs LL ++ table_addrs RL, st1.cells a = st.cells a) ∧
      (∀ a, ¬ in_pool st fl a → st1.cells a = st.cells a) ∧
      is_list st1.cells res R = true ∧ (addrs R).Nodup ∧
      (∀ a ∈ addrs R, a ∉ table_addrs LL ++ table_addrs RL) ∧
      pool_ok st1 fl1 ∧ (∀ a ∈ table_addrs LL ++ table_addrs RL, ¬ in_pool st1 fl1 a) ∧
      (∀ a ∈ addrs R, ¬ in_pool st1 fl1 a) ∧
      ∃ ml0 mr0 Bl Br,
        h_bucket_for H st.l_table_size st.l_table w lc = some ml0 ∧
        h_bucket_for H st.r_table_size st.r_table w rc = some mr0 ∧
        is_list st.cells ml0 Bl = true ∧ is_list st.cells mr0 Br = true ∧
        nodes R = ((nodes Br).takeWhile (right_word_le rw)).filter
            (fun mx => !(((nodes Bl).takeWhile (left_word_ge lw)).reverse.any
              (fun my => decide (mx.d.addr = my.d.addr))))
          ++ ((nodes Bl).takeWhile (left_word_ge lw)).reverse := by
  obtain ⟨ml0, hl⟩ := hl
  obtain ⟨mr0, hr⟩ := hr
  obtain ⟨Bl, hBl, hBlmem, hBllen⟩ := bucket_of_tables H st.cells _ _ LL htl w lc ml0 hl
  obtain ⟨Br, hBr, hBrmem, hBrlen⟩ := bucket_of_tables H st.cells _ _ RL htr w rc mr0 hr
  have hBlT : ∀ a ∈ addrs Bl, a ∈ table_addrs LL ++ table_addrs RL := by
    intro a ha
    obtain ⟨x, hx, rfl⟩ := List.mem_map.1 ha
    exact List.mem_append_left _ (List.mem_map.2 ⟨x, hBlmem x hx, rfl⟩)
  have hBrT : ∀ a ∈ addrs Br, a ∈ table_addrs LL ++ table_addrs RL := by
    intro a ha
    obtain ⟨x, hx, rfl⟩ := List.mem_map.1 ha
    exact List.mem_append_right _ (List.mem_map.2 ⟨x, hBrmem x hx, rfl⟩)
  obtain ⟨res, st1, R, fl1, e1, e2, e3, e4, e5, e6, e7, e8, e9, e10⟩ :=
    h_form_match_list_spec H fuel st w lc lw rc rw fl ml0 mr0 Bl Br hl hr hp hBl hBr
      (fun a ha => hdisj a (hBlT a ha)) (fun a ha => hdisj a (hBrT a ha))
      (fun x hx => hld x (hBlmem x hx)) (fun x hx => hrd x (hBrmem x hx))
      (by omega) (by omega)
  have hT : ∀ a ∈ table_addrs LL ++ table_addrs RL, st1.cells a = st.cells a :=
    fun a ha => e9 a (hdisj a ha)
  refine ⟨res, st1, R, fl1, e1, e10, ?_, ?_, hT, e9, e2, e3, ?_, e5, ?_, e7,
    ml0, mr0, Bl, Br, hl, hr, hBl, hBr, e4⟩
  · rw [e10.2.2.1]
    exact tables_ok_congr st.cells _ _ LL htl (fun a ha => hT a (List.mem_append_left _ ha))
  · rw [e10.2.2.2]
    exact tables_ok_congr st.cells _ _ RL htr (fun a ha => hT a (List.mem_append_right _ ha))
  · exact fun a ha hmem => hdisj a hmem (e6 a ha)
  · exact fun a ha h => hdisj a ha (e8 a h)

/-- Witness for C38: a left bucket of two cells, a free list of one cell;
the query copies both entries, into the free cell 2 and the new cell 3, and
returns the list that starts at the cell 3. -/
theorem C38_query_frame_witness :
    tables_ok heap_matcher0.cells heap_matcher0.l_table heap0_left ∧
    tables_ok heap_matcher0.cells heap_matcher0.r_table [[[]]] ∧
    pool_ok heap_matcher0 [(2, xalloc_Match_node.d)] ∧
    (h_form_match_list hash0 3 heap_matcher0 0 (some (conn0 "A" 0)) 0 none 0).map
      (fun r => (r.1, r.2.mn_free_list, r.2.brk, r.2.match_cost)) = some (some 3, none, 4, 0) ∧
    ∃ res st1 R fl1,
      h_form_match_list hash0 3 heap_matcher0 0 (some (conn0 "A" 0)) 0 none 0
        = some (res, st1) ∧
      same_tables heap_matcher0 st1 ∧
      tables_ok st1.cells st1.l_table heap0_left ∧ tables_ok st1.cells st1.r_table [[[]]] ∧
      (∀ a ∈ table_addrs heap0_left ++ table_addrs [[[]]],
        st1.cells a = heap_matcher0.cells a) ∧
      (∀ a, ¬ in_pool heap_matcher0 [(2, xalloc_Match_node.d)] a →
        st1.cells a = heap_matcher0.cells a) ∧
      is_list st1.cells res R = true ∧ (addrs R).Nodup ∧
      (∀ a ∈ addrs R, a ∉ table_addrs heap0_left ++ table_addrs [[[]]]) ∧
      pool_ok st1 fl1 ∧
      (∀ a ∈ table_addrs heap0_left ++ table_addrs [[[]]], ¬ in_pool st1 fl1 a) ∧
      (∀ a ∈ addrs R, ¬ in_pool st1 fl1 a) ∧
      ∃ ml0 mr0 Bl Br,
        h_bucket_for hash0 heap_matcher0.l_table_size heap_matcher0.l_table 0
          (some (conn0 "A" 0)) = some ml0 ∧
        h_bucket_for hash0 heap_matcher0.r_table_size heap_matcher0.r_table 0 none
          = some mr0 ∧
        is_list heap_matcher0.cells ml0 Bl = true ∧
        is_list heap_matcher0.cells mr0 Br = true ∧
        nodes R = ((nodes Br).takeWhile (right_word_le 0)).filter
            (fun mx => !(((nodes Bl).takeWhile (left_word_ge 0)).reverse.any
              (fun my => decide (mx.d.addr = my.d.addr))))
          ++ ((nodes Bl).takeWhile (left_word_ge 0)).reverse :=
  have htl : tables_ok heap_matcher0.cells heap_matcher0.l_table heap0_left :=
    List.Forall₂.cons (List.Forall₂.cons (by decide) List.Forall₂.nil) List.Forall₂.nil
  have htr : tables_ok heap_matcher0.cells heap_matcher0.r_table [[[]]] :=
    List.Forall₂.cons (List.Forall₂.cons (by decide) List.Forall₂.nil) List.Forall₂.nil
  have hp : pool_ok heap_matcher0 [(2, xalloc_Match_node.d)] :=
    ⟨by decide, by decide, by decide⟩
  ⟨htl, htr, hp, by rfl,
    C38_query_frame hash0 3 heap_matcher0 0 (some (conn0 "A" 0)) 0 none 0 heap0_left [[[]]]
      [(2, xalloc_Match_node.d)] htl htr hp
      (by
        intro a ha
        have h3 : a = 0 ∨ a = 1 := by
          simpa [table_addrs, addrs, heap0_left] using ha
        simp only [in_pool, addrs, List.map_cons, List.map_nil, List.mem_singleton,
          heap_matcher0]
        omega)
      (by decide) (by decide) ⟨some 0, by decide⟩ ⟨none, by decide⟩ (by decide)⟩

end LinkGrammar
